import Mathlib

/-!
Verification development for the RocksDB write-batch core
(`db/write_batch.cc`).  The batch representation, its append operations,
savepoints, iteration/visitor dispatch, the content classifier and the
`MemTableInserter` are embedded shallowly: byte buffers are `List Nat`
(each byte `< 256` where it matters), machine integers are `Nat` with
explicit `% 2^32` at the points the C++ types truncate, and statuses are
an inductive mirroring `rocksdb::Status` kinds.
-/

namespace rocksdb

/-- Corruption messages of `db/write_batch.cc`, one constructor per distinct
`Status::Corruption(...)` string in the source. -/
inductive CorruptionMsg where
  /-- "bad WriteBatch Put" -/
  | badPut
  /-- "bad WriteBatch Delete" -/
  | badDelete
  /-- "bad WriteBatch DeleteRange" -/
  | badDeleteRange
  /-- "bad WriteBatch Merge" -/
  | badMerge
  /-- "bad WriteBatch Blob" -/
  | badBlob
  /-- "bad EndPrepare XID" -/
  | badEndPrepareXid
  /-- "bad Commit XID" -/
  | badCommitXid
  /-- "bad Rollback XID" -/
  | badRollbackXid
  /-- "unknown WriteBatch tag" -/
  | unknownTag
  /-- "malformed WriteBatch (too small)" -/
  | tooSmall
  /-- "WriteBatch has wrong count" -/
  | wrongCount
deriving DecidableEq, Repr

/-- Status kinds returned by the write-batch core (`rocksdb::Status`).
`memoryLimit` is the status of an append exceeding `max_bytes_`. -/
inductive Status where
  | ok
  | notFound
  | corruption (msg : CorruptionMsg)
  | invalidArgument
  | notSupported
  | memoryLimit
deriving DecidableEq, Repr

/-! ### Value-type tags.

Modelled from the spec: the numeric tag bytes live in `db/dbformat.h`,
which is not part of the source tree; the spec (§3.1) freezes the catalog
of tags and says the byte values are implementation-frozen.  We fix
distinct concrete byte values for them; no claim depends on the particular
numbers, only on their distinctness. -/

def kTypeDeletion : Nat := 0
def kTypeValue : Nat := 1
def kTypeMerge : Nat := 2
def kTypeLogData : Nat := 3
def kTypeColumnFamilyDeletion : Nat := 4
def kTypeColumnFamilyValue : Nat := 5
def kTypeColumnFamilyMerge : Nat := 6
def kTypeSingleDeletion : Nat := 7
def kTypeColumnFamilySingleDeletion : Nat := 8
def kTypeBeginPrepareXID : Nat := 9
def kTypeEndPrepareXID : Nat := 10
def kTypeCommitXID : Nat := 11
def kTypeRollbackXID : Nat := 12
def kTypeNoop : Nat := 13
def kTypeColumnFamilyRangeDeletion : Nat := 14
def kTypeRangeDeletion : Nat := 15

/-! ### Content flags (`enum ContentFlags`, write_batch.cc lines 59-70). -/

def DEFERRED : Nat := 1
def HAS_PUT : Nat := 2
def HAS_DELETE : Nat := 4
def HAS_SINGLE_DELETE : Nat := 8
def HAS_MERGE : Nat := 16
def HAS_BEGIN_PREPARE : Nat := 32
def HAS_END_PREPARE : Nat := 64
def HAS_COMMIT : Nat := 128
def HAS_ROLLBACK : Nat := 256
def HAS_DELETE_RANGE : Nat := 512

/-! ### Codec.

Modelled from the spec (§4.1): the codec primitives live in
`util/coding.h`/`util/coding.cc`, not part of the source tree.  Fixed
32-bit integers are little-endian 4-byte sequences; varints are base-128
little-endian with the 32-bit reader refusing more than 5 bytes;
length-prefixed slices are a varint32 length followed by the raw bytes. -/

/-- Base-128 little-endian varint encoding (`PutVarint32` loop body). -/
def lebEnc (n : Nat) : List Nat :=
  if n < 128 then [n] else (n % 128 + 128) :: lebEnc (n / 128)
termination_by n
decreasing_by omega

/-- `PutVarint32`: the argument is a `uint32_t` in the source, hence the
truncation. -/
def putVarint32 (n : Nat) : List Nat := lebEnc (n % 4294967296)

/-- Decoding loop of `GetVarint32PtrFallback`: `shift` runs 0,7,…,28; a byte
with the high bit set continues; the accumulated result is a `uint32_t`. -/
def getVarint32Aux : List Nat → Nat → Nat → Option (Nat × List Nat)
  | [], _, _ => none
  | b :: rest, shift, acc =>
    if 28 < shift then none
    else if b &&& 128 ≠ 0 then
      getVarint32Aux rest (shift + 7) (acc ||| ((b &&& 127) <<< shift))
    else
      some ((acc ||| (b <<< shift)) % 4294967296, rest)

/-- `GetVarint32`: consume a varint32 from the front of the input. -/
def getVarint32 (input : List Nat) : Option (Nat × List Nat) :=
  getVarint32Aux input 0 0

/-- `EncodeFixed32`, little-endian. -/
def putFixed32 (n : Nat) : List Nat :=
  [n % 256, n / 256 % 256, n / 65536 % 256, n / 16777216 % 256]

/-- `DecodeFixed32`, little-endian; bytes are read as `uint8_t`. -/
def decodeFixed32 (l : List Nat) : Nat :=
  l.getD 0 0 % 256 + l.getD 1 0 % 256 * 256 + l.getD 2 0 % 256 * 65536 +
    l.getD 3 0 % 256 * 16777216

/-- `PutLengthPrefixedSlice`: varint32 length, then the raw bytes. -/
def putLengthPrefixed (s : List Nat) : List Nat := putVarint32 s.length ++ s

/-- `GetLengthPrefixedSlice`: varint32 length, check the remaining input is
long enough, return the slice and advance past it. -/
def getLengthPrefixedSlice (input : List Nat) : Option (List Nat × List Nat) :=
  match getVarint32 input with
  | none => none
  | some (len, rest) =>
    if len ≤ rest.length then some (rest.take len, rest.drop len) else none

/-! ### Codec lemmas. -/

theorem lebEnc_ne_nil (n : Nat) : lebEnc n ≠ [] := by
  rw [lebEnc]
  split <;> simp

theorem lebEnc_lt_256 (n : Nat) : ∀ x ∈ lebEnc n, x < 256 := by
  induction n using Nat.strong_induction_on with
  | _ n ih =>
    rw [lebEnc]
    split
    · intro x hx
      simp only [List.mem_singleton] at hx
      omega
    · intro x hx
      simp only [List.mem_cons] at hx
      rcases hx with h | h
      · omega
      · exact ih (n / 128) (by omega) x h

theorem and_128_of_lt (x : Nat) (h : x < 128) : x &&& 128 = 0 := by
  apply Nat.eq_of_testBit_eq
  intro i
  simp only [Nat.testBit_and, Nat.zero_testBit]
  have h128 : (128 : Nat) = 2 ^ 7 := by norm_num
  rcases eq_or_ne i 7 with rfl | hne
  · have hx7 : x.testBit 7 = false := Nat.testBit_lt_two_pow (by norm_num; omega)
    simp [hx7]
  · rw [h128, Nat.testBit_two_pow_of_ne (Ne.symm hne)]
    simp

theorem add_128_and_128 (x : Nat) (h : x < 128) : (x + 128) &&& 128 ≠ 0 := by
  intro hzero
  have h7 : (x + 128).testBit 7 = true := by
    rw [Nat.testBit_to_div_mod]
    have hdiv : (x + 128) / 2 ^ 7 = 1 := by norm_num; omega
    rw [hdiv]
    rfl
  have := congrArg (fun n => n.testBit 7) hzero
  simp only [Nat.testBit_and, h7, Nat.zero_testBit, Bool.and_eq_false_iff] at this
  have h128 : (128 : Nat) = 2 ^ 7 := by norm_num
  rcases this with h' | h'
  · simp [h7] at h'
  · rw [h128, Nat.testBit_two_pow_self] at h'
    simp at h'

theorem add_128_and_127 (x : Nat) (h : x < 128) : (x + 128) &&& 127 = x := by
  have h127 : (127 : Nat) = 2 ^ 7 - 1 := by norm_num
  rw [h127, Nat.and_pow_two_sub_one_eq_mod]
  omega

/-- Disjoint or is addition: `a ||| b * 2 ^ k = a + b * 2 ^ k` when `a < 2 ^ k`. -/
theorem lor_mul_pow_eq_add (a b k : Nat) (h : a < 2 ^ k) :
    a ||| b * 2 ^ k = a + b * 2 ^ k := by
  rw [Nat.lor_comm, Nat.mul_comm b (2 ^ k), ← Nat.mul_add_lt_is_or h b]
  omega

theorem getVarint32Aux_enc (m : Nat) : ∀ (i acc : Nat) (rest : List Nat),
    i ≤ 4 → m < 2 ^ (35 - 7 * i) →
    getVarint32Aux (lebEnc m ++ rest) (7 * i) acc =
      some ((acc ||| (m <<< (7 * i))) % 4294967296, rest) := by
  induction m using Nat.strong_induction_on with
  | _ m ih =>
    intro i acc rest hi hm
    rw [lebEnc]
    by_cases hsmall : m < 128
    · simp only [if_pos hsmall, List.cons_append, List.nil_append]
      rw [getVarint32Aux]
      simp only [if_neg (by omega : ¬ 28 < 7 * i)]
      rw [and_128_of_lt m hsmall]
      simp
    · simp only [if_neg hsmall, List.cons_append]
      rw [getVarint32Aux]
      have hx : m % 128 < 128 := Nat.mod_lt _ (by omega)
      simp only [if_neg (by omega : ¬ 28 < 7 * i)]
      rw [if_pos (add_128_and_128 (m % 128) hx)]
      have hi4 : i + 1 ≤ 4 := by
        by_contra hc
        have hle : 35 - 7 * i ≤ 7 := by omega
        have hpow : (2:Nat) ^ (35 - 7 * i) ≤ 128 := by
          calc (2:Nat) ^ (35 - 7 * i) ≤ 2 ^ 7 := Nat.pow_le_pow_right (by omega) hle
            _ = 128 := by norm_num
        omega
      have hdiv : m / 128 < 2 ^ (35 - 7 * (i + 1)) := by
        have h128 : (128 : Nat) = 2 ^ 7 := by norm_num
        rw [Nat.div_lt_iff_lt_mul (by omega : 0 < (128:Nat))]
        have hpow : (2:Nat) ^ (35 - 7 * (i + 1)) * 128 = 2 ^ (35 - 7 * i) := by
          rw [h128, ← Nat.pow_add]
          congr 1
          omega
        omega
      have h7i : 7 * i + 7 = 7 * (i + 1) := by ring
      rw [h7i, ih (m / 128) (by omega) (i + 1) _ rest hi4 hdiv]
      have hpow2 : (2:Nat) ^ (7 * (i + 1)) = 2 ^ (7 * i) * 2 ^ 7 := by
        rw [← h7i, Nat.pow_add]
      have hlt : m % 128 * 2 ^ (7 * i) < 2 ^ (7 * (i + 1)) := by
        rw [hpow2]
        calc m % 128 * 2 ^ (7 * i) < 128 * 2 ^ (7 * i) :=
              (Nat.mul_lt_mul_right (Nat.two_pow_pos _)).mpr hx
          _ ≤ 2 ^ (7 * i) * 2 ^ 7 := by norm_num [Nat.mul_comm]
      have hm128 : m % 128 + 128 * (m / 128) = m := Nat.mod_add_div m 128
      have hinner : (m % 128) <<< (7 * i) ||| (m / 128) <<< (7 * (i + 1)) =
          m <<< (7 * i) := by
        simp only [Nat.shiftLeft_eq]
        rw [lor_mul_pow_eq_add _ _ _ hlt]
        calc m % 128 * 2 ^ (7 * i) + m / 128 * 2 ^ (7 * (i + 1))
            = m % 128 * 2 ^ (7 * i) + m / 128 * (2 ^ (7 * i) * 2 ^ 7) := by rw [hpow2]
          _ = (m % 128 + 128 * (m / 128)) * 2 ^ (7 * i) := by ring
          _ = m * 2 ^ (7 * i) := by rw [hm128]
      rw [add_128_and_127 (m % 128) hx, Nat.lor_assoc, hinner]

theorem getVarint32_put (n : Nat) (rest : List Nat) (h : n < 4294967296) :
    getVarint32 (putVarint32 n ++ rest) = some (n, rest) := by
  unfold getVarint32 putVarint32
  rw [Nat.mod_eq_of_lt h]
  have henc := getVarint32Aux_enc n 0 0 rest (by omega) (by norm_num; omega)
  simp only [Nat.mul_zero, Nat.shiftLeft_zero, Nat.zero_or] at henc
  rw [henc, Nat.mod_eq_of_lt h]

theorem getLengthPrefixedSlice_put (s : List Nat) (rest : List Nat)
    (h : s.length < 4294967296) :
    getLengthPrefixedSlice (putLengthPrefixed s ++ rest) = some (s, rest) := by
  unfold getLengthPrefixedSlice putLengthPrefixed
  rw [List.append_assoc, getVarint32_put s.length (s ++ rest) h]
  simp only [List.length_append, if_pos (by omega : s.length ≤ s.length + rest.length)]
  rw [List.take_left, List.drop_left]

theorem getVarint32Aux_extend (m : List Nat) :
    ∀ (input : List Nat) (shift acc n : Nat) (rest : List Nat),
    getVarint32Aux input shift acc = some (n, rest) →
    getVarint32Aux (input ++ m) shift acc = some (n, rest ++ m)
  | [], _, _, _, _, h => by simp [getVarint32Aux] at h
  | b :: input, shift, acc, n, rest, h => by
    rw [getVarint32Aux] at h
    rw [List.cons_append, getVarint32Aux]
    by_cases h28 : 28 < shift
    · simp [h28] at h
    · simp only [if_neg h28] at h ⊢
      by_cases hb : b &&& 128 ≠ 0
      · rw [if_pos hb] at h ⊢
        exact getVarint32Aux_extend m input _ _ _ _ h
      · rw [if_neg hb] at h ⊢
        simp only [Option.some.injEq, Prod.mk.injEq] at h
        simp [h.1, ← h.2]

theorem getVarint32Aux_consumes :
    ∀ (input : List Nat) (shift acc n : Nat) (rest : List Nat),
    getVarint32Aux input shift acc = some (n, rest) →
    rest.length < input.length
  | [], _, _, _, _, h => by simp [getVarint32Aux] at h
  | b :: input, shift, acc, n, rest, h => by
    rw [getVarint32Aux] at h
    by_cases h28 : 28 < shift
    · simp [h28] at h
    · simp only [if_neg h28] at h
      by_cases hb : b &&& 128 ≠ 0
      · rw [if_pos hb] at h
        have := getVarint32Aux_consumes input _ _ _ _ h
        simp only [List.length_cons]
        omega
      · rw [if_neg hb] at h
        simp only [Option.some.injEq, Prod.mk.injEq] at h
        simp [← h.2]

theorem getVarint32_extend (input m : List Nat) (n : Nat) (rest : List Nat)
    (h : getVarint32 input = some (n, rest)) :
    getVarint32 (input ++ m) = some (n, rest ++ m) :=
  getVarint32Aux_extend m input 0 0 n rest h

theorem getVarint32_consumes (input : List Nat) (n : Nat) (rest : List Nat)
    (h : getVarint32 input = some (n, rest)) : rest.length < input.length :=
  getVarint32Aux_consumes input 0 0 n rest h

theorem getLengthPrefixedSlice_extend (input m : List Nat) (s rest : List Nat)
    (h : getLengthPrefixedSlice input = some (s, rest)) :
    getLengthPrefixedSlice (input ++ m) = some (s, rest ++ m) := by
  unfold getLengthPrefixedSlice at h ⊢
  cases hv : getVarint32 input with
  | none => rw [hv] at h; exact absurd h (by simp)
  | some p =>
    obtain ⟨len, r1⟩ := p
    rw [hv] at h
    dsimp only at h
    by_cases hlen : len ≤ r1.length
    · rw [if_pos hlen] at h
      simp only [Option.some.injEq, Prod.mk.injEq] at h
      rw [getVarint32_extend input m len r1 hv]
      dsimp only
      rw [if_pos (by simp; omega)]
      rw [List.take_append_eq_append_take, List.drop_append_eq_append_drop]
      simp only [Nat.sub_eq_zero_of_le hlen, List.take_zero, List.drop_zero,
        List.append_nil]
      rw [h.1, ← h.2]
    · rw [if_neg hlen] at h
      exact absurd h (by simp)

theorem getLengthPrefixedSlice_consumes (input : List Nat) (s rest : List Nat)
    (h : getLengthPrefixedSlice input = some (s, rest)) :
    rest.length < input.length := by
  unfold getLengthPrefixedSlice at h
  cases hv : getVarint32 input with
  | none => rw [hv] at h; exact absurd h (by simp)
  | some p =>
    obtain ⟨len, r1⟩ := p
    rw [hv] at h
    dsimp only at h
    by_cases hlen : len ≤ r1.length
    · rw [if_pos hlen] at h
      simp only [Option.some.injEq, Prod.mk.injEq] at h
      have h1 := getVarint32_consumes input len r1 hv
      have : rest.length ≤ r1.length := by
        rw [← h.2]
        simp
      omega
    · rw [if_neg hlen] at h
      exact absurd h (by simp)

theorem putFixed32_lt_256 (n : Nat) : ∀ x ∈ putFixed32 n, x < 256 := by
  simp only [putFixed32, List.mem_cons, List.mem_singleton, List.not_mem_nil]
  intro x hx
  rcases hx with h | h | h | h | h
  all_goals first
    | (subst h; omega)
    | exact absurd h (by simp)

theorem decodeFixed32_put (n : Nat) (rest : List Nat) :
    decodeFixed32 (putFixed32 n ++ rest) = n % 4294967296 := by
  simp only [putFixed32, decodeFixed32, List.cons_append, List.nil_append,
    List.getD_cons_zero, List.getD_cons_succ]
  omega

theorem putFixed32_decode (a b c d : Nat) (rest : List Nat)
    (ha : a < 256) (hb : b < 256) (hc : c < 256) (hd : d < 256) :
    putFixed32 (decodeFixed32 (a :: b :: c :: d :: rest)) = [a, b, c, d] := by
  simp only [putFixed32, decodeFixed32, List.getD_cons_zero, List.getD_cons_succ,
    List.cons.injEq, and_true]
  refine ⟨?_, ?_, ?_, ?_⟩ <;> omega

theorem putFixed32_mod (n : Nat) : putFixed32 (n % 4294967296) = putFixed32 n := by
  simp only [putFixed32, List.cons.injEq, and_true]
  refine ⟨?_, ?_, ?_, ?_⟩ <;> omega

theorem decodeFixed32_lt (l : List Nat) : decodeFixed32 l < 4294967296 := by
  simp only [decodeFixed32]
  omega

/-! ## The WriteBatch entity.

The batch owns a byte buffer `rep` whose first 12 bytes are the header
(8-byte sequence, 4-byte count), the atomic `content_flags_`, the optional
`max_bytes_` bound (0 = unset), the savepoint stack and the WAL
termination point.  `SavePoint` is the `(size, count, content_flags)`
triple of `include/rocksdb/write_batch.h`. -/

/-- A `rocksdb::SavePoint`: buffer length, record count and content flags
captured at a point in time.  Default-constructed/cleared is all zero. -/
structure SavePoint where
  size : Nat
  count : Nat
  content_flags : Nat
deriving DecidableEq, Repr

/-- The all-zero (default / cleared) savepoint. -/
def SavePoint.cleared : SavePoint := ⟨0, 0, 0⟩

/-- `SavePoint::is_cleared()`: `(size | count | content_flags) == 0`. -/
def SavePoint.isCleared (sp : SavePoint) : Bool :=
  sp.size == 0 && sp.count == 0 && sp.content_flags == 0

/-- The `WriteBatch` entity: `rep_`, `content_flags_`, `max_bytes_`,
`save_points_` (top of stack at the head) and `wal_term_point_`. -/
structure WriteBatch where
  rep : List Nat
  content_flags : Nat
  max_bytes : Nat
  save_points : List SavePoint
  wal_term_point : SavePoint
deriving DecidableEq, Repr

namespace WriteBatchInternal

/-- `WriteBatchInternal::kHeader`. -/
def kHeader : Nat := 12

end WriteBatchInternal

/-- `WriteBatch(size_t reserved_bytes, size_t max_bytes)`: the buffer is
resized to the (zero-filled) header, flags are zero. -/
def WriteBatch.new (max_bytes : Nat) : WriteBatch :=
  ⟨List.replicate 12 0, 0, max_bytes, [], SavePoint.cleared⟩

/-- `WriteBatch(const std::string& rep)`: contents supplied as raw bytes,
`content_flags_ = DEFERRED`, `max_bytes_ = 0`. -/
def WriteBatch.ofRep (rep : List Nat) : WriteBatch :=
  ⟨rep, DEFERRED, 0, [], SavePoint.cleared⟩

/-- `WriteBatch::GetDataSize()`: `rep_.size()`. -/
def WriteBatch.GetDataSize (b : WriteBatch) : Nat := b.rep.length

/-- Append raw bytes to `rep_` (`rep_.push_back` / `rep_.append`). -/
def WriteBatch.push (b : WriteBatch) (l : List Nat) : WriteBatch :=
  { b with rep := b.rep ++ l }

/-- Relaxed fetch-or on `content_flags_` (the store-of-or pattern every
append operation uses). -/
def WriteBatch.orFlags (b : WriteBatch) (f : Nat) : WriteBatch :=
  { b with content_flags := b.content_flags ||| f }

namespace WriteBatchInternal

/-- `WriteBatchInternal::Count`: decode the fixed32 at offset 8. -/
def Count (b : WriteBatch) : Nat := decodeFixed32 (b.rep.drop 8)

/-- `WriteBatchInternal::SetCount`: overwrite the fixed32 at offset 8. -/
def SetCount (b : WriteBatch) (n : Nat) : WriteBatch :=
  { b with rep := b.rep.take 8 ++ putFixed32 n ++ b.rep.drop 12 }

end WriteBatchInternal

/-- Modelled from the spec: `LocalSavePoint` is declared in
`db/write_batch_internal.h`, which is not part of the source tree.
Spec §4.2 step 1: every counted append snapshots
`(payload_size, count, content_flags)` on entry. -/
def LocalSavePoint.save (b : WriteBatch) : SavePoint :=
  ⟨b.GetDataSize, WriteBatchInternal.Count b, b.content_flags⟩

/-- Modelled from the spec: `LocalSavePoint::commit` (spec §4.2 step 6): if
`max_bytes` is set and the payload now exceeds it, restore all three
snapshotted pieces of state and fail; otherwise keep the mutated batch. -/
def LocalSavePoint.commit (sp : SavePoint) (b : WriteBatch) : Status × WriteBatch :=
  if b.max_bytes ≠ 0 ∧ b.max_bytes < b.rep.length then
    (Status.memoryLimit,
      { (WriteBatchInternal.SetCount { b with rep := b.rep.take sp.size } sp.count) with
          content_flags := sp.content_flags })
  else (Status.ok, b)

namespace WriteBatchInternal

/-- `WriteBatchInternal::Put(b, column_family_id, key, value)`. -/
def Put (b : WriteBatch) (column_family_id : Nat) (key value : List Nat) :
    Status × WriteBatch :=
  let save := LocalSavePoint.save b
  let b := SetCount b (Count b + 1)
  let b := if column_family_id = 0 then b.push [kTypeValue]
           else (b.push [kTypeColumnFamilyValue]).push (putVarint32 column_family_id)
  let b := b.push (putLengthPrefixed key)
  let b := b.push (putLengthPrefixed value)
  let b := b.orFlags HAS_PUT
  LocalSavePoint.commit save b

/-- `WriteBatchInternal::Delete(b, column_family_id, key)`. -/
def Delete (b : WriteBatch) (column_family_id : Nat) (key : List Nat) :
    Status × WriteBatch :=
  let save := LocalSavePoint.save b
  let b := SetCount b (Count b + 1)
  let b := if column_family_id = 0 then b.push [kTypeDeletion]
           else (b.push [kTypeColumnFamilyDeletion]).push (putVarint32 column_family_id)
  let b := b.push (putLengthPrefixed key)
  let b := b.orFlags HAS_DELETE
  LocalSavePoint.commit save b

/-- `WriteBatchInternal::SingleDelete(b, column_family_id, key)`. -/
def SingleDelete (b : WriteBatch) (column_family_id : Nat) (key : List Nat) :
    Status × WriteBatch :=
  let save := LocalSavePoint.save b
  let b := SetCount b (Count b + 1)
  let b := if column_family_id = 0 then b.push [kTypeSingleDeletion]
           else (b.push [kTypeColumnFamilySingleDeletion]).push
             (putVarint32 column_family_id)
  let b := b.push (putLengthPrefixed key)
  let b := b.orFlags HAS_SINGLE_DELETE
  LocalSavePoint.commit save b

/-- `WriteBatchInternal::DeleteRange(b, column_family_id, begin_key, end_key)`. -/
def DeleteRange (b : WriteBatch) (column_family_id : Nat)
    (begin_key end_key : List Nat) : Status × WriteBatch :=
  let save := LocalSavePoint.save b
  let b := SetCount b (Count b + 1)
  let b := if column_family_id = 0 then b.push [kTypeRangeDeletion]
           else (b.push [kTypeColumnFamilyRangeDeletion]).push
             (putVarint32 column_family_id)
  let b := b.push (putLengthPrefixed begin_key)
  let b := b.push (putLengthPrefixed end_key)
  let b := b.orFlags HAS_DELETE_RANGE
  LocalSavePoint.commit save b

/-- `WriteBatchInternal::Merge(b, column_family_id, key, value)`. -/
def Merge (b : WriteBatch) (column_family_id : Nat) (key value : List Nat) :
    Status × WriteBatch :=
  let save := LocalSavePoint.save b
  let b := SetCount b (Count b + 1)
  let b := if column_family_id = 0 then b.push [kTypeMerge]
           else (b.push [kTypeColumnFamilyMerge]).push (putVarint32 column_family_id)
  let b := b.push (putLengthPrefixed key)
  let b := b.push (putLengthPrefixed value)
  let b := b.orFlags HAS_MERGE
  LocalSavePoint.commit save b

/-- `WriteBatchInternal::InsertNoop`. -/
def InsertNoop (b : WriteBatch) : Status × WriteBatch :=
  (Status.ok, b.push [kTypeNoop])

/-- `WriteBatchInternal::MarkEndPrepare(b, xid)`: clear the savepoint stack,
rewrite the `Noop` byte at offset 12 to `BeginPrepareXID`, append the
`EndPrepareXID` tag and the length-prefixed xid, and set both prepare
flags.  (The source `assert`s that byte 12 currently holds `Noop`.) -/
def MarkEndPrepare (b : WriteBatch) (xid : List Nat) : Status × WriteBatch :=
  (Status.ok,
    { b with
        rep := (b.rep.set 12 kTypeBeginPrepareXID) ++ [kTypeEndPrepareXID] ++
          putLengthPrefixed xid
        save_points := []
        content_flags := b.content_flags ||| (HAS_END_PREPARE ||| HAS_BEGIN_PREPARE) })

/-- `WriteBatchInternal::MarkCommit(b, xid)`. -/
def MarkCommit (b : WriteBatch) (xid : List Nat) : Status × WriteBatch :=
  (Status.ok, ((b.push [kTypeCommitXID]).push (putLengthPrefixed xid)).orFlags
    HAS_COMMIT)

/-- `WriteBatchInternal::MarkRollback(b, xid)`. -/
def MarkRollback (b : WriteBatch) (xid : List Nat) : Status × WriteBatch :=
  (Status.ok, ((b.push [kTypeRollbackXID]).push (putLengthPrefixed xid)).orFlags
    HAS_ROLLBACK)

/-- `WriteBatchInternal::SetContents`. -/
def SetContents (b : WriteBatch) (contents : List Nat) : Status × WriteBatch :=
  (Status.ok,
    { b with
        rep := contents
        content_flags := DEFERRED })

end WriteBatchInternal

/-- `WriteBatch::Clear()`: reset `rep_` to the zero header, zero the flags,
empty the savepoint stack, clear the WAL termination point. -/
def WriteBatch.Clear (b : WriteBatch) : WriteBatch :=
  { b with
      rep := List.replicate 12 0
      content_flags := 0
      save_points := []
      wal_term_point := SavePoint.cleared }

/-- `WriteBatch::PutLogData`: append an uncounted `LogData` record under the
same `LocalSavePoint` protocol; the count is untouched and no flag is set. -/
def WriteBatch.PutLogData (b : WriteBatch) (blob : List Nat) : Status × WriteBatch :=
  let save := LocalSavePoint.save b
  let b := b.push [kTypeLogData]
  let b := b.push (putLengthPrefixed blob)
  LocalSavePoint.commit save b

/-- `WriteBatch::SetSavePoint()`: push `(GetDataSize(), Count(), flags)`. -/
def WriteBatch.SetSavePoint (b : WriteBatch) : WriteBatch :=
  { b with save_points :=
      (⟨b.GetDataSize, WriteBatchInternal.Count b, b.content_flags⟩ : SavePoint) ::
        b.save_points }

/-- `WriteBatch::RollbackToSavePoint()`: pop the stack; truncate `rep_` to
the saved size, restore the count and flags (with the special no-change and
rollback-everything fast paths of the source). -/
def WriteBatch.RollbackToSavePoint (b : WriteBatch) : Status × WriteBatch :=
  match b.save_points with
  | [] => (Status.notFound, b)
  | sp :: rest =>
    let b := { b with save_points := rest }
    if sp.size = b.rep.length then (Status.ok, b)
    else if sp.size = 0 then (Status.ok, b.Clear)
    else
      (Status.ok,
        { (WriteBatchInternal.SetCount { b with rep := b.rep.take sp.size } sp.count) with
            content_flags := sp.content_flags })

/-- `WriteBatch::PopSavePoint()`. -/
def WriteBatch.PopSavePoint (b : WriteBatch) : Status × WriteBatch :=
  match b.save_points with
  | [] => (Status.notFound, b)
  | _ :: rest => (Status.ok, { b with save_points := rest })

/-- `WriteBatch::MarkWalTerminationPoint()`. -/
def WriteBatch.MarkWalTerminationPoint (b : WriteBatch) : WriteBatch :=
  { b with wal_term_point :=
      ⟨b.GetDataSize, WriteBatchInternal.Count b, b.content_flags⟩ }

/-- `WriteBatchInternal::Append(dst, src, wal_only)`: take the effective
source length/count/flags (from the WAL termination point if `wal_only`
and it is set), bump the destination count, append the source payload
after its header, and or in the source flags. -/
def WriteBatchInternal.Append (dst src : WriteBatch) (wal_only : Bool) :
    Status × WriteBatch :=
  let batch_end := src.wal_term_point
  let eff :=
    if wal_only && !batch_end.isCleared then
      (batch_end.size - WriteBatchInternal.kHeader, batch_end.count,
        batch_end.content_flags)
    else
      (src.rep.length - WriteBatchInternal.kHeader, WriteBatchInternal.Count src,
        src.content_flags)
  let dst := WriteBatchInternal.SetCount dst (WriteBatchInternal.Count dst + eff.2.1)
  let dst := dst.push ((src.rep.drop WriteBatchInternal.kHeader).take eff.1)
  (Status.ok, dst.orFlags eff.2.2)

/-! ## Records.

A decoded record of the batch payload, one constructor per tag group of
`ReadRecordFromWriteBatch`; the non-CF tag variants decode with
column-family id 0. -/

inductive Rec where
  | put (cf : Nat) (key value : List Nat)
  | del (cf : Nat) (key : List Nat)
  | singleDel (cf : Nat) (key : List Nat)
  | delRange (cf : Nat) (begin_key end_key : List Nat)
  | merge (cf : Nat) (key value : List Nat)
  | logData (blob : List Nat)
  | noop
  | beginPrepare
  | endPrepare (xid : List Nat)
  | commitMark (xid : List Nat)
  | rollbackMark (xid : List Nat)
deriving DecidableEq, Repr

/-- Whether a record counts toward the header count (the five
`found++` cases of `WriteBatch::Iterate`). -/
def Rec.isCounted : Rec → Bool
  | .put _ _ _ => true
  | .del _ _ => true
  | .singleDel _ _ => true
  | .delRange _ _ _ => true
  | .merge _ _ _ => true
  | _ => false

/-- Whether a record is `Noop` (the one tag with no handler callback). -/
def Rec.isNoop : Rec → Bool
  | .noop => true
  | _ => false

/-- Arguments small enough for the 32-bit encoders to round-trip (the C++
types `uint32_t` for column-family ids and slice lengths guarantee this). -/
def Rec.wf : Rec → Prop
  | .put cf k v => cf < 4294967296 ∧ k.length < 4294967296 ∧ v.length < 4294967296
  | .del cf k => cf < 4294967296 ∧ k.length < 4294967296
  | .singleDel cf k => cf < 4294967296 ∧ k.length < 4294967296
  | .delRange cf bk ek =>
      cf < 4294967296 ∧ bk.length < 4294967296 ∧ ek.length < 4294967296
  | .merge cf k v => cf < 4294967296 ∧ k.length < 4294967296 ∧ v.length < 4294967296
  | .logData blob => blob.length < 4294967296
  | .noop => True
  | .beginPrepare => True
  | .endPrepare xid => xid.length < 4294967296
  | .commitMark xid => xid.length < 4294967296
  | .rollbackMark xid => xid.length < 4294967296

/-- The bytes an append operation emits for a record: the tag (CF-qualified
with a varint cfid when cfid ≠ 0) followed by the length-prefixed fields. -/
def encRec : Rec → List Nat
  | .put cf k v =>
      (if cf = 0 then [kTypeValue] else kTypeColumnFamilyValue :: putVarint32 cf) ++
        putLengthPrefixed k ++ putLengthPrefixed v
  | .del cf k =>
      (if cf = 0 then [kTypeDeletion] else
        kTypeColumnFamilyDeletion :: putVarint32 cf) ++ putLengthPrefixed k
  | .singleDel cf k =>
      (if cf = 0 then [kTypeSingleDeletion] else
        kTypeColumnFamilySingleDeletion :: putVarint32 cf) ++ putLengthPrefixed k
  | .delRange cf bk ek =>
      (if cf = 0 then [kTypeRangeDeletion] else
        kTypeColumnFamilyRangeDeletion :: putVarint32 cf) ++
        putLengthPrefixed bk ++ putLengthPrefixed ek
  | .merge cf k v =>
      (if cf = 0 then [kTypeMerge] else kTypeColumnFamilyMerge :: putVarint32 cf) ++
        putLengthPrefixed k ++ putLengthPrefixed v
  | .logData blob => kTypeLogData :: putLengthPrefixed blob
  | .noop => [kTypeNoop]
  | .beginPrepare => [kTypeBeginPrepareXID]
  | .endPrepare xid => kTypeEndPrepareXID :: putLengthPrefixed xid
  | .commitMark xid => kTypeCommitXID :: putLengthPrefixed xid
  | .rollbackMark xid => kTypeRollbackXID :: putLengthPrefixed xid

/-- Concatenated encoding of a record list. -/
def encodeRecs : List Rec → List Nat
  | [] => []
  | r :: rs => encRec r ++ encodeRecs rs

/-! ### Decoding (`ReadRecordFromWriteBatch`).

The C++ switch falls through from each `ColumnFamily*` case into the
corresponding plain case after reading the varint cfid; `readCf` captures
that shared step, and `read1`/`read2`/`readX` the "cf then one slice",
"cf then two slices" and "one slice, no cf" record shapes. -/

/-- Read the varint column-family id when the tag is the CF-qualified
variant; plain tags use cfid 0. -/
def readCf (cfTag : Bool) (input : List Nat) : Option (Nat × List Nat) :=
  if cfTag then getVarint32 input else some (0, input)

/-- Decode a record with one length-prefixed field after the optional cfid. -/
def read1 (e : CorruptionMsg) (mk : Nat → List Nat → Rec) (cfTag : Bool)
    (input : List Nat) : Except CorruptionMsg (Rec × List Nat) :=
  match readCf cfTag input with
  | none => .error e
  | some (cf, r1) =>
    match getLengthPrefixedSlice r1 with
    | none => .error e
    | some (a, r2) => .ok (mk cf a, r2)

/-- Decode a record with two length-prefixed fields after the optional cfid. -/
def read2 (e : CorruptionMsg) (mk : Nat → List Nat → List Nat → Rec) (cfTag : Bool)
    (input : List Nat) : Except CorruptionMsg (Rec × List Nat) :=
  match readCf cfTag input with
  | none => .error e
  | some (cf, r1) =>
    match getLengthPrefixedSlice r1 with
    | none => .error e
    | some (a, r2) =>
      match getLengthPrefixedSlice r2 with
      | none => .error e
      | some (b, r3) => .ok (mk cf a b, r3)

/-- Decode a record with a single length-prefixed field and no cfid. -/
def readX (e : CorruptionMsg) (mk : List Nat → Rec) (input : List Nat) :
    Except CorruptionMsg (Rec × List Nat) :=
  match getLengthPrefixedSlice input with
  | none => .error e
  | some (a, r1) => .ok (mk a, r1)

/-- `ReadRecordFromWriteBatch`: read the tag byte and decode the
tag-specific fields. -/
def readRecord (input : List Nat) : Except CorruptionMsg (Rec × List Nat) :=
  match input with
  | [] => .error CorruptionMsg.unknownTag
  | tag :: rest =>
    if tag = kTypeColumnFamilyValue ∨ tag = kTypeValue then
      read2 .badPut Rec.put (tag = kTypeColumnFamilyValue) rest
    else if tag = kTypeColumnFamilyDeletion ∨ tag = kTypeColumnFamilySingleDeletion ∨
        tag = kTypeDeletion ∨ tag = kTypeSingleDeletion then
      read1 .badDelete
        (fun cf k =>
          if tag = kTypeSingleDeletion ∨ tag = kTypeColumnFamilySingleDeletion then
            Rec.singleDel cf k
          else Rec.del cf k)
        (tag = kTypeColumnFamilyDeletion ∨ tag = kTypeColumnFamilySingleDeletion) rest
    else if tag = kTypeColumnFamilyRangeDeletion ∨ tag = kTypeRangeDeletion then
      read2 .badDeleteRange Rec.delRange (tag = kTypeColumnFamilyRangeDeletion) rest
    else if tag = kTypeColumnFamilyMerge ∨ tag = kTypeMerge then
      read2 .badMerge Rec.merge (tag = kTypeColumnFamilyMerge) rest
    else if tag = kTypeLogData then
      readX .badBlob Rec.logData rest
    else if tag = kTypeNoop then .ok (.noop, rest)
    else if tag = kTypeBeginPrepareXID then .ok (.beginPrepare, rest)
    else if tag = kTypeEndPrepareXID then
      readX .badEndPrepareXid Rec.endPrepare rest
    else if tag = kTypeCommitXID then
      readX .badCommitXid Rec.commitMark rest
    else if tag = kTypeRollbackXID then
      readX .badRollbackXid Rec.rollbackMark rest
    else .error .unknownTag

/-! ### Decoder lemmas. -/

theorem readCf_consumes (cfTag : Bool) (input : List Nat) (cf : Nat)
    (r1 : List Nat) (h : readCf cfTag input = some (cf, r1)) :
    r1.length ≤ input.length := by
  unfold readCf at h
  cases cfTag with
  | false =>
    simp only [Bool.false_eq_true, if_neg, Option.some.injEq, Prod.mk.injEq,
      if_false] at h
    rw [← h.2]
  | true =>
    simp only [if_true] at h
    exact le_of_lt (getVarint32_consumes input cf r1 h)

theorem readCf_extend (cfTag : Bool) (input m : List Nat) (cf : Nat)
    (r1 : List Nat) (h : readCf cfTag input = some (cf, r1)) :
    readCf cfTag (input ++ m) = some (cf, r1 ++ m) := by
  unfold readCf at h ⊢
  cases cfTag with
  | false =>
    simp only [Bool.false_eq_true, if_false, Option.some.injEq, Prod.mk.injEq] at h ⊢
    exact ⟨h.1, by rw [← h.2]⟩
  | true =>
    simp only [if_true] at h ⊢
    exact getVarint32_extend input m cf r1 h

theorem read1_consumes (e : CorruptionMsg) (mk : Nat → List Nat → Rec)
    (cfTag : Bool) (input : List Nat) (r : Rec) (rest : List Nat)
    (h : read1 e mk cfTag input = .ok (r, rest)) : rest.length < input.length := by
  unfold read1 at h
  cases hcf : readCf cfTag input with
  | none => rw [hcf] at h; exact absurd h (by simp)
  | some p =>
    obtain ⟨cf, r1⟩ := p
    rw [hcf] at h
    dsimp only at h
    cases hs : getLengthPrefixedSlice r1 with
    | none => rw [hs] at h; exact absurd h (by simp)
    | some q =>
      obtain ⟨a, r2⟩ := q
      rw [hs] at h
      simp only [Except.ok.injEq, Prod.mk.injEq] at h
      have h1 := readCf_consumes cfTag input cf r1 hcf
      have h2 := getLengthPrefixedSlice_consumes r1 a r2 hs
      rw [← h.2]
      omega

theorem read1_extend (e : CorruptionMsg) (mk : Nat → List Nat → Rec)
    (cfTag : Bool) (input m : List Nat) (r : Rec) (rest : List Nat)
    (h : read1 e mk cfTag input = .ok (r, rest)) :
    read1 e mk cfTag (input ++ m) = .ok (r, rest ++ m) := by
  unfold read1 at h ⊢
  cases hcf : readCf cfTag input with
  | none => rw [hcf] at h; exact absurd h (by simp)
  | some p =>
    obtain ⟨cf, r1⟩ := p
    rw [hcf] at h
    dsimp only at h
    cases hs : getLengthPrefixedSlice r1 with
    | none => rw [hs] at h; exact absurd h (by simp)
    | some q =>
      obtain ⟨a, r2⟩ := q
      rw [hs] at h
      simp only [Except.ok.injEq, Prod.mk.injEq] at h
      rw [readCf_extend cfTag input m cf r1 hcf]
      dsimp only
      rw [getLengthPrefixedSlice_extend r1 m a r2 hs]
      simp [h.1, ← h.2]

theorem read2_consumes (e : CorruptionMsg) (mk : Nat → List Nat → List Nat → Rec)
    (cfTag : Bool) (input : List Nat) (r : Rec) (rest : List Nat)
    (h : read2 e mk cfTag input = .ok (r, rest)) : rest.length < input.length := by
  unfold read2 at h
  cases hcf : readCf cfTag input with
  | none => rw [hcf] at h; exact absurd h (by simp)
  | some p =>
    obtain ⟨cf, r1⟩ := p
    rw [hcf] at h
    dsimp only at h
    cases hs : getLengthPrefixedSlice r1 with
    | none => rw [hs] at h; exact absurd h (by simp)
    | some q =>
      obtain ⟨a, r2⟩ := q
      rw [hs] at h
      dsimp only at h
      cases hs2 : getLengthPrefixedSlice r2 with
      | none => rw [hs2] at h; exact absurd h (by simp)
      | some q2 =>
        obtain ⟨b, r3⟩ := q2
        rw [hs2] at h
        simp only [Except.ok.injEq, Prod.mk.injEq] at h
        have h1 := readCf_consumes cfTag input cf r1 hcf
        have h2 := getLengthPrefixedSlice_consumes r1 a r2 hs
        have h3 := getLengthPrefixedSlice_consumes r2 b r3 hs2
        rw [← h.2]
        omega

theorem read2_extend (e : CorruptionMsg) (mk : Nat → List Nat → List Nat → Rec)
    (cfTag : Bool) (input m : List Nat) (r : Rec) (rest : List Nat)
    (h : read2 e mk cfTag input = .ok (r, rest)) :
    read2 e mk cfTag (input ++ m) = .ok (r, rest ++ m) := by
  unfold read2 at h ⊢
  cases hcf : readCf cfTag input with
  | none => rw [hcf] at h; exact absurd h (by simp)
  | some p =>
    obtain ⟨cf, r1⟩ := p
    rw [hcf] at h
    dsimp only at h
    cases hs : getLengthPrefixedSlice r1 with
    | none => rw [hs] at h; exact absurd h (by simp)
    | some q =>
      obtain ⟨a, r2⟩ := q
      rw [hs] at h
      dsimp only at h
      cases hs2 : getLengthPrefixedSlice r2 with
      | none => rw [hs2] at h; exact absurd h (by simp)
      | some q2 =>
        obtain ⟨b, r3⟩ := q2
        rw [hs2] at h
        simp only [Except.ok.injEq, Prod.mk.injEq] at h
        rw [readCf_extend cfTag input m cf r1 hcf]
        dsimp only
        rw [getLengthPrefixedSlice_extend r1 m a r2 hs]
        dsimp only
        rw [getLengthPrefixedSlice_extend r2 m b r3 hs2]
        simp [h.1, ← h.2]

theorem readX_consumes (e : CorruptionMsg) (mk : List Nat → Rec)
    (input : List Nat) (r : Rec) (rest : List Nat)
    (h : readX e mk input = .ok (r, rest)) : rest.length < input.length := by
  unfold readX at h
  cases hs : getLengthPrefixedSlice input with
  | none => rw [hs] at h; exact absurd h (by simp)
  | some q =>
    obtain ⟨a, r1⟩ := q
    rw [hs] at h
    simp only [Except.ok.injEq, Prod.mk.injEq] at h
    have := getLengthPrefixedSlice_consumes input a r1 hs
    rw [← h.2]
    omega

theorem readX_extend (e : CorruptionMsg) (mk : List Nat → Rec)
    (input m : List Nat) (r : Rec) (rest : List Nat)
    (h : readX e mk input = .ok (r, rest)) :
    readX e mk (input ++ m) = .ok (r, rest ++ m) := by
  unfold readX at h ⊢
  cases hs : getLengthPrefixedSlice input with
  | none => rw [hs] at h; exact absurd h (by simp)
  | some q =>
    obtain ⟨a, r1⟩ := q
    rw [hs] at h
    simp only [Except.ok.injEq, Prod.mk.injEq] at h
    rw [getLengthPrefixedSlice_extend input m a r1 hs]
    simp [h.1, ← h.2]

theorem readRecord_consumes (input : List Nat) (r : Rec) (rest : List Nat)
    (h : readRecord input = .ok (r, rest)) : rest.length < input.length := by
  match input with
  | [] => simp [readRecord] at h
  | tag :: rest0 =>
    rw [readRecord] at h
    simp only [List.length_cons]
    split at h
    · have := read2_consumes _ _ _ _ _ _ h
      omega
    · split at h
      · have := read1_consumes _ _ _ _ _ _ h
        omega
      · split at h
        · have := read2_consumes _ _ _ _ _ _ h
          omega
        · split at h
          · have := read2_consumes _ _ _ _ _ _ h
            omega
          · split at h
            · have := readX_consumes _ _ _ _ _ h
              omega
            · split at h
              · simp only [Except.ok.injEq, Prod.mk.injEq] at h
                rw [← h.2]
                omega
              · split at h
                · simp only [Except.ok.injEq, Prod.mk.injEq] at h
                  rw [← h.2]
                  omega
                · split at h
                  · have := readX_consumes _ _ _ _ _ h
                    omega
                  · split at h
                    · have := readX_consumes _ _ _ _ _ h
                      omega
                    · split at h
                      · have := readX_consumes _ _ _ _ _ h
                        omega
                      · exact absurd h (by simp)

theorem readRecord_extend (input m : List Nat) (r : Rec) (rest : List Nat)
    (h : readRecord input = .ok (r, rest)) :
    readRecord (input ++ m) = .ok (r, rest ++ m) := by
  match input with
  | [] => simp [readRecord] at h
  | tag :: rest0 =>
    rw [readRecord] at h
    rw [List.cons_append, readRecord]
    split at h
    · rw [if_pos (by assumption)]
      exact read2_extend _ _ _ _ _ _ _ h
    · rw [if_neg (by assumption)]
      split at h
      · rw [if_pos (by assumption)]
        exact read1_extend _ _ _ _ _ _ _ h
      · rw [if_neg (by assumption)]
        split at h
        · rw [if_pos (by assumption)]
          exact read2_extend _ _ _ _ _ _ _ h
        · rw [if_neg (by assumption)]
          split at h
          · rw [if_pos (by assumption)]
            exact read2_extend _ _ _ _ _ _ _ h
          · rw [if_neg (by assumption)]
            split at h
            · rw [if_pos (by assumption)]
              exact readX_extend _ _ _ _ _ _ h
            · rw [if_neg (by assumption)]
              split at h
              · rw [if_pos (by assumption)]
                simp only [Except.ok.injEq, Prod.mk.injEq] at h
                simp [h.1, ← h.2]
              · rw [if_neg (by assumption)]
                split at h
                · rw [if_pos (by assumption)]
                  simp only [Except.ok.injEq, Prod.mk.injEq] at h
                  simp [h.1, ← h.2]
                · rw [if_neg (by assumption)]
                  split at h
                  · rw [if_pos (by assumption)]
                    exact readX_extend _ _ _ _ _ _ h
                  · rw [if_neg (by assumption)]
                    split at h
                    · rw [if_pos (by assumption)]
                      exact readX_extend _ _ _ _ _ _ h
                    · rw [if_neg (by assumption)]
                      split at h
                      · rw [if_pos (by assumption)]
                        exact readX_extend _ _ _ _ _ _ h
                      · exact absurd h (by simp)


/-! ### Decoding an encoded record. -/

theorem readCf_false (input : List Nat) : readCf false input = some (0, input) := rfl

theorem readCf_true (cf : Nat) (tail : List Nat) (h : cf < 4294967296) :
    readCf true (putVarint32 cf ++ tail) = some (cf, tail) := by
  unfold readCf
  rw [if_pos rfl]
  exact getVarint32_put cf tail h

theorem read1_enc_plain (e : CorruptionMsg) (mk : Nat → List Nat → Rec)
    (a tail : List Nat) (ha : a.length < 4294967296) :
    read1 e mk false (putLengthPrefixed a ++ tail) = .ok (mk 0 a, tail) := by
  unfold read1
  rw [readCf_false]
  dsimp only
  rw [getLengthPrefixedSlice_put a tail ha]

theorem read1_enc_cf (e : CorruptionMsg) (mk : Nat → List Nat → Rec)
    (cf : Nat) (a tail : List Nat) (hcf : cf < 4294967296)
    (ha : a.length < 4294967296) :
    read1 e mk true (putVarint32 cf ++ (putLengthPrefixed a ++ tail)) =
      .ok (mk cf a, tail) := by
  unfold read1
  rw [readCf_true cf _ hcf]
  dsimp only
  rw [getLengthPrefixedSlice_put a tail ha]

theorem read2_enc_plain (e : CorruptionMsg) (mk : Nat → List Nat → List Nat → Rec)
    (a b tail : List Nat) (ha : a.length < 4294967296) (hb : b.length < 4294967296) :
    read2 e mk false (putLengthPrefixed a ++ (putLengthPrefixed b ++ tail)) =
      .ok (mk 0 a b, tail) := by
  unfold read2
  rw [readCf_false]
  dsimp only
  rw [getLengthPrefixedSlice_put a _ ha]
  dsimp only
  rw [getLengthPrefixedSlice_put b tail hb]

theorem read2_enc_cf (e : CorruptionMsg) (mk : Nat → List Nat → List Nat → Rec)
    (cf : Nat) (a b tail : List Nat) (hcf : cf < 4294967296)
    (ha : a.length < 4294967296) (hb : b.length < 4294967296) :
    read2 e mk true
      (putVarint32 cf ++ (putLengthPrefixed a ++ (putLengthPrefixed b ++ tail))) =
      .ok (mk cf a b, tail) := by
  unfold read2
  rw [readCf_true cf _ hcf]
  dsimp only
  rw [getLengthPrefixedSlice_put a _ ha]
  dsimp only
  rw [getLengthPrefixedSlice_put b tail hb]

theorem readX_enc (e : CorruptionMsg) (mk : List Nat → Rec)
    (a tail : List Nat) (ha : a.length < 4294967296) :
    readX e mk (putLengthPrefixed a ++ tail) = .ok (mk a, tail) := by
  unfold readX
  rw [getLengthPrefixedSlice_put a tail ha]

theorem readRecord_value (rest : List Nat) :
    readRecord (kTypeValue :: rest) = read2 .badPut Rec.put false rest := rfl

theorem readRecord_cfValue (rest : List Nat) :
    readRecord (kTypeColumnFamilyValue :: rest) =
      read2 .badPut Rec.put true rest := rfl

theorem readRecord_deletion (rest : List Nat) :
    readRecord (kTypeDeletion :: rest) = read1 .badDelete Rec.del false rest := rfl

theorem readRecord_cfDeletion (rest : List Nat) :
    readRecord (kTypeColumnFamilyDeletion :: rest) =
      read1 .badDelete Rec.del true rest := rfl

theorem readRecord_singleDeletion (rest : List Nat) :
    readRecord (kTypeSingleDeletion :: rest) =
      read1 .badDelete Rec.singleDel false rest := rfl

theorem readRecord_cfSingleDeletion (rest : List Nat) :
    readRecord (kTypeColumnFamilySingleDeletion :: rest) =
      read1 .badDelete Rec.singleDel true rest := rfl

theorem readRecord_rangeDeletion (rest : List Nat) :
    readRecord (kTypeRangeDeletion :: rest) =
      read2 .badDeleteRange Rec.delRange false rest := rfl

theorem readRecord_cfRangeDeletion (rest : List Nat) :
    readRecord (kTypeColumnFamilyRangeDeletion :: rest) =
      read2 .badDeleteRange Rec.delRange true rest := rfl

theorem readRecord_merge (rest : List Nat) :
    readRecord (kTypeMerge :: rest) = read2 .badMerge Rec.merge false rest := rfl

theorem readRecord_cfMerge (rest : List Nat) :
    readRecord (kTypeColumnFamilyMerge :: rest) =
      read2 .badMerge Rec.merge true rest := rfl

theorem readRecord_logData (rest : List Nat) :
    readRecord (kTypeLogData :: rest) = readX .badBlob Rec.logData rest := rfl

theorem readRecord_noop (rest : List Nat) :
    readRecord (kTypeNoop :: rest) = .ok (.noop, rest) := rfl

theorem readRecord_beginPrepare (rest : List Nat) :
    readRecord (kTypeBeginPrepareXID :: rest) = .ok (.beginPrepare, rest) := rfl

theorem readRecord_endPrepare (rest : List Nat) :
    readRecord (kTypeEndPrepareXID :: rest) =
      readX .badEndPrepareXid Rec.endPrepare rest := rfl

theorem readRecord_commit (rest : List Nat) :
    readRecord (kTypeCommitXID :: rest) =
      readX .badCommitXid Rec.commitMark rest := rfl

theorem readRecord_rollback (rest : List Nat) :
    readRecord (kTypeRollbackXID :: rest) =
      readX .badRollbackXid Rec.rollbackMark rest := rfl

/-- Decoding the encoding of a well-formed record yields the record back and
leaves exactly the trailing bytes. -/
theorem readRecord_enc (r : Rec) (tail : List Nat) (hr : r.wf) :
    readRecord (encRec r ++ tail) = .ok (r, tail) := by
  cases r with
  | put cf k v =>
    obtain ⟨hcf, hk, hv⟩ := hr
    by_cases h0 : cf = 0
    · subst h0
      simp only [encRec, eq_self_iff_true, if_true, List.cons_append,
        List.nil_append, List.append_assoc]
      rw [readRecord_value]
      exact read2_enc_plain _ _ k v tail hk hv
    · simp only [encRec, if_neg h0, List.cons_append, List.append_assoc]
      rw [readRecord_cfValue]
      exact read2_enc_cf _ _ cf k v tail hcf hk hv
  | del cf k =>
    obtain ⟨hcf, hk⟩ := hr
    by_cases h0 : cf = 0
    · subst h0
      simp only [encRec, eq_self_iff_true, if_true, List.cons_append,
        List.nil_append, List.append_assoc]
      rw [readRecord_deletion]
      exact read1_enc_plain _ _ k tail hk
    · simp only [encRec, if_neg h0, List.cons_append, List.append_assoc]
      rw [readRecord_cfDeletion]
      exact read1_enc_cf _ _ cf k tail hcf hk
  | singleDel cf k =>
    obtain ⟨hcf, hk⟩ := hr
    by_cases h0 : cf = 0
    · subst h0
      simp only [encRec, eq_self_iff_true, if_true, List.cons_append,
        List.nil_append, List.append_assoc]
      rw [readRecord_singleDeletion]
      exact read1_enc_plain _ _ k tail hk
    · simp only [encRec, if_neg h0, List.cons_append, List.append_assoc]
      rw [readRecord_cfSingleDeletion]
      exact read1_enc_cf _ _ cf k tail hcf hk
  | delRange cf bk ek =>
    obtain ⟨hcf, hbk, hek⟩ := hr
    by_cases h0 : cf = 0
    · subst h0
      simp only [encRec, eq_self_iff_true, if_true, List.cons_append,
        List.nil_append, List.append_assoc]
      rw [readRecord_rangeDeletion]
      exact read2_enc_plain _ _ bk ek tail hbk hek
    · simp only [encRec, if_neg h0, List.cons_append, List.append_assoc]
      rw [readRecord_cfRangeDeletion]
      exact read2_enc_cf _ _ cf bk ek tail hcf hbk hek
  | merge cf k v =>
    obtain ⟨hcf, hk, hv⟩ := hr
    by_cases h0 : cf = 0
    · subst h0
      simp only [encRec, eq_self_iff_true, if_true, List.cons_append,
        List.nil_append, List.append_assoc]
      rw [readRecord_merge]
      exact read2_enc_plain _ _ k v tail hk hv
    · simp only [encRec, if_neg h0, List.cons_append, List.append_assoc]
      rw [readRecord_cfMerge]
      exact read2_enc_cf _ _ cf k v tail hcf hk hv
  | logData blob =>
    simp only [encRec, List.cons_append]
    rw [readRecord_logData]
    exact readX_enc _ _ blob tail hr
  | noop =>
    simp only [encRec, List.cons_append, List.nil_append]
    exact readRecord_noop tail
  | beginPrepare =>
    simp only [encRec, List.cons_append, List.nil_append]
    exact readRecord_beginPrepare tail
  | endPrepare xid =>
    simp only [encRec, List.cons_append]
    rw [readRecord_endPrepare]
    exact readX_enc _ _ xid tail hr
  | commitMark xid =>
    simp only [encRec, List.cons_append]
    rw [readRecord_commit]
    exact readX_enc _ _ xid tail hr
  | rollbackMark xid =>
    simp only [encRec, List.cons_append]
    rw [readRecord_rollback]
    exact readX_enc _ _ xid tail hr

theorem encRec_ne_nil (r : Rec) : encRec r ≠ [] := by
  cases r with
  | put cf k v => by_cases h0 : cf = 0 <;> simp [encRec, h0]
  | del cf k => by_cases h0 : cf = 0 <;> simp [encRec, h0]
  | singleDel cf k => by_cases h0 : cf = 0 <;> simp [encRec, h0]
  | delRange cf bk ek => by_cases h0 : cf = 0 <;> simp [encRec, h0]
  | merge cf k v => by_cases h0 : cf = 0 <;> simp [encRec, h0]
  | logData blob => simp [encRec]
  | noop => simp [encRec]
  | beginPrepare => simp [encRec]
  | endPrepare xid => simp [encRec]
  | commitMark xid => simp [encRec]
  | rollbackMark xid => simp [encRec]


/-! ## Visitor dispatch (`WriteBatch::Handler` and `WriteBatch::Iterate`). -/

/-- The handler interface (`WriteBatch::Handler`): per-callback state
transformers over a handler-state type `σ`.  `LogData` returns no status in
the source; `Continue` is queried before each record. -/
structure Handler (σ : Type) where
  PutCF : σ → Nat → List Nat → List Nat → Status × σ
  DeleteCF : σ → Nat → List Nat → Status × σ
  SingleDeleteCF : σ → Nat → List Nat → Status × σ
  DeleteRangeCF : σ → Nat → List Nat → List Nat → Status × σ
  MergeCF : σ → Nat → List Nat → List Nat → Status × σ
  LogData : σ → List Nat → σ
  MarkBeginPrepare : σ → Status × σ
  MarkEndPrepare : σ → List Nat → Status × σ
  MarkCommit : σ → List Nat → Status × σ
  MarkRollback : σ → List Nat → Status × σ
  Continue : σ → Bool

/-- Dispatch one decoded record to the handler, as the `switch` in
`WriteBatch::Iterate` does: the five mutation callbacks feed the loop
status `s` and bump `found`; `LogData` and the four mark callbacks have
their statuses discarded by the source (`handler->MarkBeginPrepare();`
with no `s =`), and `Noop` invokes nothing.  Returns
(status tracked by the loop, whether the record was counted, new state). -/
def dispatchRec (h : Handler σ) (r : Rec) (st : σ) : Status × Bool × σ :=
  match r with
  | .put cf k v => let p := h.PutCF st cf k v; (p.1, true, p.2)
  | .del cf k => let p := h.DeleteCF st cf k; (p.1, true, p.2)
  | .singleDel cf k => let p := h.SingleDeleteCF st cf k; (p.1, true, p.2)
  | .delRange cf bk ek => let p := h.DeleteRangeCF st cf bk ek; (p.1, true, p.2)
  | .merge cf k v => let p := h.MergeCF st cf k v; (p.1, true, p.2)
  | .logData blob => (Status.ok, false, h.LogData st blob)
  | .beginPrepare => (Status.ok, false, (h.MarkBeginPrepare st).2)
  | .endPrepare xid => (Status.ok, false, (h.MarkEndPrepare st xid).2)
  | .commitMark xid => (Status.ok, false, (h.MarkCommit st xid).2)
  | .rollbackMark xid => (Status.ok, false, (h.MarkRollback st xid).2)
  | .noop => (Status.ok, false, st)

/-- The decode-dispatch loop of `WriteBatch::Iterate`:
`while (s.ok() && !input.empty() && handler->Continue())`. -/
def iterateLoop (h : Handler σ) (input : List Nat) (found : Nat) (st : σ) :
    Status × Nat × σ :=
  match input with
  | [] => (Status.ok, found, st)
  | tag :: tl =>
    if h.Continue st then
      match hr : readRecord (tag :: tl) with
      | .error m => (Status.corruption m, found, st)
      | .ok (r, rest) =>
        let d := dispatchRec h r st
        let found2 := if d.2.1 then found + 1 else found
        if d.1 = Status.ok then iterateLoop h rest found2 d.2.2
        else (d.1, found2, d.2.2)
    else (Status.ok, found, st)
termination_by input.length
decreasing_by exact readRecord_consumes _ _ _ hr

/-- `WriteBatch::Iterate(handler)`: header-size check, the loop, then the
count check `found != WriteBatchInternal::Count(this)`. -/
def WriteBatch.Iterate (b : WriteBatch) (h : Handler σ) (st : σ) : Status × σ :=
  if b.rep.length < WriteBatchInternal.kHeader then
    (Status.corruption .tooSmall, st)
  else
    let res := iterateLoop h (b.rep.drop WriteBatchInternal.kHeader) 0 st
    if res.1 ≠ Status.ok then (res.1, res.2.2)
    else if res.2.1 ≠ WriteBatchInternal.Count b then
      (Status.corruption .wrongCount, res.2.2)
    else (Status.ok, res.2.2)

/-- Decode the whole record stream (used to state well-formedness of a
payload); `none` when some record fails to parse. -/
def decodeAll (input : List Nat) : Option (List Rec) :=
  match input with
  | [] => some []
  | tag :: tl =>
    match hr : readRecord (tag :: tl) with
    | .error _ => none
    | .ok (r, rest) => (decodeAll rest).map (r :: ·)
termination_by input.length
decreasing_by exact readRecord_consumes _ _ _ hr

/-- The iterate loop expressed over an already-decoded record list. -/
def runRecs (h : Handler σ) : List Rec → Nat → σ → Status × Nat × σ
  | [], found, st => (Status.ok, found, st)
  | r :: rs, found, st =>
    if h.Continue st then
      let d := dispatchRec h r st
      let found2 := if d.2.1 then found + 1 else found
      if d.1 = Status.ok then runRecs h rs found2 d.2.2
      else (d.1, found2, d.2.2)
    else (Status.ok, found, st)

/-- Number of counted records in a list. -/
def countedCount (recs : List Rec) : Nat := (recs.filter Rec.isCounted).length

theorem countedCount_nil : countedCount [] = 0 := rfl

theorem countedCount_cons (r : Rec) (rs : List Rec) :
    countedCount (r :: rs) =
      (if r.isCounted then 1 else 0) + countedCount rs := by
  simp only [countedCount, List.filter_cons]
  cases hr : r.isCounted <;> simp [Nat.add_comm]

theorem countedCount_append (xs ys : List Rec) :
    countedCount (xs ++ ys) = countedCount xs + countedCount ys := by
  simp [countedCount, List.filter_append]

theorem encodeRecs_append (xs ys : List Rec) :
    encodeRecs (xs ++ ys) = encodeRecs xs ++ encodeRecs ys := by
  induction xs with
  | nil => simp [encodeRecs]
  | cons r rs ih => simp [encodeRecs, ih]

theorem decodeAll_cons_err (x : Nat) (xs : List Nat) (m : CorruptionMsg)
    (h : readRecord (x :: xs) = .error m) : decodeAll (x :: xs) = none := by
  rw [decodeAll]
  split
  · rfl
  · rename_i r rest heq
    rw [h] at heq
    exact absurd heq (by simp)

theorem decodeAll_cons_ok (x : Nat) (xs : List Nat) (r : Rec) (rest : List Nat)
    (h : readRecord (x :: xs) = .ok (r, rest)) :
    decodeAll (x :: xs) = (decodeAll rest).map (r :: ·) := by
  rw [decodeAll]
  split
  · rename_i m heq
    rw [h] at heq
    exact absurd heq (by simp)
  · rename_i r2 rest2 heq
    rw [h] at heq
    simp only [Except.ok.injEq, Prod.mk.injEq] at heq
    rw [heq.1, heq.2]

theorem iterateLoop_nil (h : Handler σ) (found : Nat) (st : σ) :
    iterateLoop h [] found st = (Status.ok, found, st) := by
  rw [iterateLoop]

theorem iterateLoop_cons_err (h : Handler σ) (x : Nat) (xs : List Nat)
    (m : CorruptionMsg) (hr : readRecord (x :: xs) = .error m)
    (found : Nat) (st : σ) (hc : h.Continue st = true) :
    iterateLoop h (x :: xs) found st = (Status.corruption m, found, st) := by
  rw [iterateLoop, if_pos hc]
  split
  · rename_i m2 heq
    rw [hr] at heq
    simp only [Except.error.injEq] at heq
    rw [heq]
  · rename_i r rest heq
    rw [hr] at heq
    exact absurd heq (by simp)

theorem iterateLoop_cons_ok (h : Handler σ) (x : Nat) (xs : List Nat)
    (r : Rec) (rest : List Nat) (hr : readRecord (x :: xs) = .ok (r, rest))
    (found : Nat) (st : σ) (hc : h.Continue st = true) :
    iterateLoop h (x :: xs) found st =
      (let d := dispatchRec h r st
       let found2 := if d.2.1 then found + 1 else found
       if d.1 = Status.ok then iterateLoop h rest found2 d.2.2
       else (d.1, found2, d.2.2)) := by
  rw [iterateLoop, if_pos hc]
  split
  · rename_i m heq
    rw [hr] at heq
    exact absurd heq (by simp)
  · rename_i r2 rest2 heq
    rw [hr] at heq
    simp only [Except.ok.injEq, Prod.mk.injEq] at heq
    rw [heq.1, heq.2]

theorem iterateLoop_stop (h : Handler σ) (input : List Nat)
    (found : Nat) (st : σ) (hc : h.Continue st = false) :
    iterateLoop h input found st = (Status.ok, found, st) := by
  match input with
  | [] => rw [iterateLoop]
  | x :: xs =>
    rw [iterateLoop]
    rw [if_neg (by rw [hc]; simp)]

/-- Decoding the concatenated encoding of well-formed records recovers the
record list. -/
theorem decodeAll_enc (recs : List Rec) (hwf : ∀ r ∈ recs, r.wf) :
    decodeAll (encodeRecs recs) = some recs := by
  induction recs with
  | nil => simp [encodeRecs, decodeAll]
  | cons r rs ih =>
    have hr := readRecord_enc r (encodeRecs rs) (hwf r (by simp))
    have hne : encRec r ++ encodeRecs rs ≠ [] := by
      intro hcontra
      exact encRec_ne_nil r (List.append_eq_nil.mp hcontra).1
    rw [show encodeRecs (r :: rs) = encRec r ++ encodeRecs rs from rfl]
    match hmatch : encRec r ++ encodeRecs rs with
    | [] => exact absurd hmatch hne
    | x :: xs =>
      rw [decodeAll_cons_ok x xs r (encodeRecs rs) (hmatch ▸ hr),
        ih (fun q hq => hwf q (by simp [hq]))]
      rfl

/-- Parse-composition: decoding a concatenation of two decodable streams
decodes to the concatenation (records are self-delimiting). -/
theorem decodeAll_append (b : List Nat) (rb : List Rec)
    (hb : decodeAll b = some rb) :
    ∀ (n : Nat) (a : List Nat), a.length ≤ n → ∀ ra, decodeAll a = some ra →
    decodeAll (a ++ b) = some (ra ++ rb) := by
  intro n
  induction n with
  | zero =>
    intro a hlen ra ha
    have ha0 : a = [] := List.eq_nil_of_length_eq_zero (by omega)
    subst ha0
    rw [decodeAll] at ha
    simp only [Option.some.injEq] at ha
    simp [← ha, hb]
  | succ n ih =>
    intro a hlen ra ha
    match a with
    | [] =>
      rw [decodeAll] at ha
      simp only [Option.some.injEq] at ha
      simp [← ha, hb]
    | x :: xs =>
      cases hrr : readRecord (x :: xs) with
      | error m =>
        rw [decodeAll_cons_err x xs m hrr] at ha
        exact absurd ha (by simp)
      | ok p =>
        obtain ⟨r, rest⟩ := p
        rw [decodeAll_cons_ok x xs r rest hrr] at ha
        rw [Option.map_eq_some'] at ha
        obtain ⟨ra2, hra2, hcons⟩ := ha
        have hlt := readRecord_consumes (x :: xs) r rest hrr
        have hrec := ih rest (by simp at hlt hlen ⊢; omega) ra2 hra2
        rw [List.cons_append]
        rw [decodeAll_cons_ok x (xs ++ b) r (rest ++ b)
          (by
            have := readRecord_extend (x :: xs) b r rest hrr
            rw [List.cons_append] at this
            exact this)]
        rw [hrec, ← hcons]
        rfl

/-- The loop over a payload that decodes to `recs` is the loop over `recs`. -/
theorem iterateLoop_eq_runRecs (h : Handler σ) :
    ∀ (n : Nat) (input : List Nat), input.length ≤ n →
    ∀ (recs : List Rec) (found : Nat) (st : σ), decodeAll input = some recs →
    iterateLoop h input found st = runRecs h recs found st := by
  intro n
  induction n with
  | zero =>
    intro input hlen recs found st hdec
    have h0 : input = [] := List.eq_nil_of_length_eq_zero (by omega)
    subst h0
    rw [decodeAll] at hdec
    simp only [Option.some.injEq] at hdec
    rw [iterateLoop_nil, ← hdec]
    rfl
  | succ n ih =>
    intro input hlen recs found st hdec
    match input with
    | [] =>
      rw [decodeAll] at hdec
      simp only [Option.some.injEq] at hdec
      rw [iterateLoop_nil, ← hdec]
      rfl
    | x :: xs =>
      cases hrr : readRecord (x :: xs) with
      | error m =>
        rw [decodeAll_cons_err x xs m hrr] at hdec
        exact absurd hdec (by simp)
      | ok p =>
        obtain ⟨r, rest⟩ := p
        rw [decodeAll_cons_ok x xs r rest hrr] at hdec
        rw [Option.map_eq_some'] at hdec
        obtain ⟨rs, hrs, hcons⟩ := hdec
        subst hcons
        by_cases hc : h.Continue st = true
        · rw [iterateLoop_cons_ok h x xs r rest hrr found st hc]
          rw [runRecs, if_pos hc]
          have hlt := readRecord_consumes (x :: xs) r rest hrr
          by_cases hok : (dispatchRec h r st).1 = Status.ok
          · simp only [hok, if_pos]
            exact ih rest (by simp at hlt hlen ⊢; omega) rs _ _ hrs
          · simp only [if_neg hok]
        · rw [iterateLoop_stop h _ found st (by revert hc; cases h.Continue st <;> simp)]
          rw [runRecs, if_neg hc]


/-! ## Content classification (`BatchContentClassifier`,
`WriteBatch::ComputeContentFlags`, the `Has*` queries). -/

/-- The classification visitor: each callback ors its `HAS_*` bit into the
accumulated flags and returns ok; `LogData` is the inherited no-op. -/
def BatchContentClassifier : Handler Nat where
  PutCF := fun f _ _ _ => (Status.ok, f ||| HAS_PUT)
  DeleteCF := fun f _ _ => (Status.ok, f ||| HAS_DELETE)
  SingleDeleteCF := fun f _ _ => (Status.ok, f ||| HAS_SINGLE_DELETE)
  DeleteRangeCF := fun f _ _ _ => (Status.ok, f ||| HAS_DELETE_RANGE)
  MergeCF := fun f _ _ _ => (Status.ok, f ||| HAS_MERGE)
  LogData := fun f _ => f
  MarkBeginPrepare := fun f => (Status.ok, f ||| HAS_BEGIN_PREPARE)
  MarkEndPrepare := fun f _ => (Status.ok, f ||| HAS_END_PREPARE)
  MarkCommit := fun f _ => (Status.ok, f ||| HAS_COMMIT)
  MarkRollback := fun f _ => (Status.ok, f ||| HAS_ROLLBACK)
  Continue := fun _ => true

/-- `WriteBatch::ComputeContentFlags()`: if `DEFERRED` is set, iterate the
batch with the classifier, memoize the computed bits into
`content_flags_`, and return them; otherwise return the stored flags.
Returns the value together with the (possibly memoized) batch. -/
def WriteBatch.ComputeContentFlags (b : WriteBatch) : Nat × WriteBatch :=
  if b.content_flags &&& DEFERRED ≠ 0 then
    let rv := (b.Iterate BatchContentClassifier 0).2
    (rv, { b with content_flags := rv })
  else (b.content_flags, b)

def WriteBatch.HasPut (b : WriteBatch) : Bool :=
  b.ComputeContentFlags.1 &&& HAS_PUT != 0

def WriteBatch.HasDelete (b : WriteBatch) : Bool :=
  b.ComputeContentFlags.1 &&& HAS_DELETE != 0

def WriteBatch.HasSingleDelete (b : WriteBatch) : Bool :=
  b.ComputeContentFlags.1 &&& HAS_SINGLE_DELETE != 0

def WriteBatch.HasDeleteRange (b : WriteBatch) : Bool :=
  b.ComputeContentFlags.1 &&& HAS_DELETE_RANGE != 0

def WriteBatch.HasMerge (b : WriteBatch) : Bool :=
  b.ComputeContentFlags.1 &&& HAS_MERGE != 0

def WriteBatch.HasBeginPrepare (b : WriteBatch) : Bool :=
  b.ComputeContentFlags.1 &&& HAS_BEGIN_PREPARE != 0

def WriteBatch.HasEndPrepare (b : WriteBatch) : Bool :=
  b.ComputeContentFlags.1 &&& HAS_END_PREPARE != 0

def WriteBatch.HasCommit (b : WriteBatch) : Bool :=
  b.ComputeContentFlags.1 &&& HAS_COMMIT != 0

def WriteBatch.HasRollback (b : WriteBatch) : Bool :=
  b.ComputeContentFlags.1 &&& HAS_ROLLBACK != 0

/-- The `HAS_*` bit one record contributes (0 for `LogData` and `Noop`). -/
def recFlag : Rec → Nat
  | .put _ _ _ => HAS_PUT
  | .del _ _ => HAS_DELETE
  | .singleDel _ _ => HAS_SINGLE_DELETE
  | .delRange _ _ _ => HAS_DELETE_RANGE
  | .merge _ _ _ => HAS_MERGE
  | .logData _ => 0
  | .noop => 0
  | .beginPrepare => HAS_BEGIN_PREPARE
  | .endPrepare _ => HAS_END_PREPARE
  | .commitMark _ => HAS_COMMIT
  | .rollbackMark _ => HAS_ROLLBACK

/-- Content flags of a record list (what classification computes). -/
def flagsOfRecs : List Rec → Nat
  | [] => 0
  | r :: rs => recFlag r ||| flagsOfRecs rs

theorem dispatchRec_classifier (r : Rec) (f : Nat) :
    dispatchRec BatchContentClassifier r f =
      (Status.ok, r.isCounted, f ||| recFlag r) := by
  cases r <;> simp [dispatchRec, BatchContentClassifier, recFlag, Rec.isCounted]

theorem runRecs_classifier (recs : List Rec) : ∀ (found f : Nat),
    runRecs BatchContentClassifier recs found f =
      (Status.ok, found + countedCount recs, f ||| flagsOfRecs recs) := by
  induction recs with
  | nil => intro found f; simp [runRecs, countedCount_nil, flagsOfRecs]
  | cons r rs ih =>
    intro found f
    rw [runRecs]
    have hc : BatchContentClassifier.Continue f = true := rfl
    rw [if_pos hc]
    simp only [dispatchRec_classifier]
    rw [if_pos trivial]
    rw [ih, countedCount_cons]
    have hfl : (f ||| recFlag r) ||| flagsOfRecs rs = f ||| flagsOfRecs (r :: rs) := by
      rw [flagsOfRecs, Nat.lor_assoc]
    rw [hfl]
    have harith : (if r.isCounted then found + 1 else found) + countedCount rs =
        found + ((if r.isCounted then 1 else 0) + countedCount rs) := by
      cases r.isCounted <;> simp <;> omega
    rw [harith]

/-! ### Generic well-behaved-handler lemmas. -/

/-- A handler whose five mutation callbacks always return ok (the marks and
`LogData` have their statuses discarded by `Iterate` regardless). -/
def HandlerOk (h : Handler σ) : Prop :=
  (∀ st cf k v, (h.PutCF st cf k v).1 = Status.ok) ∧
  (∀ st cf k, (h.DeleteCF st cf k).1 = Status.ok) ∧
  (∀ st cf k, (h.SingleDeleteCF st cf k).1 = Status.ok) ∧
  (∀ st cf bk ek, (h.DeleteRangeCF st cf bk ek).1 = Status.ok) ∧
  (∀ st cf k v, (h.MergeCF st cf k v).1 = Status.ok)

theorem dispatchRec_status_ok (h : Handler σ) (hok : HandlerOk h) (r : Rec)
    (st : σ) : (dispatchRec h r st).1 = Status.ok ∧
      (dispatchRec h r st).2.1 = r.isCounted := by
  obtain ⟨h1, h2, h3, h4, h5⟩ := hok
  cases r <;> simp [dispatchRec, Rec.isCounted, h1, h2, h3, h4, h5]

theorem runRecs_status_ok (h : Handler σ) (hok : HandlerOk h) :
    ∀ (recs : List Rec) (found : Nat) (st : σ),
    (runRecs h recs found st).1 = Status.ok ∧
      (runRecs h recs found st).2.1 ≤ found + countedCount recs := by
  intro recs
  induction recs with
  | nil => intro found st; simp [runRecs]
  | cons r rs ih =>
    intro found st
    rw [runRecs]
    by_cases hc : h.Continue st = true
    · rw [if_pos hc]
      have hd := dispatchRec_status_ok h hok r st
      simp only [hd.1, if_pos]
      have := ih (if (dispatchRec h r st).2.1 then found + 1 else found)
        (dispatchRec h r st).2.2
      refine ⟨this.1, ?_⟩
      have h2 := this.2
      rw [countedCount_cons]
      rw [hd.2] at h2 ⊢
      cases hcnt : r.isCounted
      · rw [hcnt] at h2
        simp at h2 ⊢
        omega
      · rw [hcnt] at h2
        simp at h2 ⊢
        omega
    · rw [if_neg hc]
      exact ⟨rfl, Nat.le_add_right _ _⟩

theorem runRecs_full (h : Handler σ) (hok : HandlerOk h)
    (hcont : ∀ st, h.Continue st = true) :
    ∀ (recs : List Rec) (found : Nat) (st : σ),
    (runRecs h recs found st).1 = Status.ok ∧
      (runRecs h recs found st).2.1 = found + countedCount recs := by
  intro recs
  induction recs with
  | nil => intro found st; simp [runRecs, countedCount_nil]
  | cons r rs ih =>
    intro found st
    rw [runRecs, if_pos (hcont st)]
    have hd := dispatchRec_status_ok h hok r st
    simp only [hd.1, if_pos]
    have := ih (if (dispatchRec h r st).2.1 then found + 1 else found)
      (dispatchRec h r st).2.2
    refine ⟨this.1, ?_⟩
    rw [this.2, countedCount_cons, hd.2]
    cases hcnt : r.isCounted <;> simp <;> omega


/-! ## Shape lemmas for the append operations. -/

/-- Well-formed batch buffer: at least the 12-byte header, bytes `< 256`
(as `std::string` bytes are). -/
def WriteBatch.wf (b : WriteBatch) : Prop :=
  12 ≤ b.rep.length ∧ ∀ x ∈ b.rep, x < 256

theorem decodeFixed32_append4 (mid rest : List Nat) (h : mid.length = 4) :
    decodeFixed32 (mid ++ rest) = decodeFixed32 mid := by
  match mid with
  | [a, b, c, d] => simp [decodeFixed32]

theorem rep_decomp (b : WriteBatch) (h : 12 ≤ b.rep.length) :
    b.rep = b.rep.take 8 ++ (b.rep.drop 8).take 4 ++ b.rep.drop 12 := by
  have h1 : b.rep.take 8 ++ (b.rep.drop 8).take 4 = b.rep.take 12 := by
    have := (List.take_add b.rep 8 4).symm
    simpa using this
  rw [h1]
  exact (List.take_append_drop 12 b.rep).symm

theorem take8_decomp (b : WriteBatch) (hlen : 12 ≤ b.rep.length)
    (mid extra : List Nat) (hmid : mid.length = 4) :
    (b.rep.take 8 ++ mid ++ b.rep.drop 12 ++ extra).take 8 = b.rep.take 8 := by
  have h8 : (b.rep.take 8).length = 8 := by simp; omega
  rw [List.append_assoc, List.append_assoc]
  rw [List.take_append_eq_append_take, h8]
  simp

theorem drop12_decomp (b : WriteBatch) (hlen : 12 ≤ b.rep.length)
    (mid extra : List Nat) (hmid : mid.length = 4) :
    (b.rep.take 8 ++ mid ++ b.rep.drop 12 ++ extra).drop 12 =
      b.rep.drop 12 ++ extra := by
  have h12 : (b.rep.take 8 ++ mid).length = 12 := by simp; omega
  have hassoc : b.rep.take 8 ++ mid ++ b.rep.drop 12 ++ extra =
      (b.rep.take 8 ++ mid) ++ (b.rep.drop 12 ++ extra) := by
    simp [List.append_assoc]
  have hdl := List.drop_left (b.rep.take 8 ++ mid) (b.rep.drop 12 ++ extra)
  rw [h12] at hdl
  rw [hassoc, hdl]

theorem drop8_decomp (b : WriteBatch) (hlen : 12 ≤ b.rep.length)
    (mid extra : List Nat) (hmid : mid.length = 4) :
    (b.rep.take 8 ++ mid ++ b.rep.drop 12 ++ extra).drop 8 =
      mid ++ (b.rep.drop 12 ++ extra) := by
  have h8 : (b.rep.take 8).length = 8 := by simp; omega
  have hassoc : b.rep.take 8 ++ mid ++ b.rep.drop 12 ++ extra =
      b.rep.take 8 ++ (mid ++ (b.rep.drop 12 ++ extra)) := by
    simp [List.append_assoc]
  have hdl := List.drop_left (b.rep.take 8) (mid ++ (b.rep.drop 12 ++ extra))
  rw [h8] at hdl
  rw [hassoc, hdl]

theorem length_decomp (b : WriteBatch) (hlen : 12 ≤ b.rep.length)
    (mid extra : List Nat) (hmid : mid.length = 4) :
    (b.rep.take 8 ++ mid ++ b.rep.drop 12 ++ extra).length =
      b.rep.length + extra.length := by
  simp
  omega

theorem Count_decomp (b : WriteBatch) (hlen : 12 ≤ b.rep.length)
    (mid extra : List Nat) (hmid : mid.length = 4) (f2 : Nat) :
    WriteBatchInternal.Count
      ⟨b.rep.take 8 ++ mid ++ b.rep.drop 12 ++ extra, f2, b.max_bytes,
        b.save_points, b.wal_term_point⟩ = decodeFixed32 mid := by
  unfold WriteBatchInternal.Count
  dsimp only
  rw [drop8_decomp b hlen mid extra hmid, decodeFixed32_append4 mid _ hmid]

/-- `LocalSavePoint::commit` on a batch whose buffer is the original one
with (possibly) rewritten count bytes `mid2` and appended suffix `extra2`:
it fails and restores `c` exactly when `max_bytes` is set and exceeded. -/
theorem commit_shape (c : WriteBatch) (hlen : 12 ≤ c.rep.length)
    (hbytes : ∀ x ∈ (c.rep.drop 8).take 4, x < 256)
    (mid2 extra2 : List Nat) (hmid2 : mid2.length = 4) (f2 : Nat) :
    LocalSavePoint.commit (LocalSavePoint.save c)
      ⟨c.rep.take 8 ++ mid2 ++ c.rep.drop 12 ++ extra2, f2, c.max_bytes,
        c.save_points, c.wal_term_point⟩ =
    if c.max_bytes ≠ 0 ∧ c.max_bytes < c.rep.length + extra2.length then
      (Status.memoryLimit, c)
    else
      (Status.ok,
        ⟨c.rep.take 8 ++ mid2 ++ c.rep.drop 12 ++ extra2, f2, c.max_bytes,
          c.save_points, c.wal_term_point⟩) := by
  unfold LocalSavePoint.commit
  dsimp only
  rw [length_decomp c hlen mid2 extra2 hmid2]
  by_cases hcond : c.max_bytes ≠ 0 ∧ c.max_bytes < c.rep.length + extra2.length
  · rw [if_pos hcond, if_pos hcond]
    unfold LocalSavePoint.save WriteBatchInternal.SetCount WriteBatch.GetDataSize
    dsimp only
    have htake : (c.rep.take 8 ++ mid2 ++ c.rep.drop 12 ++ extra2).take
        c.rep.length = c.rep.take 8 ++ mid2 ++ c.rep.drop 12 := by
      have hassoc : c.rep.take 8 ++ mid2 ++ c.rep.drop 12 ++ extra2 =
          (c.rep.take 8 ++ mid2 ++ c.rep.drop 12) ++ extra2 := by
        simp [List.append_assoc]
      have hlen3 : (c.rep.take 8 ++ mid2 ++ c.rep.drop 12).length =
          c.rep.length := by simp; omega
      rw [hassoc, ← hlen3, List.take_left]
    rw [htake]
    have htake8 : (c.rep.take 8 ++ mid2 ++ c.rep.drop 12).take 8 =
        c.rep.take 8 := by
      have := take8_decomp c hlen mid2 [] hmid2
      simpa using this
    have hdrop12 : (c.rep.take 8 ++ mid2 ++ c.rep.drop 12).drop 12 =
        c.rep.drop 12 := by
      have := drop12_decomp c hlen mid2 [] hmid2
      simpa using this
    rw [htake8, hdrop12]
    have hmid0 : ((c.rep.drop 8).take 4).length = 4 := by simp; omega
    have hfix : putFixed32 (decodeFixed32 (c.rep.drop 8)) =
        (c.rep.drop 8).take 4 := by
      have hsplit : c.rep.drop 8 = (c.rep.drop 8).take 4 ++ (c.rep.drop 8).drop 4 :=
        (List.take_append_drop 4 (c.rep.drop 8)).symm
      match hm : (c.rep.drop 8).take 4, hmid0 with
      | [a, b2, c2, d], _ =>
        rw [hsplit, hm]
        have hb := hbytes
        rw [hm] at hb
        exact putFixed32_decode a b2 c2 d _ (hb a (by simp)) (hb b2 (by simp))
          (hb c2 (by simp)) (hb d (by simp))
    unfold WriteBatchInternal.Count
    rw [hfix]
    have hrep : c.rep.take 8 ++ (c.rep.drop 8).take 4 ++ c.rep.drop 12 = c.rep :=
      (rep_decomp c hlen).symm
    rw [hrep]
  · rw [if_neg hcond, if_neg hcond]


theorem Put_op_shape (b : WriteBatch) (cf : Nat) (k v : List Nat) :
    WriteBatchInternal.Put b cf k v =
      LocalSavePoint.commit (LocalSavePoint.save b)
        ⟨b.rep.take 8 ++ putFixed32 (WriteBatchInternal.Count b + 1) ++
          b.rep.drop 12 ++ encRec (.put cf k v),
          b.content_flags ||| HAS_PUT, b.max_bytes, b.save_points,
          b.wal_term_point⟩ := by
  by_cases hcf : cf = 0 <;>
    simp [WriteBatchInternal.Put, WriteBatchInternal.SetCount, WriteBatch.push,
      WriteBatch.orFlags, encRec, hcf, List.append_assoc]

theorem Delete_op_shape (b : WriteBatch) (cf : Nat) (k : List Nat) :
    WriteBatchInternal.Delete b cf k =
      LocalSavePoint.commit (LocalSavePoint.save b)
        ⟨b.rep.take 8 ++ putFixed32 (WriteBatchInternal.Count b + 1) ++
          b.rep.drop 12 ++ encRec (.del cf k),
          b.content_flags ||| HAS_DELETE, b.max_bytes, b.save_points,
          b.wal_term_point⟩ := by
  by_cases hcf : cf = 0 <;>
    simp [WriteBatchInternal.Delete, WriteBatchInternal.SetCount, WriteBatch.push,
      WriteBatch.orFlags, encRec, hcf, List.append_assoc]

theorem SingleDelete_op_shape (b : WriteBatch) (cf : Nat) (k : List Nat) :
    WriteBatchInternal.SingleDelete b cf k =
      LocalSavePoint.commit (LocalSavePoint.save b)
        ⟨b.rep.take 8 ++ putFixed32 (WriteBatchInternal.Count b + 1) ++
          b.rep.drop 12 ++ encRec (.singleDel cf k),
          b.content_flags ||| HAS_SINGLE_DELETE, b.max_bytes, b.save_points,
          b.wal_term_point⟩ := by
  by_cases hcf : cf = 0 <;>
    simp [WriteBatchInternal.SingleDelete, WriteBatchInternal.SetCount,
      WriteBatch.push, WriteBatch.orFlags, encRec, hcf, List.append_assoc]

theorem DeleteRange_op_shape (b : WriteBatch) (cf : Nat) (bk ek : List Nat) :
    WriteBatchInternal.DeleteRange b cf bk ek =
      LocalSavePoint.commit (LocalSavePoint.save b)
        ⟨b.rep.take 8 ++ putFixed32 (WriteBatchInternal.Count b + 1) ++
          b.rep.drop 12 ++ encRec (.delRange cf bk ek),
          b.content_flags ||| HAS_DELETE_RANGE, b.max_bytes, b.save_points,
          b.wal_term_point⟩ := by
  by_cases hcf : cf = 0 <;>
    simp [WriteBatchInternal.DeleteRange, WriteBatchInternal.SetCount,
      WriteBatch.push, WriteBatch.orFlags, encRec, hcf, List.append_assoc]

theorem Merge_op_shape (b : WriteBatch) (cf : Nat) (k v : List Nat) :
    WriteBatchInternal.Merge b cf k v =
      LocalSavePoint.commit (LocalSavePoint.save b)
        ⟨b.rep.take 8 ++ putFixed32 (WriteBatchInternal.Count b + 1) ++
          b.rep.drop 12 ++ encRec (.merge cf k v),
          b.content_flags ||| HAS_MERGE, b.max_bytes, b.save_points,
          b.wal_term_point⟩ := by
  by_cases hcf : cf = 0 <;>
    simp [WriteBatchInternal.Merge, WriteBatchInternal.SetCount, WriteBatch.push,
      WriteBatch.orFlags, encRec, hcf, List.append_assoc]

theorem PutLogData_op_shape (b : WriteBatch) (blob : List Nat)
    (hlen : 12 ≤ b.rep.length) :
    WriteBatch.PutLogData b blob =
      LocalSavePoint.commit (LocalSavePoint.save b)
        ⟨b.rep.take 8 ++ (b.rep.drop 8).take 4 ++ b.rep.drop 12 ++
          encRec (.logData blob),
          b.content_flags, b.max_bytes, b.save_points, b.wal_term_point⟩ := by
  have hd := rep_decomp b hlen
  simp only [WriteBatch.PutLogData, WriteBatch.push, encRec]
  congr 2
  conv_lhs => rw [hd]
  simp [List.append_assoc]

/-- `putFixed32` always produces 4 bytes. -/
theorem putFixed32_length (n : Nat) : (putFixed32 n).length = 4 := rfl

theorem Put_result (b : WriteBatch) (cf : Nat) (k v : List Nat)
    (hlen : 12 ≤ b.rep.length) (hbytes : ∀ x ∈ (b.rep.drop 8).take 4, x < 256) :
    WriteBatchInternal.Put b cf k v =
      if b.max_bytes ≠ 0 ∧
          b.max_bytes < b.rep.length + (encRec (.put cf k v)).length then
        (Status.memoryLimit, b)
      else
        (Status.ok,
          ⟨b.rep.take 8 ++ putFixed32 (WriteBatchInternal.Count b + 1) ++
            b.rep.drop 12 ++ encRec (.put cf k v),
            b.content_flags ||| HAS_PUT, b.max_bytes, b.save_points,
            b.wal_term_point⟩) := by
  rw [Put_op_shape]
  exact commit_shape b hlen hbytes _ _ (putFixed32_length _) _

theorem Delete_result (b : WriteBatch) (cf : Nat) (k : List Nat)
    (hlen : 12 ≤ b.rep.length) (hbytes : ∀ x ∈ (b.rep.drop 8).take 4, x < 256) :
    WriteBatchInternal.Delete b cf k =
      if b.max_bytes ≠ 0 ∧
          b.max_bytes < b.rep.length + (encRec (.del cf k)).length then
        (Status.memoryLimit, b)
      else
        (Status.ok,
          ⟨b.rep.take 8 ++ putFixed32 (WriteBatchInternal.Count b + 1) ++
            b.rep.drop 12 ++ encRec (.del cf k),
            b.content_flags ||| HAS_DELETE, b.max_bytes, b.save_points,
            b.wal_term_point⟩) := by
  rw [Delete_op_shape]
  exact commit_shape b hlen hbytes _ _ (putFixed32_length _) _

theorem SingleDelete_result (b : WriteBatch) (cf : Nat) (k : List Nat)
    (hlen : 12 ≤ b.rep.length) (hbytes : ∀ x ∈ (b.rep.drop 8).take 4, x < 256) :
    WriteBatchInternal.SingleDelete b cf k =
      if b.max_bytes ≠ 0 ∧
          b.max_bytes < b.rep.length + (encRec (.singleDel cf k)).length then
        (Status.memoryLimit, b)
      else
        (Status.ok,
          ⟨b.rep.take 8 ++ putFixed32 (WriteBatchInternal.Count b + 1) ++
            b.rep.drop 12 ++ encRec (.singleDel cf k),
            b.content_flags ||| HAS_SINGLE_DELETE, b.max_bytes, b.save_points,
            b.wal_term_point⟩) := by
  rw [SingleDelete_op_shape]
  exact commit_shape b hlen hbytes _ _ (putFixed32_length _) _

theorem DeleteRange_result (b : WriteBatch) (cf : Nat) (bk ek : List Nat)
    (hlen : 12 ≤ b.rep.length) (hbytes : ∀ x ∈ (b.rep.drop 8).take 4, x < 256) :
    WriteBatchInternal.DeleteRange b cf bk ek =
      if b.max_bytes ≠ 0 ∧
          b.max_bytes < b.rep.length + (encRec (.delRange cf bk ek)).length then
        (Status.memoryLimit, b)
      else
        (Status.ok,
          ⟨b.rep.take 8 ++ putFixed32 (WriteBatchInternal.Count b + 1) ++
            b.rep.drop 12 ++ encRec (.delRange cf bk ek),
            b.content_flags ||| HAS_DELETE_RANGE, b.max_bytes, b.save_points,
            b.wal_term_point⟩) := by
  rw [DeleteRange_op_shape]
  exact commit_shape b hlen hbytes _ _ (putFixed32_length _) _

theorem Merge_result (b : WriteBatch) (cf : Nat) (k v : List Nat)
    (hlen : 12 ≤ b.rep.length) (hbytes : ∀ x ∈ (b.rep.drop 8).take 4, x < 256) :
    WriteBatchInternal.Merge b cf k v =
      if b.max_bytes ≠ 0 ∧
          b.max_bytes < b.rep.length + (encRec (.merge cf k v)).length then
        (Status.memoryLimit, b)
      else
        (Status.ok,
          ⟨b.rep.take 8 ++ putFixed32 (WriteBatchInternal.Count b + 1) ++
            b.rep.drop 12 ++ encRec (.merge cf k v),
            b.content_flags ||| HAS_MERGE, b.max_bytes, b.save_points,
            b.wal_term_point⟩) := by
  rw [Merge_op_shape]
  exact commit_shape b hlen hbytes _ _ (putFixed32_length _) _

theorem PutLogData_result (b : WriteBatch) (blob : List Nat)
    (hlen : 12 ≤ b.rep.length) (hbytes : ∀ x ∈ (b.rep.drop 8).take 4, x < 256) :
    WriteBatch.PutLogData b blob =
      if b.max_bytes ≠ 0 ∧
          b.max_bytes < b.rep.length + (encRec (.logData blob)).length then
        (Status.memoryLimit, b)
      else
        (Status.ok,
          ⟨b.rep.take 8 ++ (b.rep.drop 8).take 4 ++ b.rep.drop 12 ++
            encRec (.logData blob),
            b.content_flags, b.max_bytes, b.save_points, b.wal_term_point⟩) := by
  rw [PutLogData_op_shape b blob hlen]
  exact commit_shape b hlen hbytes _ _ (by simp; omega) _

theorem MarkCommit_result (b : WriteBatch) (xid : List Nat) :
    WriteBatchInternal.MarkCommit b xid =
      (Status.ok,
        ⟨b.rep ++ encRec (.commitMark xid), b.content_flags ||| HAS_COMMIT,
          b.max_bytes, b.save_points, b.wal_term_point⟩) := by
  simp [WriteBatchInternal.MarkCommit, WriteBatch.push, WriteBatch.orFlags,
    encRec, List.append_assoc]

theorem MarkRollback_result (b : WriteBatch) (xid : List Nat) :
    WriteBatchInternal.MarkRollback b xid =
      (Status.ok,
        ⟨b.rep ++ encRec (.rollbackMark xid), b.content_flags ||| HAS_ROLLBACK,
          b.max_bytes, b.save_points, b.wal_term_point⟩) := by
  simp [WriteBatchInternal.MarkRollback, WriteBatch.push, WriteBatch.orFlags,
    encRec, List.append_assoc]

/-! ## Sequences of append operations. -/

/-- One user-level append operation on a batch (the operations of spec §4.2
plus the uncounted appends; `MarkEndPrepare` is excluded since it clears
the savepoint stack). -/
inductive AppendOp where
  | put (cf : Nat) (key value : List Nat)
  | del (cf : Nat) (key : List Nat)
  | singleDel (cf : Nat) (key : List Nat)
  | delRange (cf : Nat) (begin_key end_key : List Nat)
  | merge (cf : Nat) (key value : List Nat)
  | putLogData (blob : List Nat)
  | markCommit (xid : List Nat)
  | markRollback (xid : List Nat)
deriving DecidableEq, Repr

/-- Run one append operation. -/
def AppendOp.run (op : AppendOp) (b : WriteBatch) : Status × WriteBatch :=
  match op with
  | .put cf k v => WriteBatchInternal.Put b cf k v
  | .del cf k => WriteBatchInternal.Delete b cf k
  | .singleDel cf k => WriteBatchInternal.SingleDelete b cf k
  | .delRange cf bk ek => WriteBatchInternal.DeleteRange b cf bk ek
  | .merge cf k v => WriteBatchInternal.Merge b cf k v
  | .putLogData blob => WriteBatch.PutLogData b blob
  | .markCommit xid => WriteBatchInternal.MarkCommit b xid
  | .markRollback xid => WriteBatchInternal.MarkRollback b xid

/-- The batch after one append operation (its status discarded, as a caller
issuing a sequence of appends does). -/
def AppendOp.apply (op : AppendOp) (b : WriteBatch) : WriteBatch := (op.run b).2

/-- Apply a sequence of append operations left to right. -/
def applyOps (ops : List AppendOp) (b : WriteBatch) : WriteBatch :=
  ops.foldl (fun b op => op.apply b) b

/-- The record an append operation encodes. -/
def AppendOp.toRec : AppendOp → Rec
  | .put cf k v => .put cf k v
  | .del cf k => .del cf k
  | .singleDel cf k => .singleDel cf k
  | .delRange cf bk ek => .delRange cf bk ek
  | .merge cf k v => .merge cf k v
  | .putLogData blob => .logData blob
  | .markCommit xid => .commitMark xid
  | .markRollback xid => .rollbackMark xid

/-- Well-formed arguments of an append operation. -/
def AppendOp.wf (op : AppendOp) : Prop := op.toRec.wf


/-! ## Claim theorems. -/

theorem lebEnc_small (n : Nat) (h : n < 128) : lebEnc n = [n] := by
  rw [lebEnc]
  exact if_pos h

theorem putVarint32_small (n : Nat) (h : n < 128) : putVarint32 n = [n] := by
  rw [putVarint32, Nat.mod_eq_of_lt (by omega)]
  exact lebEnc_small n h

theorem putLengthPrefixed_small (s : List Nat) (h : s.length < 128) :
    putLengthPrefixed s = s.length :: s := by
  rw [putLengthPrefixed, putVarint32_small s.length h]
  rfl

theorem wf_countBytes (b : WriteBatch) (hwf : b.wf) :
    ∀ x ∈ (b.rep.drop 8).take 4, x < 256 := fun x hx =>
  hwf.2 x (List.drop_subset 8 b.rep (List.take_subset 4 _ hx))

/-- Example batch with `max_bytes = 13`: any counted append of at least two
bytes overflows it. -/
def wbSmall : WriteBatch := ⟨List.replicate 12 0, 0, 13, [], SavePoint.cleared⟩

theorem wbSmall_wf : wbSmall.wf := ⟨by decide, by decide⟩

/-- C2: for every counted append operation (put, delete, single-delete,
delete-range, merge) on a well-formed batch, if the append does not return
ok then it failed the `max_bytes` commit check with `memoryLimit`
(`batch_too_large`), and the returned batch is exactly the pre-call batch:
payload, header count and content flags (indeed every field) are restored. -/
theorem claim_C2 (b : WriteBatch) (hwf : b.wf) :
    (∀ cf k v, (WriteBatchInternal.Put b cf k v).1 ≠ Status.ok →
      (WriteBatchInternal.Put b cf k v).1 = Status.memoryLimit ∧
      (WriteBatchInternal.Put b cf k v).2 = b) ∧
    (∀ cf k, (WriteBatchInternal.Delete b cf k).1 ≠ Status.ok →
      (WriteBatchInternal.Delete b cf k).1 = Status.memoryLimit ∧
      (WriteBatchInternal.Delete b cf k).2 = b) ∧
    (∀ cf k, (WriteBatchInternal.SingleDelete b cf k).1 ≠ Status.ok →
      (WriteBatchInternal.SingleDelete b cf k).1 = Status.memoryLimit ∧
      (WriteBatchInternal.SingleDelete b cf k).2 = b) ∧
    (∀ cf bk ek, (WriteBatchInternal.DeleteRange b cf bk ek).1 ≠ Status.ok →
      (WriteBatchInternal.DeleteRange b cf bk ek).1 = Status.memoryLimit ∧
      (WriteBatchInternal.DeleteRange b cf bk ek).2 = b) ∧
    (∀ cf k v, (WriteBatchInternal.Merge b cf k v).1 ≠ Status.ok →
      (WriteBatchInternal.Merge b cf k v).1 = Status.memoryLimit ∧
      (WriteBatchInternal.Merge b cf k v).2 = b) := by
  have hb := wf_countBytes b hwf
  refine ⟨?_, ?_, ?_, ?_, ?_⟩
  · intro cf k v hne
    by_cases hcond : b.max_bytes ≠ 0 ∧
        b.max_bytes < b.rep.length + (encRec (.put cf k v)).length
    · rw [Put_result b cf k v hwf.1 hb, if_pos hcond]
      exact ⟨rfl, rfl⟩
    · rw [Put_result b cf k v hwf.1 hb, if_neg hcond] at hne
      exact absurd rfl hne
  · intro cf k hne
    by_cases hcond : b.max_bytes ≠ 0 ∧
        b.max_bytes < b.rep.length + (encRec (.del cf k)).length
    · rw [Delete_result b cf k hwf.1 hb, if_pos hcond]
      exact ⟨rfl, rfl⟩
    · rw [Delete_result b cf k hwf.1 hb, if_neg hcond] at hne
      exact absurd rfl hne
  · intro cf k hne
    by_cases hcond : b.max_bytes ≠ 0 ∧
        b.max_bytes < b.rep.length + (encRec (.singleDel cf k)).length
    · rw [SingleDelete_result b cf k hwf.1 hb, if_pos hcond]
      exact ⟨rfl, rfl⟩
    · rw [SingleDelete_result b cf k hwf.1 hb, if_neg hcond] at hne
      exact absurd rfl hne
  · intro cf bk ek hne
    by_cases hcond : b.max_bytes ≠ 0 ∧
        b.max_bytes < b.rep.length + (encRec (.delRange cf bk ek)).length
    · rw [DeleteRange_result b cf bk ek hwf.1 hb, if_pos hcond]
      exact ⟨rfl, rfl⟩
    · rw [DeleteRange_result b cf bk ek hwf.1 hb, if_neg hcond] at hne
      exact absurd rfl hne
  · intro cf k v hne
    by_cases hcond : b.max_bytes ≠ 0 ∧
        b.max_bytes < b.rep.length + (encRec (.merge cf k v)).length
    · rw [Merge_result b cf k v hwf.1 hb, if_pos hcond]
      exact ⟨rfl, rfl⟩
    · rw [Merge_result b cf k v hwf.1 hb, if_neg hcond] at hne
      exact absurd rfl hne

/-- C2 witness: on the 13-byte-bounded batch, `Put("a","1")` would need 17
bytes, fails with `memoryLimit`, and leaves the batch bitwise unchanged. -/
theorem claim_C2_witness :
    (WriteBatchInternal.Put wbSmall 0 [97] [49]).1 = Status.memoryLimit ∧
    (WriteBatchInternal.Put wbSmall 0 [97] [49]).2 = wbSmall := by
  have he : encRec (Rec.put 0 [97] [49]) = [kTypeValue, 1, 97, 1, 49] := by
    rw [show encRec (Rec.put 0 [97] [49]) =
      [kTypeValue] ++ putLengthPrefixed [97] ++ putLengthPrefixed [49] from by
        simp [encRec]]
    rw [putLengthPrefixed_small [97] (by decide),
      putLengthPrefixed_small [49] (by decide)]
    rfl
  refine (claim_C2 wbSmall wbSmall_wf).1 0 [97] [49] ?_
  rw [Put_result wbSmall 0 [97] [49] (by decide) (by decide),
    if_pos (by rw [he]; exact ⟨by decide, by decide⟩)]
  simp

/-- C9: `PutLogData` follows the same transactional-append protocol as the
counted appends: on a well-formed batch, a non-ok return is exactly the
`max_bytes` `memoryLimit` failure and leaves the batch bitwise unchanged;
and a successful `PutLogData` leaves the header count and the content
flags unchanged while appending the uncounted `LogData` record to the
payload. -/
theorem claim_C9 (b : WriteBatch) (blob : List Nat) (hwf : b.wf) :
    ((WriteBatch.PutLogData b blob).1 ≠ Status.ok →
      (WriteBatch.PutLogData b blob).1 = Status.memoryLimit ∧
      (WriteBatch.PutLogData b blob).2 = b) ∧
    ((WriteBatch.PutLogData b blob).1 = Status.ok →
      WriteBatchInternal.Count (WriteBatch.PutLogData b blob).2 =
        WriteBatchInternal.Count b ∧
      (WriteBatch.PutLogData b blob).2.content_flags = b.content_flags ∧
      (WriteBatch.PutLogData b blob).2.rep = b.rep ++ encRec (.logData blob)) := by
  have hb := wf_countBytes b hwf
  have hlen12 := hwf.1
  have hres := PutLogData_result b blob hwf.1 hb
  have hmid : ((b.rep.drop 8).take 4).length = 4 := by
    simp
    omega
  constructor
  · intro hne
    by_cases hcond : b.max_bytes ≠ 0 ∧
        b.max_bytes < b.rep.length + (encRec (.logData blob)).length
    · rw [hres, if_pos hcond]
      exact ⟨rfl, rfl⟩
    · rw [hres, if_neg hcond] at hne
      exact absurd rfl hne
  · intro hok
    by_cases hcond : b.max_bytes ≠ 0 ∧
        b.max_bytes < b.rep.length + (encRec (.logData blob)).length
    · rw [hres, if_pos hcond] at hok
      exact absurd hok (by simp)
    · rw [hres, if_neg hcond]
      refine ⟨?_, rfl, ?_⟩
      · rw [Count_decomp b hwf.1 _ _ hmid]
        unfold WriteBatchInternal.Count
        conv_rhs => rw [show b.rep.drop 8 =
          (b.rep.drop 8).take 4 ++ (b.rep.drop 8).drop 4 from
          (List.take_append_drop 4 (b.rep.drop 8)).symm]
        rw [decodeFixed32_append4 _ _ hmid]
      · dsimp only
        conv_rhs => rw [rep_decomp b hwf.1]

/-- C9 witness: on the 13-byte-bounded batch, `PutLogData` of a one-byte
blob would need 15 bytes, fails with `memoryLimit`, restoring the batch. -/
theorem claim_C9_witness :
    (WriteBatch.PutLogData wbSmall [122]).1 = Status.memoryLimit ∧
    (WriteBatch.PutLogData wbSmall [122]).2 = wbSmall := by
  have he : encRec (Rec.logData [122]) = [kTypeLogData, 1, 122] := by
    rw [show encRec (Rec.logData [122]) =
      kTypeLogData :: putLengthPrefixed [122] from rfl]
    rw [putLengthPrefixed_small [122] (by decide)]
    rfl
  refine (claim_C9 wbSmall [122] wbSmall_wf).1 ?_
  rw [PutLogData_result wbSmall [122] (by decide) (by decide),
    if_pos (by rw [he]; exact ⟨by decide, by decide⟩)]
  simp


/-- Example batch whose byte at offset 12 is a `Noop` tag, as a caller
preparing a transaction writes it. -/
def wbNoop : WriteBatch := (WriteBatchInternal.InsertNoop (WriteBatch.new 0)).2

/-- C8: for every batch whose byte at offset 12 is `Noop`,
`MarkEndPrepare(xid)` returns ok, rewrites that byte in place to
`BeginPrepareXID` (the rest of the payload before and after offset 12 is
untouched), appends an `EndPrepareXID` tag followed by the length-prefixed
xid, empties the savepoint stack, sets both prepare flags, and leaves the
header count unchanged. -/
theorem claim_C8 (b : WriteBatch) (xid : List Nat)
    (hnoop : b.rep.getD 12 0 = kTypeNoop) :
    (WriteBatchInternal.MarkEndPrepare b xid).1 = Status.ok ∧
    (WriteBatchInternal.MarkEndPrepare b xid).2.rep =
      b.rep.take 12 ++ [kTypeBeginPrepareXID] ++ b.rep.drop 13 ++
        [kTypeEndPrepareXID] ++ putLengthPrefixed xid ∧
    (WriteBatchInternal.MarkEndPrepare b xid).2.save_points = [] ∧
    WriteBatchInternal.Count (WriteBatchInternal.MarkEndPrepare b xid).2 =
      WriteBatchInternal.Count b ∧
    (WriteBatchInternal.MarkEndPrepare b xid).2.content_flags =
      b.content_flags ||| (HAS_END_PREPARE ||| HAS_BEGIN_PREPARE) := by
  have hlen : 12 < b.rep.length := by
    by_contra hc
    rw [List.getD_eq_getElem?_getD, List.getElem?_eq_none (by omega)] at hnoop
    simp [kTypeNoop] at hnoop
  have hset := List.set_eq_take_cons_drop kTypeBeginPrepareXID hlen
  refine ⟨rfl, ?_, rfl, ?_, rfl⟩
  · show (b.rep.set 12 kTypeBeginPrepareXID) ++ [kTypeEndPrepareXID] ++
      putLengthPrefixed xid = _
    rw [hset]
    simp [List.append_assoc]
  · show decodeFixed32 (((b.rep.set 12 kTypeBeginPrepareXID) ++
      [kTypeEndPrepareXID] ++ putLengthPrefixed xid).drop 8) =
      decodeFixed32 (b.rep.drop 8)
    have hgd : ∀ i : Nat, i ≤ 3 →
        (((b.rep.set 12 kTypeBeginPrepareXID) ++ [kTypeEndPrepareXID] ++
          putLengthPrefixed xid).drop 8).getD i 0 = (b.rep.drop 8).getD i 0 := by
      intro i hi
      rw [List.getD_eq_getElem?_getD, List.getD_eq_getElem?_getD,
        List.getElem?_drop, List.getElem?_drop]
      rw [List.append_assoc]
      rw [List.getElem?_append_left (by simp; omega)]
      rw [List.getElem?_set_ne (by omega)]
    unfold decodeFixed32
    rw [hgd 0 (by omega), hgd 1 (by omega), hgd 2 (by omega), hgd 3 (by omega)]

/-- C8 witness: instantiated at a batch holding exactly the reserved `Noop`
byte, with xid "x". -/
theorem claim_C8_witness :
    (WriteBatchInternal.MarkEndPrepare wbNoop [120]).1 = Status.ok ∧
    (WriteBatchInternal.MarkEndPrepare wbNoop [120]).2.save_points = [] ∧
    WriteBatchInternal.Count (WriteBatchInternal.MarkEndPrepare wbNoop [120]).2 =
      WriteBatchInternal.Count wbNoop := by
  have h := claim_C8 wbNoop [120] (by decide)
  exact ⟨h.1, h.2.2.1, h.2.2.2.1⟩


/-! ## The recording handler and the iterate-level run lemma. -/

/-- A handler that records every callback invocation in order (the
"callback sequence" of an iteration). -/
def recHandler : Handler (List Rec) where
  PutCF := fun evs cf k v => (Status.ok, evs ++ [.put cf k v])
  DeleteCF := fun evs cf k => (Status.ok, evs ++ [.del cf k])
  SingleDeleteCF := fun evs cf k => (Status.ok, evs ++ [.singleDel cf k])
  DeleteRangeCF := fun evs cf bk ek => (Status.ok, evs ++ [.delRange cf bk ek])
  MergeCF := fun evs cf k v => (Status.ok, evs ++ [.merge cf k v])
  LogData := fun evs blob => evs ++ [.logData blob]
  MarkBeginPrepare := fun evs => (Status.ok, evs ++ [.beginPrepare])
  MarkEndPrepare := fun evs xid => (Status.ok, evs ++ [.endPrepare xid])
  MarkCommit := fun evs xid => (Status.ok, evs ++ [.commitMark xid])
  MarkRollback := fun evs xid => (Status.ok, evs ++ [.rollbackMark xid])
  Continue := fun _ => true

/-- The records that trigger a callback (`Noop` triggers none). -/
def visibleRecs (recs : List Rec) : List Rec := recs.filter (fun r => !r.isNoop)

theorem recHandler_ok : HandlerOk recHandler :=
  ⟨fun _ _ _ _ => rfl, fun _ _ _ => rfl, fun _ _ _ => rfl, fun _ _ _ _ => rfl,
    fun _ _ _ _ => rfl⟩

theorem dispatchRec_recHandler (r : Rec) (evs : List Rec) :
    dispatchRec recHandler r evs =
      (Status.ok, r.isCounted, evs ++ (if r.isNoop then [] else [r])) := by
  cases r <;> simp [dispatchRec, recHandler, Rec.isCounted, Rec.isNoop]

theorem runRecs_recHandler (recs : List Rec) : ∀ (found : Nat) (evs : List Rec),
    runRecs recHandler recs found evs =
      (Status.ok, found + countedCount recs, evs ++ visibleRecs recs) := by
  induction recs with
  | nil => intro found evs; simp [runRecs, countedCount_nil, visibleRecs]
  | cons r rs ih =>
    intro found evs
    rw [runRecs]
    have hc : recHandler.Continue evs = true := rfl
    rw [if_pos hc]
    simp only [dispatchRec_recHandler]
    rw [if_pos trivial]
    rw [ih, countedCount_cons]
    have hvis : (evs ++ (if r.isNoop then [] else [r])) ++ visibleRecs rs =
        evs ++ visibleRecs (r :: rs) := by
      rw [List.append_assoc]
      congr 1
      cases hn : r.isNoop <;> simp [visibleRecs, List.filter_cons, hn]
    rw [hvis]
    have harith : (if r.isCounted then found + 1 else found) + countedCount rs =
        found + ((if r.isCounted then 1 else 0) + countedCount rs) := by
      cases r.isCounted <;> simp <;> omega
    rw [harith]

/-- `Iterate` over a batch whose payload decodes to `recs`, with a
well-behaved non-stopping handler: the loop equals `runRecs`, and the
status is determined by the count check. -/
theorem Iterate_run (h : Handler σ) (hok : HandlerOk h)
    (hcont : ∀ st, h.Continue st = true) (b : WriteBatch) (recs : List Rec)
    (st : σ) (hlen : 12 ≤ b.rep.length)
    (hdec : decodeAll (b.rep.drop 12) = some recs) :
    b.Iterate h st =
      (if countedCount recs = WriteBatchInternal.Count b then Status.ok
       else Status.corruption .wrongCount,
       (runRecs h recs 0 st).2.2) := by
  unfold WriteBatch.Iterate WriteBatchInternal.kHeader
  rw [if_neg (by omega)]
  have hres : iterateLoop h (b.rep.drop 12) 0 st = runRecs h recs 0 st :=
    iterateLoop_eq_runRecs h (b.rep.drop 12).length (b.rep.drop 12)
      (le_refl _) recs 0 st hdec
  dsimp only
  rw [hres]
  have hfull := runRecs_full h hok hcont recs 0 st
  rcases hrr : runRecs h recs 0 st with ⟨s1, p1⟩
  rcases p1 with ⟨f1, st1⟩
  rw [hrr] at hfull
  dsimp only at hfull ⊢
  rw [hfull.1]
  rw [if_neg (by simp)]
  have hf1 : f1 = countedCount recs := by
    have := hfull.2
    omega
  subst hf1
  by_cases hcc : countedCount recs = WriteBatchInternal.Count b
  · rw [if_neg (by omega), if_pos hcc]
  · rw [if_pos (by omega), if_neg hcc]

/-- Unconditional unfolding of `Append` in full (non-WAL-only) mode. -/
theorem Append_result_full (A B : WriteBatch) :
    WriteBatchInternal.Append A B false =
      (Status.ok,
        ⟨A.rep.take 8 ++
          putFixed32 (WriteBatchInternal.Count A + WriteBatchInternal.Count B) ++
          A.rep.drop 12 ++ B.rep.drop 12,
          A.content_flags ||| B.content_flags, A.max_bytes, A.save_points,
          A.wal_term_point⟩) := by
  unfold WriteBatchInternal.Append WriteBatchInternal.SetCount WriteBatch.push
    WriteBatch.orFlags WriteBatchInternal.kHeader
  dsimp only
  rw [if_neg (by simp)]
  have htake : (B.rep.drop 12).take (B.rep.length - 12) = B.rep.drop 12 := by
    have hl : (B.rep.drop 12).length = B.rep.length - 12 := List.length_drop 12 B.rep
    rw [← hl, List.take_length]
  dsimp only
  rw [htake]

/-- Unfolding of `Append` in WAL-only mode with a set termination point. -/
theorem Append_result_wal (A B : WriteBatch)
    (hterm : B.wal_term_point.isCleared = false) :
    WriteBatchInternal.Append A B true =
      (Status.ok,
        ⟨A.rep.take 8 ++
          putFixed32 (WriteBatchInternal.Count A + B.wal_term_point.count) ++
          A.rep.drop 12 ++ (B.rep.drop 12).take (B.wal_term_point.size - 12),
          A.content_flags ||| B.wal_term_point.content_flags, A.max_bytes,
          A.save_points, A.wal_term_point⟩) := by
  unfold WriteBatchInternal.Append WriteBatchInternal.SetCount WriteBatch.push
    WriteBatch.orFlags WriteBatchInternal.kHeader
  dsimp only
  rw [if_pos (by rw [hterm]; rfl)]

theorem decodeFixed32_putFixed32 (n : Nat) :
    decodeFixed32 (putFixed32 n) = n % 4294967296 := by
  have := decodeFixed32_put n []
  simpa using this

theorem Count_append_full (A B : WriteBatch) (hlen : 12 ≤ A.rep.length)
    (hsum : WriteBatchInternal.Count A + WriteBatchInternal.Count B < 4294967296) :
    WriteBatchInternal.Count (WriteBatchInternal.Append A B false).2 =
      WriteBatchInternal.Count A + WriteBatchInternal.Count B := by
  rw [Append_result_full A B]
  dsimp only
  rw [Count_decomp A hlen _ _ (putFixed32_length _), decodeFixed32_putFixed32]
  omega

/-- C6: `Append(A, B, wal_only = false)` returns ok, appends exactly B's
payload after its 12-byte header onto A's buffer, adds B's header count to
A's (exactly, when the sum does not wrap the 32-bit count field), and ors
B's content flags into A's; iterating the appended batch with the
recording handler produces the callback sequence of iterating A followed
by that of iterating B.  When `wal_only` is set and B has a WAL
termination point, only the prefix, count and flags captured at that
point are used. -/
theorem claim_C6 (A B : WriteBatch) :
    ((WriteBatchInternal.Append A B false).1 = Status.ok ∧
     (WriteBatchInternal.Append A B false).2.rep =
       A.rep.take 8 ++
         putFixed32 (WriteBatchInternal.Count A + WriteBatchInternal.Count B) ++
         A.rep.drop 12 ++ B.rep.drop 12 ∧
     (WriteBatchInternal.Append A B false).2.content_flags =
       A.content_flags ||| B.content_flags) ∧
    (12 ≤ A.rep.length →
      WriteBatchInternal.Count A + WriteBatchInternal.Count B < 4294967296 →
      WriteBatchInternal.Count (WriteBatchInternal.Append A B false).2 =
        WriteBatchInternal.Count A + WriteBatchInternal.Count B) ∧
    (∀ recsA recsB, 12 ≤ A.rep.length → 12 ≤ B.rep.length →
      decodeAll (A.rep.drop 12) = some recsA →
      decodeAll (B.rep.drop 12) = some recsB →
      countedCount recsA = WriteBatchInternal.Count A →
      countedCount recsB = WriteBatchInternal.Count B →
      WriteBatchInternal.Count A + WriteBatchInternal.Count B < 4294967296 →
      A.Iterate recHandler [] = (Status.ok, visibleRecs recsA) ∧
      B.Iterate recHandler [] = (Status.ok, visibleRecs recsB) ∧
      (WriteBatchInternal.Append A B false).2.Iterate recHandler [] =
        (Status.ok, visibleRecs recsA ++ visibleRecs recsB)) ∧
    (B.wal_term_point.isCleared = false →
      (WriteBatchInternal.Append A B true).2.rep =
        A.rep.take 8 ++
          putFixed32 (WriteBatchInternal.Count A + B.wal_term_point.count) ++
          A.rep.drop 12 ++ (B.rep.drop 12).take (B.wal_term_point.size - 12) ∧
      (WriteBatchInternal.Append A B true).2.content_flags =
        A.content_flags ||| B.wal_term_point.content_flags) := by
  refine ⟨?_, ?_, ?_, ?_⟩
  · rw [Append_result_full A B]
    exact ⟨rfl, rfl, rfl⟩
  · exact Count_append_full A B
  · intro recsA recsB hlenA hlenB hdecA hdecB hcA hcB hsum
    have hIA : A.Iterate recHandler [] = (Status.ok, visibleRecs recsA) := by
      rw [Iterate_run recHandler recHandler_ok (fun _ => rfl) A recsA [] hlenA
        hdecA, if_pos hcA, runRecs_recHandler]
      rfl
    have hIB : B.Iterate recHandler [] = (Status.ok, visibleRecs recsB) := by
      rw [Iterate_run recHandler recHandler_ok (fun _ => rfl) B recsB [] hlenB
        hdecB, if_pos hcB, runRecs_recHandler]
      rfl
    refine ⟨hIA, hIB, ?_⟩
    have hcount := Count_append_full A B hlenA hsum
    have hrep : (WriteBatchInternal.Append A B false).2.rep =
        A.rep.take 8 ++
          putFixed32 (WriteBatchInternal.Count A + WriteBatchInternal.Count B) ++
          A.rep.drop 12 ++ B.rep.drop 12 := by
      rw [Append_result_full A B]
    have hlenC : 12 ≤ (WriteBatchInternal.Append A B false).2.rep.length := by
      rw [hrep, length_decomp A hlenA _ _ (putFixed32_length _)]
      omega
    have hdecC : decodeAll ((WriteBatchInternal.Append A B false).2.rep.drop 12) =
        some (recsA ++ recsB) := by
      rw [hrep, drop12_decomp A hlenA _ _ (putFixed32_length _)]
      exact decodeAll_append (B.rep.drop 12) recsB hdecB (A.rep.drop 12).length
        (A.rep.drop 12) (le_refl _) recsA hdecA
    rw [Iterate_run recHandler recHandler_ok (fun _ => rfl) _ (recsA ++ recsB)
      [] hlenC hdecC]
    rw [if_pos (by rw [countedCount_append, hcA, hcB, hcount])]
    rw [runRecs_recHandler]
    simp [visibleRecs, List.filter_append]
  · intro hterm
    rw [Append_result_wal A B hterm]
    exact ⟨rfl, rfl⟩


/-- `Iterate` over a decodable payload with a handler whose callbacks all
return ok (but which may stop early via `Continue`): the final status is
determined by comparing the number of counted records actually processed
with the header count. -/
theorem Iterate_run_ok (h : Handler σ) (hok : HandlerOk h) (b : WriteBatch)
    (recs : List Rec) (st : σ) (hlen : 12 ≤ b.rep.length)
    (hdec : decodeAll (b.rep.drop 12) = some recs) :
    b.Iterate h st =
      (if (runRecs h recs 0 st).2.1 = WriteBatchInternal.Count b then Status.ok
       else Status.corruption .wrongCount,
       (runRecs h recs 0 st).2.2) := by
  unfold WriteBatch.Iterate WriteBatchInternal.kHeader
  rw [if_neg (by omega)]
  have hres : iterateLoop h (b.rep.drop 12) 0 st = runRecs h recs 0 st :=
    iterateLoop_eq_runRecs h (b.rep.drop 12).length (b.rep.drop 12)
      (le_refl _) recs 0 st hdec
  dsimp only
  rw [hres]
  have hsok := runRecs_status_ok h hok recs 0 st
  rcases hrr : runRecs h recs 0 st with ⟨s1, p1⟩
  rcases p1 with ⟨f1, st1⟩
  rw [hrr] at hsok
  dsimp only at hsok ⊢
  rw [hsok.1]
  rw [if_neg (by simp)]
  by_cases hcc : f1 = WriteBatchInternal.Count b
  · rw [if_neg (by omega), if_pos hcc]
  · rw [if_pos (by omega), if_neg hcc]

/-- Batch holding exactly one put record ("a" ↦ "1") with header count 1. -/
def wbA : WriteBatch :=
  ⟨[0, 0, 0, 0, 0, 0, 0, 0, 1, 0, 0, 0, kTypeValue, 1, 97, 1, 49],
    HAS_PUT, 0, [], SavePoint.cleared⟩

/-- Batch holding exactly one delete record (key "x") with header count 1. -/
def wbB : WriteBatch :=
  ⟨[0, 0, 0, 0, 0, 0, 0, 0, 1, 0, 0, 0, kTypeDeletion, 1, 120],
    HAS_DELETE, 0, [], SavePoint.cleared⟩

theorem wbA_decode :
    decodeAll (wbA.rep.drop 12) = some [Rec.put 0 [97] [49]] := by
  have h1 : readRecord [kTypeValue, 1, 97, 1, 49] =
      .ok (Rec.put 0 [97] [49], []) := rfl
  have h2 : decodeAll ([] : List Nat) = some [] := by rw [decodeAll]
  calc decodeAll (wbA.rep.drop 12)
      = decodeAll [kTypeValue, 1, 97, 1, 49] := rfl
    _ = (decodeAll ([] : List Nat)).map (Rec.put 0 [97] [49] :: ·) :=
        decodeAll_cons_ok _ _ _ _ h1
    _ = some [Rec.put 0 [97] [49]] := by rw [h2]; rfl

theorem wbB_decode :
    decodeAll (wbB.rep.drop 12) = some [Rec.del 0 [120]] := by
  have h1 : readRecord [kTypeDeletion, 1, 120] = .ok (Rec.del 0 [120], []) := rfl
  have h2 : decodeAll ([] : List Nat) = some [] := by rw [decodeAll]
  calc decodeAll (wbB.rep.drop 12)
      = decodeAll [kTypeDeletion, 1, 120] := rfl
    _ = (decodeAll ([] : List Nat)).map (Rec.del 0 [120] :: ·) :=
        decodeAll_cons_ok _ _ _ _ h1
    _ = some [Rec.del 0 [120]] := by rw [h2]; rfl

/-- C6 witness: appending the one-delete batch onto the one-put batch and
iterating produces the put callback followed by the delete callback. -/
theorem claim_C6_witness :
    (WriteBatchInternal.Append wbA wbB false).2.Iterate recHandler [] =
      (Status.ok, [Rec.put 0 [97] [49], Rec.del 0 [120]]) ∧
    wbA.Iterate recHandler [] = (Status.ok, [Rec.put 0 [97] [49]]) := by
  have h := (claim_C6 wbA wbB).2.2.1 [Rec.put 0 [97] [49]] [Rec.del 0 [120]]
    (by decide) (by decide) wbA_decode wbB_decode rfl rfl (by decide)
  exact ⟨h.2.2, h.1⟩

/-- C5: for a batch whose payload parses and a handler that always returns
ok and never stops early, `Iterate` succeeds exactly when the number of
counted records decoded equals the header count; if the header count is
one larger than the actual number of counted records, `Iterate` fails with
corruption(wrong count); and a batch that is exactly the 12-byte header
with count 0 invokes no callbacks (the handler state is untouched) and
succeeds. -/
theorem claim_C5 (h : Handler σ) (hok : HandlerOk h)
    (hcont : ∀ st, h.Continue st = true) (b : WriteBatch) (recs : List Rec)
    (st : σ) (hlen : 12 ≤ b.rep.length)
    (hdec : decodeAll (b.rep.drop 12) = some recs) :
    ((b.Iterate h st).1 = Status.ok ↔
      countedCount recs = WriteBatchInternal.Count b) ∧
    (WriteBatchInternal.Count b = countedCount recs + 1 →
      (b.Iterate h st).1 = Status.corruption .wrongCount) ∧
    (∀ (b2 : WriteBatch) (st2 : σ), b2.rep.length = 12 →
      WriteBatchInternal.Count b2 = 0 → b2.Iterate h st2 = (Status.ok, st2)) := by
  refine ⟨?_, ?_, ?_⟩
  · rw [Iterate_run h hok hcont b recs st hlen hdec]
    by_cases hcc : countedCount recs = WriteBatchInternal.Count b
    · rw [if_pos hcc]
      simp [hcc]
    · rw [if_neg hcc]
      simp [hcc]
  · intro hcnt
    rw [Iterate_run h hok hcont b recs st hlen hdec]
    rw [if_neg (by omega)]
  · intro b2 st2 hlen2 hcnt2
    unfold WriteBatch.Iterate WriteBatchInternal.kHeader
    rw [if_neg (by omega)]
    have hdrop : b2.rep.drop 12 = [] := List.drop_eq_nil_of_le (by omega)
    dsimp only
    rw [hdrop, iterateLoop_nil]
    rw [if_neg (by simp)]
    rw [if_neg (by simp [hcnt2])]

/-- Batch that is exactly the 12-byte header but declares count 1: one
more than its zero actual records. -/
def wbCount1 : WriteBatch :=
  ⟨[0, 0, 0, 0, 0, 0, 0, 0, 1, 0, 0, 0], 0, 0, [], SavePoint.cleared⟩

/-- C5 witness: the header-only batch with count 1 fails with
corruption(wrong count); the freshly constructed batch (count 0) iterates
to ok with no callbacks. -/
theorem claim_C5_witness :
    (wbCount1.Iterate recHandler []).1 = Status.corruption .wrongCount ∧
    (WriteBatch.new 0).Iterate recHandler [] = (Status.ok, []) := by
  have h := claim_C5 recHandler recHandler_ok (fun _ => rfl) wbCount1 [] []
    (by decide) (by rw [show wbCount1.rep.drop 12 = [] from rfl, decodeAll])
  exact ⟨h.2.1 rfl, h.2.2 (WriteBatch.new 0) [] (by decide) (by decide)⟩

/-- C10: on a well-formed batch (payload parses, header count equal to the
actual counted records) with a handler whose callbacks all return ok, if
the run stops before all counted records have been processed (the only
possibility being `Continue()` returning false early), `Iterate` does not
return ok: it falls through to the count check and returns
corruption(wrong count). -/
theorem claim_C10 (h : Handler σ) (hok : HandlerOk h) (b : WriteBatch)
    (recs : List Rec) (st : σ) (hlen : 12 ≤ b.rep.length)
    (hdec : decodeAll (b.rep.drop 12) = some recs)
    (hgood : countedCount recs = WriteBatchInternal.Count b)
    (hstop : (runRecs h recs 0 st).2.1 < WriteBatchInternal.Count b) :
    b.Iterate h st =
      (Status.corruption .wrongCount, (runRecs h recs 0 st).2.2) ∧
    (b.Iterate h st).1 ≠ Status.ok := by
  rw [Iterate_run_ok h hok b recs st hlen hdec]
  rw [if_neg (by omega)]
  exact ⟨rfl, by simp⟩

/-- A handler with a budget: each mutation callback consumes one unit and
`Continue` reports false once the budget is exhausted. -/
def stopHandler : Handler Nat where
  PutCF := fun n _ _ _ => (Status.ok, n - 1)
  DeleteCF := fun n _ _ => (Status.ok, n - 1)
  SingleDeleteCF := fun n _ _ => (Status.ok, n - 1)
  DeleteRangeCF := fun n _ _ _ => (Status.ok, n - 1)
  MergeCF := fun n _ _ _ => (Status.ok, n - 1)
  LogData := fun n _ => n
  MarkBeginPrepare := fun n => (Status.ok, n)
  MarkEndPrepare := fun n _ => (Status.ok, n)
  MarkCommit := fun n _ => (Status.ok, n)
  MarkRollback := fun n _ => (Status.ok, n)
  Continue := fun n => n != 0

theorem stopHandler_ok : HandlerOk stopHandler :=
  ⟨fun _ _ _ _ => rfl, fun _ _ _ => rfl, fun _ _ _ => rfl, fun _ _ _ _ => rfl,
    fun _ _ _ _ => rfl⟩

/-- Batch holding two put records with header count 2. -/
def wbTwoPuts : WriteBatch :=
  ⟨[0, 0, 0, 0, 0, 0, 0, 0, 2, 0, 0, 0, kTypeValue, 1, 97, 1, 49,
    kTypeValue, 1, 98, 1, 50], HAS_PUT, 0, [], SavePoint.cleared⟩

theorem wbTwoPuts_decode :
    decodeAll (wbTwoPuts.rep.drop 12) =
      some [Rec.put 0 [97] [49], Rec.put 0 [98] [50]] := by
  have h1 : readRecord [kTypeValue, 1, 97, 1, 49, kTypeValue, 1, 98, 1, 50] =
      .ok (Rec.put 0 [97] [49], [kTypeValue, 1, 98, 1, 50]) := rfl
  have h2 : readRecord [kTypeValue, 1, 98, 1, 50] =
      .ok (Rec.put 0 [98] [50], []) := rfl
  have h0 : decodeAll ([] : List Nat) = some [] := by rw [decodeAll]
  calc decodeAll (wbTwoPuts.rep.drop 12)
      = decodeAll [kTypeValue, 1, 97, 1, 49, kTypeValue, 1, 98, 1, 50] := rfl
    _ = (decodeAll [kTypeValue, 1, 98, 1, 50]).map (Rec.put 0 [97] [49] :: ·) :=
        decodeAll_cons_ok _ _ _ _ h1
    _ = ((decodeAll ([] : List Nat)).map
          (Rec.put 0 [98] [50] :: ·)).map (Rec.put 0 [97] [49] :: ·) := by
        rw [decodeAll_cons_ok _ _ _ _ h2]
    _ = some [Rec.put 0 [97] [49], Rec.put 0 [98] [50]] := by rw [h0]; rfl

/-- C10 witness: the budget-1 handler stops after the first of two puts,
and iteration returns corruption(wrong count) rather than ok. -/
theorem claim_C10_witness :
    wbTwoPuts.Iterate stopHandler 1 =
      (Status.corruption .wrongCount,
        (runRecs stopHandler [Rec.put 0 [97] [49], Rec.put 0 [98] [50]] 0 1).2.2) ∧
    (wbTwoPuts.Iterate stopHandler 1).1 ≠ Status.ok :=
  claim_C10 stopHandler stopHandler_ok wbTwoPuts
    [Rec.put 0 [97] [49], Rec.put 0 [98] [50]] 1 (by decide) wbTwoPuts_decode
    (by decide) (by decide)


/-! ## Savepoint rollback (claim C3). -/

/-- On a well-formed batch the header count bytes round-trip: re-encoding
the decoded count reproduces the count bytes at offset 8. -/
theorem wf_fix (b : WriteBatch) (hwf : b.wf) :
    putFixed32 (WriteBatchInternal.Count b) = (b.rep.drop 8).take 4 := by
  have hlen := hwf.1
  have hbytes := wf_countBytes b hwf
  have hmid0 : ((b.rep.drop 8).take 4).length = 4 := by simp; omega
  have hsplit : b.rep.drop 8 = (b.rep.drop 8).take 4 ++ (b.rep.drop 8).drop 4 :=
    (List.take_append_drop 4 (b.rep.drop 8)).symm
  unfold WriteBatchInternal.Count
  match hm : (b.rep.drop 8).take 4, hmid0 with
  | [a, b2, c2, d], _ =>
    rw [hsplit, hm]
    rw [hm] at hbytes
    exact putFixed32_decode a b2 c2 d _ (hbytes a (by simp)) (hbytes b2 (by simp))
      (hbytes c2 (by simp)) (hbytes d (by simp))

/-- `RollbackToSavePoint` on a batch whose savepoint stack is explicitly a
cons, with the three paths of the source spelled out. -/
theorem RollbackToSavePoint_cons (rep2 : List Nat) (f2 m2 : Nat)
    (sp : SavePoint) (rest : List SavePoint) (w2 : SavePoint) :
    WriteBatch.RollbackToSavePoint ⟨rep2, f2, m2, sp :: rest, w2⟩ =
      (if sp.size = rep2.length then
        (Status.ok, ⟨rep2, f2, m2, rest, w2⟩)
      else if sp.size = 0 then
        (Status.ok, ⟨List.replicate 12 0, 0, m2, [], SavePoint.cleared⟩)
      else
        (Status.ok,
          ⟨(rep2.take sp.size).take 8 ++ putFixed32 sp.count ++
            (rep2.take sp.size).drop 12, sp.content_flags, m2, rest, w2⟩)) := rfl

/-- Invariant tying the batch reached from `b.SetSavePoint` by a sequence
of append operations back to `b`: either nothing has happened yet, or the
buffer is `b`'s buffer with rewritten count bytes and a non-empty appended
suffix, and the stack, byte bound and WAL termination point are untouched. -/
def RollbackInv (b cur : WriteBatch) : Prop :=
  cur = b.SetSavePoint ∨
  ∃ mid extra, mid.length = 4 ∧ (∀ x ∈ mid, x < 256) ∧ extra ≠ [] ∧
    cur.rep = b.rep.take 8 ++ mid ++ b.rep.drop 12 ++ extra ∧
    cur.max_bytes = b.max_bytes ∧
    cur.save_points = b.SetSavePoint.save_points ∧
    cur.wal_term_point = b.wal_term_point

theorem RollbackInv_shape (b : WriteBatch) (hwf : b.wf) (cur : WriteBatch)
    (hinv : RollbackInv b cur) :
    ∃ mid extra, mid.length = 4 ∧ (∀ x ∈ mid, x < 256) ∧
      cur.rep = b.rep.take 8 ++ mid ++ b.rep.drop 12 ++ extra ∧
      cur.max_bytes = b.max_bytes ∧
      cur.save_points = b.SetSavePoint.save_points ∧
      cur.wal_term_point = b.wal_term_point := by
  rcases hinv with h | ⟨mid, extra, hm4, hmb, hne, hrep, hmax, hsp, hwal⟩
  · subst h
    refine ⟨(b.rep.drop 8).take 4, [], ?_, wf_countBytes b hwf, ?_, rfl, rfl, rfl⟩
    · have h12 := hwf.1
      simp
      omega
    · show b.rep = b.rep.take 8 ++ (b.rep.drop 8).take 4 ++ b.rep.drop 12 ++ []
      simpa using rep_decomp b hwf.1
  · exact ⟨mid, extra, hm4, hmb, hrep, hmax, hsp, hwal⟩

theorem RollbackInv_mk (b : WriteBatch) (mid2 ex2 : List Nat)
    (hm24 : mid2.length = 4) (hm2b : ∀ x ∈ mid2, x < 256) (hex2 : ex2 ≠ [])
    (nb : WriteBatch)
    (hrep2 : nb.rep = b.rep.take 8 ++ mid2 ++ b.rep.drop 12 ++ ex2)
    (hmax2 : nb.max_bytes = b.max_bytes)
    (hsp2 : nb.save_points = b.SetSavePoint.save_points)
    (hwal2 : nb.wal_term_point = b.wal_term_point) :
    RollbackInv b nb :=
  Or.inr ⟨mid2, ex2, hm24, hm2b, hex2, hrep2, hmax2, hsp2, hwal2⟩

theorem RollbackInv_step (b : WriteBatch) (hwf : b.wf) (op : AppendOp)
    (cur : WriteBatch) (hinv : RollbackInv b cur) :
    RollbackInv b (op.apply cur) := by
  obtain ⟨mid, extra, hm4, hmb, hrep, hmax, hsp, hwal⟩ :=
    RollbackInv_shape b hwf cur hinv
  have h12 := hwf.1
  have hcl : 12 ≤ cur.rep.length := by rw [hrep]; simp; omega
  have hdrop8 : cur.rep.drop 8 = mid ++ (b.rep.drop 12 ++ extra) := by
    rw [hrep]; exact drop8_decomp b hwf.1 mid extra hm4
  have hmid_take : (cur.rep.drop 8).take 4 = mid := by
    rw [hdrop8, ← hm4, List.take_left]
  have hcb : ∀ x ∈ (cur.rep.drop 8).take 4, x < 256 := fun x hx =>
    hmb x (hmid_take ▸ hx)
  have htake8 : cur.rep.take 8 = b.rep.take 8 := by
    rw [hrep]; exact take8_decomp b hwf.1 mid extra hm4
  have hdrop12 : cur.rep.drop 12 = b.rep.drop 12 ++ extra := by
    rw [hrep]; exact drop12_decomp b hwf.1 mid extra hm4
  cases op with
  | put cf k v =>
    show RollbackInv b (WriteBatchInternal.Put cur cf k v).2
    rw [Put_result cur cf k v hcl hcb]
    by_cases hc : cur.max_bytes ≠ 0 ∧
        cur.max_bytes < cur.rep.length + (encRec (.put cf k v)).length
    · rw [if_pos hc]; exact hinv
    · rw [if_neg hc]
      exact RollbackInv_mk b (putFixed32 (WriteBatchInternal.Count cur + 1))
        (extra ++ encRec (.put cf k v))
        (putFixed32_length _) (putFixed32_lt_256 _)
        (fun h => encRec_ne_nil _ (List.append_eq_nil.mp h).2) _
        (by dsimp only; rw [htake8, hdrop12]; simp [List.append_assoc])
        hmax hsp hwal
  | del cf k =>
    show RollbackInv b (WriteBatchInternal.Delete cur cf k).2
    rw [Delete_result cur cf k hcl hcb]
    by_cases hc : cur.max_bytes ≠ 0 ∧
        cur.max_bytes < cur.rep.length + (encRec (.del cf k)).length
    · rw [if_pos hc]; exact hinv
    · rw [if_neg hc]
      exact RollbackInv_mk b (putFixed32 (WriteBatchInternal.Count cur + 1))
        (extra ++ encRec (.del cf k))
        (putFixed32_length _) (putFixed32_lt_256 _)
        (fun h => encRec_ne_nil _ (List.append_eq_nil.mp h).2) _
        (by dsimp only; rw [htake8, hdrop12]; simp [List.append_assoc])
        hmax hsp hwal
  | singleDel cf k =>
    show RollbackInv b (WriteBatchInternal.SingleDelete cur cf k).2
    rw [SingleDelete_result cur cf k hcl hcb]
    by_cases hc : cur.max_bytes ≠ 0 ∧
        cur.max_bytes < cur.rep.length + (encRec (.singleDel cf k)).length
    · rw [if_pos hc]; exact hinv
    · rw [if_neg hc]
      exact RollbackInv_mk b (putFixed32 (WriteBatchInternal.Count cur + 1))
        (extra ++ encRec (.singleDel cf k))
        (putFixed32_length _) (putFixed32_lt_256 _)
        (fun h => encRec_ne_nil _ (List.append_eq_nil.mp h).2) _
        (by dsimp only; rw [htake8, hdrop12]; simp [List.append_assoc])
        hmax hsp hwal
  | delRange cf bk ek =>
    show RollbackInv b (WriteBatchInternal.DeleteRange cur cf bk ek).2
    rw [DeleteRange_result cur cf bk ek hcl hcb]
    by_cases hc : cur.max_bytes ≠ 0 ∧
        cur.max_bytes < cur.rep.length + (encRec (.delRange cf bk ek)).length
    · rw [if_pos hc]; exact hinv
    · rw [if_neg hc]
      exact RollbackInv_mk b (putFixed32 (WriteBatchInternal.Count cur + 1))
        (extra ++ encRec (.delRange cf bk ek))
        (putFixed32_length _) (putFixed32_lt_256 _)
        (fun h => encRec_ne_nil _ (List.append_eq_nil.mp h).2) _
        (by dsimp only; rw [htake8, hdrop12]; simp [List.append_assoc])
        hmax hsp hwal
  | merge cf k v =>
    show RollbackInv b (WriteBatchInternal.Merge cur cf k v).2
    rw [Merge_result cur cf k v hcl hcb]
    by_cases hc : cur.max_bytes ≠ 0 ∧
        cur.max_bytes < cur.rep.length + (encRec (.merge cf k v)).length
    · rw [if_pos hc]; exact hinv
    · rw [if_neg hc]
      exact RollbackInv_mk b (putFixed32 (WriteBatchInternal.Count cur + 1))
        (extra ++ encRec (.merge cf k v))
        (putFixed32_length _) (putFixed32_lt_256 _)
        (fun h => encRec_ne_nil _ (List.append_eq_nil.mp h).2) _
        (by dsimp only; rw [htake8, hdrop12]; simp [List.append_assoc])
        hmax hsp hwal
  | putLogData blob =>
    show RollbackInv b (WriteBatch.PutLogData cur blob).2
    rw [PutLogData_result cur blob hcl hcb]
    by_cases hc : cur.max_bytes ≠ 0 ∧
        cur.max_bytes < cur.rep.length + (encRec (.logData blob)).length
    · rw [if_pos hc]; exact hinv
    · rw [if_neg hc]
      exact RollbackInv_mk b mid (extra ++ encRec (.logData blob)) hm4 hmb
        (fun h => encRec_ne_nil _ (List.append_eq_nil.mp h).2) _
        (by dsimp only; rw [htake8, hmid_take, hdrop12]; simp [List.append_assoc])
        hmax hsp hwal
  | markCommit xid =>
    show RollbackInv b (WriteBatchInternal.MarkCommit cur xid).2
    rw [MarkCommit_result cur xid]
    exact RollbackInv_mk b mid (extra ++ encRec (.commitMark xid)) hm4 hmb
      (fun h => encRec_ne_nil _ (List.append_eq_nil.mp h).2) _
      (by dsimp only; rw [hrep]; simp [List.append_assoc]) hmax hsp hwal
  | markRollback xid =>
    show RollbackInv b (WriteBatchInternal.MarkRollback cur xid).2
    rw [MarkRollback_result cur xid]
    exact RollbackInv_mk b mid (extra ++ encRec (.rollbackMark xid)) hm4 hmb
      (fun h => encRec_ne_nil _ (List.append_eq_nil.mp h).2) _
      (by dsimp only; rw [hrep]; simp [List.append_assoc]) hmax hsp hwal

theorem RollbackInv_applyOps (b : WriteBatch) (hwf : b.wf) (ops : List AppendOp)
    (cur : WriteBatch) (hinv : RollbackInv b cur) :
    RollbackInv b (applyOps ops cur) := by
  induction ops generalizing cur with
  | nil => exact hinv
  | cons op rest ih => exact ih _ (RollbackInv_step b hwf op cur hinv)

theorem RollbackInv_rollback (b : WriteBatch) (hwf : b.wf) (cur : WriteBatch)
    (hinv : RollbackInv b cur) :
    cur.RollbackToSavePoint = (Status.ok, b) := by
  have h12 := hwf.1
  rcases hinv with h | ⟨mid, extra, hm4, hmb, hne, hrep, hmax, hsp, hwal⟩
  · subst h
    have h1 : b.SetSavePoint =
        ⟨b.rep, b.content_flags, b.max_bytes,
          (⟨b.rep.length, WriteBatchInternal.Count b, b.content_flags⟩ :
            SavePoint) :: b.save_points, b.wal_term_point⟩ := rfl
    rw [h1, RollbackToSavePoint_cons]
    rw [if_pos rfl]
  · have hsp2 : cur.save_points =
        (⟨b.rep.length, WriteBatchInternal.Count b, b.content_flags⟩ :
          SavePoint) :: b.save_points := by
      rw [hsp]; rfl
    have hcur : cur = ⟨cur.rep, cur.content_flags, cur.max_bytes,
        (⟨b.rep.length, WriteBatchInternal.Count b, b.content_flags⟩ :
          SavePoint) :: b.save_points, cur.wal_term_point⟩ := by
      rw [← hsp2]
    rw [hcur, RollbackToSavePoint_cons]
    have hpos : 0 < extra.length := List.length_pos.mpr hne
    have hlenc : cur.rep.length = b.rep.length + extra.length := by
      rw [hrep]; exact length_decomp b hwf.1 mid extra hm4
    dsimp only
    rw [if_neg (by omega), if_neg (by omega)]
    have htk : cur.rep.take b.rep.length = b.rep.take 8 ++ mid ++ b.rep.drop 12 := by
      rw [hrep]
      have hassoc : b.rep.take 8 ++ mid ++ b.rep.drop 12 ++ extra =
          (b.rep.take 8 ++ mid ++ b.rep.drop 12) ++ extra := by
        simp [List.append_assoc]
      have hlen3 : (b.rep.take 8 ++ mid ++ b.rep.drop 12).length = b.rep.length := by
        simp; omega
      rw [hassoc, ← hlen3, List.take_left]
    rw [htk]
    have ht8 : (b.rep.take 8 ++ mid ++ b.rep.drop 12).take 8 = b.rep.take 8 := by
      have := take8_decomp b hwf.1 mid [] hm4
      simpa using this
    have hd12 : (b.rep.take 8 ++ mid ++ b.rep.drop 12).drop 12 = b.rep.drop 12 := by
      have := drop12_decomp b hwf.1 mid [] hm4
      simpa using this
    rw [ht8, hd12, wf_fix b hwf, ← rep_decomp b hwf.1, hmax, hwal]

/-- C3: on a well-formed batch, for every sequence of append operations
(counted appends, `PutLogData`, commit/rollback markers — none of which
clears the savepoint stack), `SetSavePoint`, then the sequence, then
`RollbackToSavePoint` returns ok and leaves the batch bitwise identical to
its state before the sequence: the payload is truncated to the saved size,
the header count bytes are reset to the saved count, and `content_flags`
is restored — every field equals that of the original batch. -/
theorem claim_C3 (b : WriteBatch) (hwf : b.wf) (ops : List AppendOp) :
    (applyOps ops b.SetSavePoint).RollbackToSavePoint = (Status.ok, b) :=
  RollbackInv_rollback b hwf _ (RollbackInv_applyOps b hwf ops _ (Or.inl rfl))

/-- C3 witness: a put, a log-data record and a commit marker appended after
a savepoint on the fresh batch are all undone by `RollbackToSavePoint`. -/
theorem claim_C3_witness :
    (applyOps [.put 0 [97] [49], .putLogData [98], .markCommit [99]]
        (WriteBatch.new 0).SetSavePoint).RollbackToSavePoint =
      (Status.ok, WriteBatch.new 0) :=
  claim_C3 (WriteBatch.new 0) ⟨by decide, by decide⟩
    [.put 0 [97] [49], .putLogData [98], .markCommit [99]]


/-! ## Content-flag maintenance vs classification (claim C7). -/

theorem classifier_ok : HandlerOk BatchContentClassifier :=
  ⟨fun _ _ _ _ => rfl, fun _ _ _ => rfl, fun _ _ _ => rfl, fun _ _ _ _ => rfl,
    fun _ _ _ _ => rfl⟩

theorem flagsOfRecs_append (xs ys : List Rec) :
    flagsOfRecs (xs ++ ys) = flagsOfRecs xs ||| flagsOfRecs ys := by
  induction xs with
  | nil => simp [flagsOfRecs]
  | cons r rs ih =>
    rw [List.cons_append, flagsOfRecs, ih, flagsOfRecs, Nat.lor_assoc]

theorem flagsOfRecs_single (r : Rec) : flagsOfRecs [r] = recFlag r := by
  rw [flagsOfRecs, flagsOfRecs]
  simp

/-- No record contributes the `DEFERRED` bit: classification always
produces flags with bit 0 clear. -/
theorem flagsOfRecs_deferred (recs : List Rec) :
    flagsOfRecs recs &&& DEFERRED = 0 := by
  have hbit : (flagsOfRecs recs).testBit 0 = false := by
    induction recs with
    | nil => rfl
    | cons r rs ih =>
      rw [flagsOfRecs, Nat.testBit_lor, ih, Bool.or_false]
      cases r <;> simp only [recFlag] <;> decide
  show flagsOfRecs recs &&& 1 = 0
  rw [Nat.and_one_is_mod]
  rw [Nat.testBit_zero] at hbit
  simp at hbit
  omega

theorem decodeAll_encRec (r : Rec) (hr : r.wf) :
    decodeAll (encRec r) = some [r] := by
  have h := decodeAll_enc [r] (by simpa using hr)
  rwa [show encodeRecs [r] = encRec r by
    rw [encodeRecs, encodeRecs, List.append_nil]] at h

/-- Invariant of the batches reachable by appends from a fresh batch: the
payload decodes to a record list whose flags are exactly the incrementally
maintained `content_flags_`. -/
def FlagsInv (b : WriteBatch) : Prop :=
  ∃ recs, (∀ r ∈ recs, r.wf) ∧ decodeAll (b.rep.drop 12) = some recs ∧
    12 ≤ b.rep.length ∧ (∀ x ∈ (b.rep.drop 8).take 4, x < 256) ∧
    b.content_flags = flagsOfRecs recs

theorem FlagsInv_new (m : Nat) : FlagsInv (WriteBatch.new m) :=
  ⟨[], by simp, by rw [show (WriteBatch.new m).rep.drop 12 = [] from rfl, decodeAll],
    by show (12 : Nat) ≤ (List.replicate 12 0 : List Nat).length; decide,
    by show ∀ x ∈ ((List.replicate 12 0 : List Nat).drop 8).take 4, x < 256; decide,
    rfl⟩

/-- Extend the invariant by one well-formed appended record, given the
result batch produced by the append's success path. -/
theorem FlagsInv_extend (cur : WriteBatch) (recs : List Rec)
    (hwfr : ∀ r ∈ recs, r.wf) (hdec : decodeAll (cur.rep.drop 12) = some recs)
    (hlen : 12 ≤ cur.rep.length) (r : Rec) (hr : r.wf)
    (mid2 : List Nat) (hm24 : mid2.length = 4) (hm2b : ∀ x ∈ mid2, x < 256)
    (f2 : Nat) (hf2 : f2 = flagsOfRecs recs ||| recFlag r) :
    FlagsInv ⟨cur.rep.take 8 ++ mid2 ++ cur.rep.drop 12 ++ encRec r, f2,
      cur.max_bytes, cur.save_points, cur.wal_term_point⟩ := by
  refine ⟨recs ++ [r], ?_, ?_, ?_, ?_, ?_⟩
  · intro x hx
    rcases List.mem_append.mp hx with h | h
    · exact hwfr x h
    · rw [List.mem_singleton.mp h]; exact hr
  · show decodeAll ((cur.rep.take 8 ++ mid2 ++ cur.rep.drop 12 ++
        encRec r).drop 12) = _
    rw [drop12_decomp cur hlen mid2 (encRec r) hm24]
    exact decodeAll_append (encRec r) [r] (decodeAll_encRec r hr)
      (cur.rep.drop 12).length (cur.rep.drop 12) (le_refl _) recs hdec
  · show 12 ≤ (cur.rep.take 8 ++ mid2 ++ cur.rep.drop 12 ++ encRec r).length
    rw [length_decomp cur hlen mid2 (encRec r) hm24]
    omega
  · show ∀ x ∈ ((cur.rep.take 8 ++ mid2 ++ cur.rep.drop 12 ++
        encRec r).drop 8).take 4, x < 256
    rw [drop8_decomp cur hlen mid2 (encRec r) hm24, ← hm24, List.take_left]
    exact hm2b
  · show f2 = flagsOfRecs (recs ++ [r])
    rw [hf2, flagsOfRecs_append, flagsOfRecs_single]

theorem FlagsInv_step (op : AppendOp) (hop : op.wf) (cur : WriteBatch)
    (hinv : FlagsInv cur) : FlagsInv (op.apply cur) := by
  obtain ⟨recs, hwfr, hdec, hlen, hcb, hfl⟩ := hinv
  cases op with
  | put cf k v =>
    show FlagsInv (WriteBatchInternal.Put cur cf k v).2
    rw [Put_result cur cf k v hlen hcb]
    by_cases hc : cur.max_bytes ≠ 0 ∧
        cur.max_bytes < cur.rep.length + (encRec (.put cf k v)).length
    · rw [if_pos hc]; exact ⟨recs, hwfr, hdec, hlen, hcb, hfl⟩
    · rw [if_neg hc]
      exact FlagsInv_extend cur recs hwfr hdec hlen _ hop _
        (putFixed32_length _) (putFixed32_lt_256 _) _
        (by simp only [hfl, AppendOp.toRec, recFlag])
  | del cf k =>
    show FlagsInv (WriteBatchInternal.Delete cur cf k).2
    rw [Delete_result cur cf k hlen hcb]
    by_cases hc : cur.max_bytes ≠ 0 ∧
        cur.max_bytes < cur.rep.length + (encRec (.del cf k)).length
    · rw [if_pos hc]; exact ⟨recs, hwfr, hdec, hlen, hcb, hfl⟩
    · rw [if_neg hc]
      exact FlagsInv_extend cur recs hwfr hdec hlen _ hop _
        (putFixed32_length _) (putFixed32_lt_256 _) _
        (by simp only [hfl, AppendOp.toRec, recFlag])
  | singleDel cf k =>
    show FlagsInv (WriteBatchInternal.SingleDelete cur cf k).2
    rw [SingleDelete_result cur cf k hlen hcb]
    by_cases hc : cur.max_bytes ≠ 0 ∧
        cur.max_bytes < cur.rep.length + (encRec (.singleDel cf k)).length
    · rw [if_pos hc]; exact ⟨recs, hwfr, hdec, hlen, hcb, hfl⟩
    · rw [if_neg hc]
      exact FlagsInv_extend cur recs hwfr hdec hlen _ hop _
        (putFixed32_length _) (putFixed32_lt_256 _) _
        (by simp only [hfl, AppendOp.toRec, recFlag])
  | delRange cf bk ek =>
    show FlagsInv (WriteBatchInternal.DeleteRange cur cf bk ek).2
    rw [DeleteRange_result cur cf bk ek hlen hcb]
    by_cases hc : cur.max_bytes ≠ 0 ∧
        cur.max_bytes < cur.rep.length + (encRec (.delRange cf bk ek)).length
    · rw [if_pos hc]; exact ⟨recs, hwfr, hdec, hlen, hcb, hfl⟩
    · rw [if_neg hc]
      exact FlagsInv_extend cur recs hwfr hdec hlen _ hop _
        (putFixed32_length _) (putFixed32_lt_256 _) _
        (by simp only [hfl, AppendOp.toRec, recFlag])
  | merge cf k v =>
    show FlagsInv (WriteBatchInternal.Merge cur cf k v).2
    rw [Merge_result cur cf k v hlen hcb]
    by_cases hc : cur.max_bytes ≠ 0 ∧
        cur.max_bytes < cur.rep.length + (encRec (.merge cf k v)).length
    · rw [if_pos hc]; exact ⟨recs, hwfr, hdec, hlen, hcb, hfl⟩
    · rw [if_neg hc]
      exact FlagsInv_extend cur recs hwfr hdec hlen _ hop _
        (putFixed32_length _) (putFixed32_lt_256 _) _
        (by simp only [hfl, AppendOp.toRec, recFlag])
  | putLogData blob =>
    show FlagsInv (WriteBatch.PutLogData cur blob).2
    rw [PutLogData_result cur blob hlen hcb]
    by_cases hc : cur.max_bytes ≠ 0 ∧
        cur.max_bytes < cur.rep.length + (encRec (.logData blob)).length
    · rw [if_pos hc]; exact ⟨recs, hwfr, hdec, hlen, hcb, hfl⟩
    · rw [if_neg hc]
      have hm24 : ((cur.rep.drop 8).take 4).length = 4 := by
        simp; omega
      exact FlagsInv_extend cur recs hwfr hdec hlen _ hop _ hm24 hcb _
        (by simp [hfl, AppendOp.toRec, recFlag])
  | markCommit xid =>
    show FlagsInv (WriteBatchInternal.MarkCommit cur xid).2
    rw [MarkCommit_result cur xid]
    have hrepm : cur.rep ++ encRec (.commitMark xid) =
        cur.rep.take 8 ++ (cur.rep.drop 8).take 4 ++ cur.rep.drop 12 ++
          encRec (.commitMark xid) := by
      conv_lhs => rw [rep_decomp cur hlen]
    have hm24 : ((cur.rep.drop 8).take 4).length = 4 := by
      simp; omega
    have h := FlagsInv_extend cur recs hwfr hdec hlen (.commitMark xid) hop
      ((cur.rep.drop 8).take 4) hm24 hcb (cur.content_flags ||| HAS_COMMIT)
      (by rw [hfl, recFlag])
    rwa [← hrepm] at h
  | markRollback xid =>
    show FlagsInv (WriteBatchInternal.MarkRollback cur xid).2
    rw [MarkRollback_result cur xid]
    have hrepm : cur.rep ++ encRec (.rollbackMark xid) =
        cur.rep.take 8 ++ (cur.rep.drop 8).take 4 ++ cur.rep.drop 12 ++
          encRec (.rollbackMark xid) := by
      conv_lhs => rw [rep_decomp cur hlen]
    have hm24 : ((cur.rep.drop 8).take 4).length = 4 := by
      simp; omega
    have h := FlagsInv_extend cur recs hwfr hdec hlen (.rollbackMark xid) hop
      ((cur.rep.drop 8).take 4) hm24 hcb (cur.content_flags ||| HAS_ROLLBACK)
      (by rw [hfl, recFlag])
    rwa [← hrepm] at h

theorem FlagsInv_applyOps (ops : List AppendOp) (hops : ∀ op ∈ ops, op.wf)
    (cur : WriteBatch) (hinv : FlagsInv cur) : FlagsInv (applyOps ops cur) := by
  induction ops generalizing cur with
  | nil => exact hinv
  | cons op rest ih =>
    exact ih (fun o ho => hops o (List.mem_cons_of_mem op ho)) _
      (FlagsInv_step op (hops op (List.mem_cons_self op rest)) cur hinv)

/-- Iterating any batch that satisfies the build invariant with the
classifier reproduces the incrementally maintained flags. -/
theorem FlagsInv_classify (b : WriteBatch) (hinv : FlagsInv b) :
    (b.Iterate BatchContentClassifier 0).2 = b.content_flags := by
  obtain ⟨recs, hwfr, hdec, hlen, hcb, hfl⟩ := hinv
  rw [Iterate_run_ok BatchContentClassifier classifier_ok b recs 0 hlen hdec]
  dsimp only
  rw [runRecs_classifier]
  dsimp only
  rw [hfl]
  simp

/-- C7: (1) for every sequence of well-formed append operations on a fresh
batch, iterating the result with `BatchContentClassifier` computes exactly
the incrementally maintained `content_flags`; (2) for a batch built from
raw bytes (`DEFERRED` set) whose payload decodes, the first
`ComputeContentFlags` iterates, returns the classifier flags of the
payload and memoizes them into `content_flags`; (3) a subsequent query on
the memoized batch takes the non-`DEFERRED` path, returning the stored
bits with the batch unchanged; (4) `HasPut` is the `HAS_PUT` bit test on
the computed flags. -/
theorem claim_C7 (m : Nat) (ops : List AppendOp) (hops : ∀ op ∈ ops, op.wf)
    (rep : List Nat) (recs : List Rec) (hlen : 12 ≤ rep.length)
    (hdec : decodeAll (rep.drop 12) = some recs) :
    ((applyOps ops (WriteBatch.new m)).Iterate BatchContentClassifier 0).2 =
      (applyOps ops (WriteBatch.new m)).content_flags ∧
    (WriteBatch.ofRep rep).ComputeContentFlags =
      (flagsOfRecs recs,
        ⟨rep, flagsOfRecs recs, 0, [], SavePoint.cleared⟩) ∧
    (WriteBatch.ofRep rep).ComputeContentFlags.2.ComputeContentFlags =
      (flagsOfRecs recs, (WriteBatch.ofRep rep).ComputeContentFlags.2) ∧
    (WriteBatch.ofRep rep).HasPut = (flagsOfRecs recs &&& HAS_PUT != 0) := by
  have hiter : ((WriteBatch.ofRep rep).Iterate BatchContentClassifier 0).2 =
      flagsOfRecs recs := by
    rw [Iterate_run_ok BatchContentClassifier classifier_ok
      (WriteBatch.ofRep rep) recs 0 hlen hdec]
    dsimp only
    rw [runRecs_classifier]
    dsimp only
    simp
  have h2 : (WriteBatch.ofRep rep).ComputeContentFlags =
      (flagsOfRecs recs, ⟨rep, flagsOfRecs recs, 0, [], SavePoint.cleared⟩) := by
    unfold WriteBatch.ComputeContentFlags
    rw [if_pos (show (WriteBatch.ofRep rep).content_flags &&& DEFERRED ≠ 0 by
      show (1 : Nat) &&& 1 ≠ 0; decide)]
    dsimp only
    rw [hiter]
    rfl
  refine ⟨FlagsInv_classify _ (FlagsInv_applyOps ops hops _ (FlagsInv_new m)),
    h2, ?_, ?_⟩
  · rw [h2]
    dsimp only
    unfold WriteBatch.ComputeContentFlags
    rw [if_neg (by dsimp only; simpa using flagsOfRecs_deferred recs)]
  · rw [WriteBatch.HasPut, h2]

/-- C7 witness: one put appended to a fresh batch classifies back to the
incremental flags, and the deferred batch over the same bytes reports
`HasPut = true`. -/
theorem claim_C7_witness :
    ((applyOps [AppendOp.put 0 [97] [49]] (WriteBatch.new 0)).Iterate
        BatchContentClassifier 0).2 =
      (applyOps [AppendOp.put 0 [97] [49]] (WriteBatch.new 0)).content_flags ∧
    (WriteBatch.ofRep wbA.rep).HasPut = true := by
  have h := claim_C7 0 [AppendOp.put 0 [97] [49]]
    (by intro op hop; rw [List.mem_singleton.mp hop]; exact ⟨by decide, by decide, by decide⟩)
    wbA.rep [Rec.put 0 [97] [49]] (by decide) wbA_decode
  refine ⟨h.1, ?_⟩
  rw [h.2.2.2]
  decide


/-! ## The `MemTableInserter` (`WriteBatchInternal::InsertInto` handler).

The memtable, flush scheduler and `DBImpl` live outside this repository;
their behaviour is abstracted into oracle functions in `InserterParams`
and an effect log in the state, while the inserter's own control flow —
the rebuilding-transaction buffering, the column-family seek with its
missing-CF and log-cutoff filters, the sequence-number discipline, and
the 2PC mark handling — is translated from `write_batch.cc` line by
line.  The recovered-transactions table of `DBImpl`
(`InsertRecoveredTransaction` / `GetRecoveredTransaction` /
`DeleteRecoveredTransaction`) is modelled from the spec as an
association list keyed by the transaction name. -/

/-- What the inserter reads of a column family once seeked:
`cf_mems_->GetLogNumber()` and the memtable options it consults. -/
structure CFInfo where
  logNumber : Nat
  inplaceUpdateSupport : Bool
  hasInplaceCallback : Bool
  maxSuccessiveMerges : Nat
  deleteRangeSupported : Bool
deriving DecidableEq, Repr

/-- Outcome of `moptions->inplace_callback` (`UpdateStatus`). -/
inductive InplaceVerdict where
  | updatedInplace (final_value : List Nat)
  | updated (final_value : List Nat)
  | notUpdated
deriving DecidableEq, Repr

/-- The inserter's construction parameters plus oracles for the
environment (memtable lookups, DB gets, the merge operator). -/
structure InserterParams where
  cf : Nat → Option CFInfo
  ignore_missing_column_families : Bool
  recovering_log_number : Nat
  hasDb : Bool
  allow2pc : Bool
  concurrent : Bool
  updateCallbackHit : Nat → List Nat → List Nat → Bool
  inplaceVerdict : Nat → List Nat → List Nat → InplaceVerdict
  countSuccessiveMerges : Nat → List Nat → Nat
  fullMergeOk : Nat → List Nat → List Nat → Option (List Nat)

/-- One observable memtable interaction. -/
inductive MemEffect where
  | add (cf seq tag : Nat) (key value : List Nat)
  | update (cf seq : Nat) (key value : List Nat)
  | callbackUpd (cf seq : Nat) (key value : List Nat)
  | refLog (cf n : Nat)
deriving DecidableEq, Repr

/-- One entry of the DB's recovered-transactions table:
`trx->log_number_` and `trx->batch_`. -/
structure RecoveredTrx where
  logNumber : Nat
  batch : WriteBatch
deriving DecidableEq, Repr

/-- The inserter's mutable state: `sequence_`, `log_number_ref_`,
`rebuilding_trx_`, `*has_valid_writes_`, the memtable effect log and the
DB's recovered-transactions table. -/
structure InserterState where
  sequence : Nat
  log_number_ref : Nat
  rebuilding_trx : Option WriteBatch
  has_valid_writes : Bool
  effects : List MemEffect
  recovered : List (List Nat × RecoveredTrx)
deriving DecidableEq, Repr

/-- Modelled from the spec: `DBImpl::GetRecoveredTransaction` — look the
name up in the table. -/
def lookupTrx : List (List Nat × RecoveredTrx) → List Nat → Option RecoveredTrx
  | [], _ => none
  | (x, t) :: rest, xid => if x = xid then some t else lookupTrx rest xid

/-- Modelled from the spec: `DBImpl::DeleteRecoveredTransaction` — drop
the name's entry from the table. -/
def removeTrx (l : List (List Nat × RecoveredTrx)) (xid : List Nat) :
    List (List Nat × RecoveredTrx) :=
  l.filter (fun e => e.1 ≠ xid)

/-- `MemTableInserter::SeekToColumnFamily`: `some info` means the caller
proceeds against that column family; `none` carries the status to return
(ok for a missing CF being ignored or a log-cutoff-filtered CF,
invalid-argument otherwise).  On success `*has_valid_writes_ = true` and,
if `log_number_ref_ > 0`, the memtable refs the prep-section log. -/
def seekToColumnFamily (p : InserterParams) (cfid : Nat) (st : InserterState) :
    Option CFInfo × Status × InserterState :=
  match p.cf cfid with
  | none =>
    if p.ignore_missing_column_families then (none, Status.ok, st)
    else (none, Status.invalidArgument, st)
  | some info =>
    if p.recovering_log_number ≠ 0 ∧ p.recovering_log_number < info.logNumber then
      (none, Status.ok, st)
    else
      let st1 := { st with has_valid_writes := true }
      let st2 :=
        if 0 < st1.log_number_ref then
          { st1 with effects := st1.effects ++ [.refLog cfid st1.log_number_ref] }
        else st1
      (some info, Status.ok, st2)

/-- The memtable writes `PutCF` performs once seeked: the
`inplace_update_support` / `inplace_callback` ladder of the source. -/
def putEffects (p : InserterParams) (info : CFInfo) (cfid seq : Nat)
    (key value : List Nat) : List MemEffect :=
  if info.inplaceUpdateSupport = false then
    [.add cfid seq kTypeValue key value]
  else if info.hasInplaceCallback = false then
    [.update cfid seq key value]
  else if p.updateCallbackHit seq key value then
    [.callbackUpd cfid seq key value]
  else
    match p.inplaceVerdict seq key value with
    | .updatedInplace prev => [.add cfid seq kTypeValue key prev]
    | .updated merged => [.add cfid seq kTypeValue key merged]
    | .notUpdated => []

/-- `MemTableInserter::PutCF`. -/
def inserterPutCF (p : InserterParams) (st : InserterState) (cfid : Nat)
    (key value : List Nat) : Status × InserterState :=
  match st.rebuilding_trx with
  | some trx =>
    (Status.ok,
      { st with
          rebuilding_trx := some (WriteBatchInternal.Put trx cfid key value).2 })
  | none =>
    match seekToColumnFamily p cfid st with
    | (none, seek_status, st1) =>
      (seek_status, { st1 with sequence := st1.sequence + 1 })
    | (some info, _, st1) =>
      (Status.ok,
        { st1 with
            effects := st1.effects ++ putEffects p info cfid st1.sequence key value
            sequence := st1.sequence + 1 })

/-- `MemTableInserter::DeleteImpl`: add the tombstone, bump the sequence. -/
def inserterDeleteImpl (st : InserterState) (cfid : Nat)
    (key value : List Nat) (delete_type : Nat) : Status × InserterState :=
  (Status.ok,
    { st with
        effects := st.effects ++ [.add cfid st.sequence delete_type key value]
        sequence := st.sequence + 1 })

/-- `MemTableInserter::DeleteCF`. -/
def inserterDeleteCF (p : InserterParams) (st : InserterState) (cfid : Nat)
    (key : List Nat) : Status × InserterState :=
  match st.rebuilding_trx with
  | some trx =>
    (Status.ok,
      { st with
          rebuilding_trx := some (WriteBatchInternal.Delete trx cfid key).2 })
  | none =>
    match seekToColumnFamily p cfid st with
    | (none, seek_status, st1) =>
      (seek_status, { st1 with sequence := st1.sequence + 1 })
    | (some _, _, st1) => inserterDeleteImpl st1 cfid key [] kTypeDeletion

/-- `MemTableInserter::SingleDeleteCF`. -/
def inserterSingleDeleteCF (p : InserterParams) (st : InserterState)
    (cfid : Nat) (key : List Nat) : Status × InserterState :=
  match st.rebuilding_trx with
  | some trx =>
    (Status.ok,
      { st with
          rebuilding_trx := some (WriteBatchInternal.SingleDelete trx cfid key).2 })
  | none =>
    match seekToColumnFamily p cfid st with
    | (none, seek_status, st1) =>
      (seek_status, { st1 with sequence := st1.sequence + 1 })
    | (some _, _, st1) => inserterDeleteImpl st1 cfid key [] kTypeSingleDeletion

/-- `MemTableInserter::DeleteRangeCF`: with a DB attached, an unsupported
table type returns not-supported *without* touching the sequence. -/
def inserterDeleteRangeCF (p : InserterParams) (st : InserterState)
    (cfid : Nat) (begin_key end_key : List Nat) : Status × InserterState :=
  match st.rebuilding_trx with
  | some trx =>
    (Status.ok,
      { st with
          rebuilding_trx := some (WriteBatchInternal.DeleteRange trx cfid begin_key end_key).2 })
  | none =>
    match seekToColumnFamily p cfid st with
    | (none, seek_status, st1) =>
      (seek_status, { st1 with sequence := st1.sequence + 1 })
    | (some info, _, st1) =>
      if p.hasDb = true ∧ info.deleteRangeSupported = false then
        (Status.notSupported, st1)
      else inserterDeleteImpl st1 cfid begin_key end_key kTypeRangeDeletion

/-- The memtable write `MergeCF` performs once seeked: merge folding is
attempted only with a DB outside recovery once `max_successive_merges` is
reached, and falls back to storing the merge operand. -/
def mergeEffects (p : InserterParams) (info : CFInfo) (cfid seq : Nat)
    (key value : List Nat) : List MemEffect :=
  if 0 < info.maxSuccessiveMerges ∧ p.hasDb = true ∧
      p.recovering_log_number = 0 ∧
      info.maxSuccessiveMerges ≤ p.countSuccessiveMerges seq key then
    match p.fullMergeOk seq key value with
    | some new_value => [.add cfid seq kTypeValue key new_value]
    | none => [.add cfid seq kTypeMerge key value]
  else [.add cfid seq kTypeMerge key value]

/-- `MemTableInserter::MergeCF`. -/
def inserterMergeCF (p : InserterParams) (st : InserterState) (cfid : Nat)
    (key value : List Nat) : Status × InserterState :=
  match st.rebuilding_trx with
  | some trx =>
    (Status.ok,
      { st with
          rebuilding_trx := some (WriteBatchInternal.Merge trx cfid key value).2 })
  | none =>
    match seekToColumnFamily p cfid st with
    | (none, seek_status, st1) =>
      (seek_status, { st1 with sequence := st1.sequence + 1 })
    | (some info, _, st1) =>
      (Status.ok,
        { st1 with
            effects := st1.effects ++ mergeEffects p info cfid st1.sequence key value
            sequence := st1.sequence + 1 })

/-- `MemTableInserter::MarkBeginPrepare`: in recovery, refuse unless 2PC
is allowed, else start rebuilding a hollow transaction; outside recovery
a no-op. -/
def inserterMarkBeginPrepare (p : InserterParams) (st : InserterState) :
    Status × InserterState :=
  if p.recovering_log_number ≠ 0 then
    if p.allow2pc = false then (Status.notSupported, st)
    else
      (Status.ok,
        { st with
            rebuilding_trx := some (WriteBatch.new 0)
            has_valid_writes := true })
  else (Status.ok, st)

/-- `MemTableInserter::MarkEndPrepare`: in recovery, hand the rebuilt
batch to the DB's recovered-transactions table keyed by the name, with
the recovering log number; outside recovery a no-op. -/
def inserterMarkEndPrepare (p : InserterParams) (st : InserterState)
    (xid : List Nat) : Status × InserterState :=
  if p.recovering_log_number ≠ 0 then
    match st.rebuilding_trx with
    | some trx =>
      (Status.ok,
        { st with
            recovered := st.recovered ++ [(xid, ⟨p.recovering_log_number, trx⟩)]
            rebuilding_trx := none })
    | none => (Status.ok, st)
  else (Status.ok, st)

/-- `MemTableInserter::MarkCommit`: in recovery, look the name up; if the
transaction is present, reference its prep log, replay its batch through
the same inserter (`trx->batch_->Iterate(this)`, the `nested` argument),
drop the log reference, delete the table entry on success and flag valid
writes; outside recovery the tag is ignored. -/
def inserterMarkCommit (p : InserterParams)
    (nested : WriteBatch → InserterState → Status × InserterState)
    (st : InserterState) (xid : List Nat) : Status × InserterState :=
  if p.recovering_log_number ≠ 0 then
    match lookupTrx st.recovered xid with
    | some trx =>
      let st1 := { st with log_number_ref := trx.logNumber }
      let r := nested trx.batch st1
      let st2 := { r.2 with log_number_ref := 0 }
      let st3 :=
        if r.1 = Status.ok then
          { st2 with recovered := removeTrx st2.recovered xid }
        else st2
      (r.1, { st3 with has_valid_writes := true })
    | none => (Status.ok, st)
  else (Status.ok, st)

/-- `MemTableInserter::MarkRollback`: in recovery, drop the transaction
from the table if present; outside recovery ignored. -/
def inserterMarkRollback (p : InserterParams) (st : InserterState)
    (xid : List Nat) : Status × InserterState :=
  if p.recovering_log_number ≠ 0 then
    match lookupTrx st.recovered xid with
    | some _ => (Status.ok, { st with recovered := removeTrx st.recovered xid })
    | none => (Status.ok, st)
  else (Status.ok, st)

/-- The `MemTableInserter` as a `Handler`, with the commit replay
(`trx->batch_->Iterate(this)`) supplied as `nested`. -/
def inserterHandlerCore (p : InserterParams)
    (nested : WriteBatch → InserterState → Status × InserterState) :
    Handler InserterState where
  PutCF := fun st cf k v => inserterPutCF p st cf k v
  DeleteCF := fun st cf k => inserterDeleteCF p st cf k
  SingleDeleteCF := fun st cf k => inserterSingleDeleteCF p st cf k
  DeleteRangeCF := fun st cf bk ek => inserterDeleteRangeCF p st cf bk ek
  MergeCF := fun st cf k v => inserterMergeCF p st cf k v
  LogData := fun st _ => st
  MarkBeginPrepare := fun st => inserterMarkBeginPrepare p st
  MarkEndPrepare := fun st xid => inserterMarkEndPrepare p st xid
  MarkCommit := fun st xid => inserterMarkCommit p nested st xid
  MarkRollback := fun st xid => inserterMarkRollback p st xid
  Continue := fun _ => true

/-- The inserter with the recursive commit replay unrolled to a depth:
at depth `fuel + 1` a batch is iterated with commit replays resolved at
depth `fuel` (depth 0 is never reached on batches whose prepared
sections are not nested beyond the depth). -/
def inserterIter (p : InserterParams) :
    Nat → WriteBatch → InserterState → Status × InserterState
  | 0, _, st => (Status.invalidArgument, st)
  | fuel + 1, b, st => b.Iterate (inserterHandlerCore p (inserterIter p fuel)) st

/-- What a rebuilding-mode mutation callback appends to the transaction
being rebuilt. -/
def bufferRec (trx : WriteBatch) : Rec → WriteBatch
  | .put cf k v => (WriteBatchInternal.Put trx cf k v).2
  | .del cf k => (WriteBatchInternal.Delete trx cf k).2
  | .singleDel cf k => (WriteBatchInternal.SingleDelete trx cf k).2
  | .delRange cf bk ek => (WriteBatchInternal.DeleteRange trx cf bk ek).2
  | .merge cf k v => (WriteBatchInternal.Merge trx cf k v).2
  | _ => trx

/-- The hollow transaction rebuilt from a prepared section's mutations. -/
def buildTrx (muts : List Rec) : WriteBatch :=
  muts.foldl bufferRec (WriteBatch.new 0)

/-- The column-family seek cannot fail for this id: the CF exists or
missing CFs are ignored. -/
def cfOk (p : InserterParams) (cfid : Nat) : Prop :=
  p.cf cfid ≠ none ∨ p.ignore_missing_column_families = true

/-- The record's inserter callback returns ok: its CF seek cannot fail
and, for a range deletion, the table type supports it. -/
def replayOk (p : InserterParams) : Rec → Prop
  | .put cf _ _ => cfOk p cf
  | .del cf _ => cfOk p cf
  | .singleDel cf _ => cfOk p cf
  | .delRange cf _ _ => cfOk p cf ∧ ∀ info, p.cf cf = some info →
      p.hasDb = true → info.deleteRangeSupported = true
  | .merge cf _ _ => cfOk p cf
  | _ => True


/-! ## Inserter facts. -/

theorem seek_fields (p : InserterParams) (cfid : Nat) (st : InserterState) :
    (seekToColumnFamily p cfid st).2.2.sequence = st.sequence ∧
    (seekToColumnFamily p cfid st).2.2.rebuilding_trx = st.rebuilding_trx ∧
    (seekToColumnFamily p cfid st).2.2.recovered = st.recovered ∧
    (seekToColumnFamily p cfid st).2.2.log_number_ref = st.log_number_ref := by
  unfold seekToColumnFamily
  rcases p.cf cfid with _ | info
  · dsimp only
    split <;> exact ⟨rfl, rfl, rfl, rfl⟩
  · dsimp only
    split
    · exact ⟨rfl, rfl, rfl, rfl⟩
    · split <;> exact ⟨rfl, rfl, rfl, rfl⟩

theorem seek_status_ok (p : InserterParams) (cfid : Nat) (st : InserterState)
    (h : cfOk p cfid) : (seekToColumnFamily p cfid st).2.1 = Status.ok := by
  unfold seekToColumnFamily
  rcases hcf : p.cf cfid with _ | info
  · rcases h with h1 | h1
    · exact absurd hcf h1
    · dsimp only
      rw [if_pos h1]
  · dsimp only
    split
    · rfl
    · split <;> rfl

theorem seek_some_cf (p : InserterParams) (cfid : Nat) (st : InserterState)
    (info : CFInfo) (s2 : Status) (st1 : InserterState)
    (h : seekToColumnFamily p cfid st = (some info, s2, st1)) :
    p.cf cfid = some info := by
  unfold seekToColumnFamily at h
  rcases hcf : p.cf cfid with _ | info2 <;> rw [hcf] at h <;> dsimp only at h
  · split at h <;> simp at h
  · split at h
    · simp at h
    · simp only [Prod.mk.injEq, Option.some.injEq] at h
      rw [h.1]

theorem inserterPutCF_run (p : InserterParams) (st : InserterState)
    (cf : Nat) (k v : List Nat) (hreb : st.rebuilding_trx = none)
    (hro : cfOk p cf) :
    (inserterPutCF p st cf k v).1 = Status.ok ∧
    (inserterPutCF p st cf k v).2.sequence = st.sequence + 1 ∧
    (inserterPutCF p st cf k v).2.rebuilding_trx = none ∧
    (inserterPutCF p st cf k v).2.recovered = st.recovered ∧
    (inserterPutCF p st cf k v).2.log_number_ref = st.log_number_ref := by
  unfold inserterPutCF
  rw [hreb]
  have hf := seek_fields p cf st
  have hs := seek_status_ok p cf st hro
  rcases hseek : seekToColumnFamily p cf st with ⟨o, s2, st1⟩
  rw [hseek] at hf hs
  dsimp only at hf hs
  rcases o with _ | info <;> dsimp only
  · refine ⟨hs, ?_, ?_, ?_, ?_⟩ <;> dsimp only
    · rw [hf.1]
    · rw [hf.2.1]
      exact hreb
    · exact hf.2.2.1
    · exact hf.2.2.2
  · refine ⟨rfl, ?_, ?_, ?_, ?_⟩ <;> dsimp only
    · rw [hf.1]
    · rw [hf.2.1]
      exact hreb
    · exact hf.2.2.1
    · exact hf.2.2.2

theorem inserterDeleteCF_run (p : InserterParams) (st : InserterState)
    (cf : Nat) (k : List Nat) (hreb : st.rebuilding_trx = none)
    (hro : cfOk p cf) :
    (inserterDeleteCF p st cf k).1 = Status.ok ∧
    (inserterDeleteCF p st cf k).2.sequence = st.sequence + 1 ∧
    (inserterDeleteCF p st cf k).2.rebuilding_trx = none ∧
    (inserterDeleteCF p st cf k).2.recovered = st.recovered ∧
    (inserterDeleteCF p st cf k).2.log_number_ref = st.log_number_ref := by
  unfold inserterDeleteCF
  rw [hreb]
  have hf := seek_fields p cf st
  have hs := seek_status_ok p cf st hro
  rcases hseek : seekToColumnFamily p cf st with ⟨o, s2, st1⟩
  rw [hseek] at hf hs
  dsimp only at hf hs
  rcases o with _ | info <;> dsimp only [inserterDeleteImpl]
  · refine ⟨hs, ?_, ?_, ?_, ?_⟩ <;> dsimp only
    · rw [hf.1]
    · rw [hf.2.1]
      exact hreb
    · exact hf.2.2.1
    · exact hf.2.2.2
  · refine ⟨rfl, ?_, ?_, ?_, ?_⟩ <;> dsimp only
    · rw [hf.1]
    · rw [hf.2.1]
      exact hreb
    · exact hf.2.2.1
    · exact hf.2.2.2

theorem inserterSingleDeleteCF_run (p : InserterParams) (st : InserterState)
    (cf : Nat) (k : List Nat) (hreb : st.rebuilding_trx = none)
    (hro : cfOk p cf) :
    (inserterSingleDeleteCF p st cf k).1 = Status.ok ∧
    (inserterSingleDeleteCF p st cf k).2.sequence = st.sequence + 1 ∧
    (inserterSingleDeleteCF p st cf k).2.rebuilding_trx = none ∧
    (inserterSingleDeleteCF p st cf k).2.recovered = st.recovered ∧
    (inserterSingleDeleteCF p st cf k).2.log_number_ref = st.log_number_ref := by
  unfold inserterSingleDeleteCF
  rw [hreb]
  have hf := seek_fields p cf st
  have hs := seek_status_ok p cf st hro
  rcases hseek : seekToColumnFamily p cf st with ⟨o, s2, st1⟩
  rw [hseek] at hf hs
  dsimp only at hf hs
  rcases o with _ | info <;> dsimp only [inserterDeleteImpl]
  · refine ⟨hs, ?_, ?_, ?_, ?_⟩ <;> dsimp only
    · rw [hf.1]
    · rw [hf.2.1]
      exact hreb
    · exact hf.2.2.1
    · exact hf.2.2.2
  · refine ⟨rfl, ?_, ?_, ?_, ?_⟩ <;> dsimp only
    · rw [hf.1]
    · rw [hf.2.1]
      exact hreb
    · exact hf.2.2.1
    · exact hf.2.2.2

theorem inserterMergeCF_run (p : InserterParams) (st : InserterState)
    (cf : Nat) (k v : List Nat) (hreb : st.rebuilding_trx = none)
    (hro : cfOk p cf) :
    (inserterMergeCF p st cf k v).1 = Status.ok ∧
    (inserterMergeCF p st cf k v).2.sequence = st.sequence + 1 ∧
    (inserterMergeCF p st cf k v).2.rebuilding_trx = none ∧
    (inserterMergeCF p st cf k v).2.recovered = st.recovered ∧
    (inserterMergeCF p st cf k v).2.log_number_ref = st.log_number_ref := by
  unfold inserterMergeCF
  rw [hreb]
  have hf := seek_fields p cf st
  have hs := seek_status_ok p cf st hro
  rcases hseek : seekToColumnFamily p cf st with ⟨o, s2, st1⟩
  rw [hseek] at hf hs
  dsimp only at hf hs
  rcases o with _ | info <;> dsimp only
  · refine ⟨hs, ?_, ?_, ?_, ?_⟩ <;> dsimp only
    · rw [hf.1]
    · rw [hf.2.1]
      exact hreb
    · exact hf.2.2.1
    · exact hf.2.2.2
  · refine ⟨rfl, ?_, ?_, ?_, ?_⟩ <;> dsimp only
    · rw [hf.1]
    · rw [hf.2.1]
      exact hreb
    · exact hf.2.2.1
    · exact hf.2.2.2

theorem inserterDeleteRangeCF_run (p : InserterParams) (st : InserterState)
    (cf : Nat) (bk ek : List Nat) (hreb : st.rebuilding_trx = none)
    (hro : cfOk p cf ∧ ∀ info, p.cf cf = some info →
      p.hasDb = true → info.deleteRangeSupported = true) :
    (inserterDeleteRangeCF p st cf bk ek).1 = Status.ok ∧
    (inserterDeleteRangeCF p st cf bk ek).2.sequence = st.sequence + 1 ∧
    (inserterDeleteRangeCF p st cf bk ek).2.rebuilding_trx = none ∧
    (inserterDeleteRangeCF p st cf bk ek).2.recovered = st.recovered ∧
    (inserterDeleteRangeCF p st cf bk ek).2.log_number_ref = st.log_number_ref := by
  unfold inserterDeleteRangeCF
  rw [hreb]
  have hf := seek_fields p cf st
  have hs := seek_status_ok p cf st hro.1
  rcases hseek : seekToColumnFamily p cf st with ⟨o, s2, st1⟩
  rw [hseek] at hf hs
  dsimp only at hf hs
  rcases o with _ | info <;> dsimp only
  · refine ⟨hs, ?_, ?_, ?_, ?_⟩ <;> dsimp only
    · rw [hf.1]
    · rw [hf.2.1]
      exact hreb
    · exact hf.2.2.1
    · exact hf.2.2.2
  · have hcf := seek_some_cf p cf st info s2 st1 hseek
    have hne : ¬(p.hasDb = true ∧ info.deleteRangeSupported = false) := by
      rintro ⟨h1, h2⟩
      rw [hro.2 info hcf h1] at h2
      exact Bool.noConfusion h2
    rw [if_neg hne]
    dsimp only [inserterDeleteImpl]
    refine ⟨rfl, ?_, ?_, ?_, ?_⟩ <;> dsimp only
    · rw [hf.1]
    · rw [hf.2.1]
      exact hreb
    · exact hf.2.2.1
    · exact hf.2.2.2


/-- A counted record's inserter dispatch outside rebuilding mode, when its
seek cannot fail: status ok, counted, sequence bumped by one, rebuilding
off, table and log reference untouched. -/
theorem dispatch_inserter_mut (p : InserterParams)
    (nested : WriteBatch → InserterState → Status × InserterState) (r : Rec)
    (hmut : r.isCounted = true) (hro : replayOk p r) (st : InserterState)
    (hreb : st.rebuilding_trx = none) :
    (dispatchRec (inserterHandlerCore p nested) r st).1 = Status.ok ∧
    (dispatchRec (inserterHandlerCore p nested) r st).2.1 = true ∧
    (dispatchRec (inserterHandlerCore p nested) r st).2.2.sequence =
      st.sequence + 1 ∧
    (dispatchRec (inserterHandlerCore p nested) r st).2.2.rebuilding_trx = none ∧
    (dispatchRec (inserterHandlerCore p nested) r st).2.2.recovered =
      st.recovered ∧
    (dispatchRec (inserterHandlerCore p nested) r st).2.2.log_number_ref =
      st.log_number_ref := by
  cases r with
  | put cf k v =>
    have h := inserterPutCF_run p st cf k v hreb hro
    exact ⟨h.1, rfl, h.2.1, h.2.2.1, h.2.2.2.1, h.2.2.2.2⟩
  | del cf k =>
    have h := inserterDeleteCF_run p st cf k hreb hro
    exact ⟨h.1, rfl, h.2.1, h.2.2.1, h.2.2.2.1, h.2.2.2.2⟩
  | singleDel cf k =>
    have h := inserterSingleDeleteCF_run p st cf k hreb hro
    exact ⟨h.1, rfl, h.2.1, h.2.2.1, h.2.2.2.1, h.2.2.2.2⟩
  | delRange cf bk ek =>
    have h := inserterDeleteRangeCF_run p st cf bk ek hreb hro
    exact ⟨h.1, rfl, h.2.1, h.2.2.1, h.2.2.2.1, h.2.2.2.2⟩
  | merge cf k v =>
    have h := inserterMergeCF_run p st cf k v hreb hro
    exact ⟨h.1, rfl, h.2.1, h.2.2.1, h.2.2.2.1, h.2.2.2.2⟩
  | logData blob => simp [Rec.isCounted] at hmut
  | noop => simp [Rec.isCounted] at hmut
  | beginPrepare => simp [Rec.isCounted] at hmut
  | endPrepare xid => simp [Rec.isCounted] at hmut
  | commitMark xid => simp [Rec.isCounted] at hmut
  | rollbackMark xid => simp [Rec.isCounted] at hmut

/-- Running the inserter over counted records whose seeks cannot fail:
all statuses ok, each record counted, the sequence advanced by the record
count, rebuilding stays off, table and log reference untouched. -/
theorem runRecs_inserter (p : InserterParams)
    (nested : WriteBatch → InserterState → Status × InserterState) :
    ∀ (muts : List Rec), (∀ r ∈ muts, r.isCounted = true) →
    (∀ r ∈ muts, replayOk p r) →
    ∀ (found : Nat) (st : InserterState), st.rebuilding_trx = none →
    (runRecs (inserterHandlerCore p nested) muts found st).1 = Status.ok ∧
    (runRecs (inserterHandlerCore p nested) muts found st).2.1 =
      found + countedCount muts ∧
    (runRecs (inserterHandlerCore p nested) muts found st).2.2.sequence =
      st.sequence + countedCount muts ∧
    (runRecs (inserterHandlerCore p nested) muts found st).2.2.rebuilding_trx =
      none ∧
    (runRecs (inserterHandlerCore p nested) muts found st).2.2.recovered =
      st.recovered ∧
    (runRecs (inserterHandlerCore p nested) muts found st).2.2.log_number_ref =
      st.log_number_ref := by
  intro muts
  induction muts with
  | nil =>
    intro _ _ found st h
    exact ⟨rfl, by simp [runRecs, countedCount_nil], by simp [runRecs, countedCount_nil],
      by simp [runRecs]; exact h, rfl, rfl⟩
  | cons r rs ih =>
    intro hmut hro found st h
    have hd := dispatch_inserter_mut p nested r (hmut r (by simp))
      (hro r (by simp)) st h
    have hc : (inserterHandlerCore p nested).Continue st = true := rfl
    have hstep : runRecs (inserterHandlerCore p nested) (r :: rs) found st =
        runRecs (inserterHandlerCore p nested) rs (found + 1)
          (dispatchRec (inserterHandlerCore p nested) r st).2.2 := by
      rw [runRecs, if_pos hc]
      dsimp only
      rw [hd.2.1, if_pos rfl, if_pos hd.1]
    have hi := ih (fun x hx => hmut x (by simp [hx]))
      (fun x hx => hro x (by simp [hx])) (found + 1)
      (dispatchRec (inserterHandlerCore p nested) r st).2.2 hd.2.2.2.1
    have hcc : countedCount (r :: rs) = 1 + countedCount rs := by
      rw [countedCount_cons, if_pos (hmut r (by simp))]
    rw [hstep]
    refine ⟨hi.1, ?_, ?_, hi.2.2.2.1, ?_, ?_⟩
    · rw [hi.2.1, hcc]
      omega
    · rw [hi.2.2.1, hd.2.2.1, hcc]
      omega
    · rw [hi.2.2.2.2.1, hd.2.2.2.2.1]
    · rw [hi.2.2.2.2.2, hd.2.2.2.2.2]

theorem inserterPutCF_buffer (p : InserterParams) (st : InserterState)
    (cf : Nat) (k v : List Nat) (trx : WriteBatch)
    (h : st.rebuilding_trx = some trx) :
    inserterPutCF p st cf k v =
      (Status.ok, { st with
        rebuilding_trx := some (WriteBatchInternal.Put trx cf k v).2 }) := by
  unfold inserterPutCF
  rw [h]

theorem inserterDeleteCF_buffer (p : InserterParams) (st : InserterState)
    (cf : Nat) (k : List Nat) (trx : WriteBatch)
    (h : st.rebuilding_trx = some trx) :
    inserterDeleteCF p st cf k =
      (Status.ok, { st with
        rebuilding_trx := some (WriteBatchInternal.Delete trx cf k).2 }) := by
  unfold inserterDeleteCF
  rw [h]

theorem inserterSingleDeleteCF_buffer (p : InserterParams) (st : InserterState)
    (cf : Nat) (k : List Nat) (trx : WriteBatch)
    (h : st.rebuilding_trx = some trx) :
    inserterSingleDeleteCF p st cf k =
      (Status.ok, { st with
        rebuilding_trx := some (WriteBatchInternal.SingleDelete trx cf k).2 }) := by
  unfold inserterSingleDeleteCF
  rw [h]

theorem inserterDeleteRangeCF_buffer (p : InserterParams) (st : InserterState)
    (cf : Nat) (bk ek : List Nat) (trx : WriteBatch)
    (h : st.rebuilding_trx = some trx) :
    inserterDeleteRangeCF p st cf bk ek =
      (Status.ok, { st with
        rebuilding_trx := some (WriteBatchInternal.DeleteRange trx cf bk ek).2 }) := by
  unfold inserterDeleteRangeCF
  rw [h]

theorem inserterMergeCF_buffer (p : InserterParams) (st : InserterState)
    (cf : Nat) (k v : List Nat) (trx : WriteBatch)
    (h : st.rebuilding_trx = some trx) :
    inserterMergeCF p st cf k v =
      (Status.ok, { st with
        rebuilding_trx := some (WriteBatchInternal.Merge trx cf k v).2 }) := by
  unfold inserterMergeCF
  rw [h]

/-- In rebuilding mode a counted record's dispatch buffers it into the
transaction being rebuilt and returns ok, touching nothing else — in
particular the sequence is NOT incremented. -/
theorem dispatch_inserter_buffer (p : InserterParams)
    (nested : WriteBatch → InserterState → Status × InserterState) (r : Rec)
    (hmut : r.isCounted = true) (st : InserterState) (trx : WriteBatch)
    (hreb : st.rebuilding_trx = some trx) :
    dispatchRec (inserterHandlerCore p nested) r st =
      (Status.ok, true, { st with rebuilding_trx := some (bufferRec trx r) }) := by
  cases r with
  | put cf k v =>
    dsimp only [dispatchRec, inserterHandlerCore]
    rw [inserterPutCF_buffer p st cf k v trx hreb]
    rfl
  | del cf k =>
    dsimp only [dispatchRec, inserterHandlerCore]
    rw [inserterDeleteCF_buffer p st cf k trx hreb]
    rfl
  | singleDel cf k =>
    dsimp only [dispatchRec, inserterHandlerCore]
    rw [inserterSingleDeleteCF_buffer p st cf k trx hreb]
    rfl
  | delRange cf bk ek =>
    dsimp only [dispatchRec, inserterHandlerCore]
    rw [inserterDeleteRangeCF_buffer p st cf bk ek trx hreb]
    rfl
  | merge cf k v =>
    dsimp only [dispatchRec, inserterHandlerCore]
    rw [inserterMergeCF_buffer p st cf k v trx hreb]
    rfl
  | logData blob => simp [Rec.isCounted] at hmut
  | noop => simp [Rec.isCounted] at hmut
  | beginPrepare => simp [Rec.isCounted] at hmut
  | endPrepare xid => simp [Rec.isCounted] at hmut
  | commitMark xid => simp [Rec.isCounted] at hmut
  | rollbackMark xid => simp [Rec.isCounted] at hmut

/-- Running the inserter in rebuilding mode over counted records: every
record is buffered, all statuses ok, and the state is untouched except
for the growing rebuilt transaction. -/
theorem runRecs_buffer (p : InserterParams)
    (nested : WriteBatch → InserterState → Status × InserterState) :
    ∀ (muts : List Rec), (∀ r ∈ muts, r.isCounted = true) →
    ∀ (found : Nat) (st : InserterState) (trx : WriteBatch),
    st.rebuilding_trx = some trx →
    runRecs (inserterHandlerCore p nested) muts found st =
      (Status.ok, found + countedCount muts,
        { st with rebuilding_trx := some (muts.foldl bufferRec trx) }) := by
  intro muts
  induction muts with
  | nil =>
    intro _ found st trx h
    simp only [runRecs, countedCount_nil, Nat.add_zero, List.foldl_nil]
    rw [← h]
  | cons r rs ih =>
    intro hmut found st trx h
    have hd := dispatch_inserter_buffer p nested r (hmut r (by simp)) st trx h
    have hc : (inserterHandlerCore p nested).Continue st = true := rfl
    rw [runRecs, if_pos hc]
    dsimp only
    rw [hd]
    dsimp only
    rw [if_pos rfl, if_pos rfl]
    rw [ih (fun x hx => hmut x (by simp [hx])) (found + 1) _ (bufferRec trx r) rfl]
    have hcc : countedCount (r :: rs) = 1 + countedCount rs := by
      rw [countedCount_cons, if_pos (hmut r (by simp))]
    rw [hcc, ← Nat.add_assoc]
    rfl


theorem inserterPutCF_seq (p : InserterParams) (st : InserterState) (cf : Nat)
    (k v : List Nat) (hreb : st.rebuilding_trx = none) :
    (inserterPutCF p st cf k v).2.sequence = st.sequence + 1 := by
  unfold inserterPutCF
  rw [hreb]
  have hf := seek_fields p cf st
  rcases hseek : seekToColumnFamily p cf st with ⟨o, s2, st1⟩
  rw [hseek] at hf
  dsimp only at hf
  rcases o with _ | info <;> dsimp only <;> rw [hf.1]

theorem inserterDeleteCF_seq (p : InserterParams) (st : InserterState)
    (cf : Nat) (k : List Nat) (hreb : st.rebuilding_trx = none) :
    (inserterDeleteCF p st cf k).2.sequence = st.sequence + 1 := by
  unfold inserterDeleteCF
  rw [hreb]
  have hf := seek_fields p cf st
  rcases hseek : seekToColumnFamily p cf st with ⟨o, s2, st1⟩
  rw [hseek] at hf
  dsimp only at hf
  rcases o with _ | info <;> dsimp only [inserterDeleteImpl] <;> rw [hf.1]

theorem inserterSingleDeleteCF_seq (p : InserterParams) (st : InserterState)
    (cf : Nat) (k : List Nat) (hreb : st.rebuilding_trx = none) :
    (inserterSingleDeleteCF p st cf k).2.sequence = st.sequence + 1 := by
  unfold inserterSingleDeleteCF
  rw [hreb]
  have hf := seek_fields p cf st
  rcases hseek : seekToColumnFamily p cf st with ⟨o, s2, st1⟩
  rw [hseek] at hf
  dsimp only at hf
  rcases o with _ | info <;> dsimp only [inserterDeleteImpl] <;> rw [hf.1]

theorem inserterMergeCF_seq (p : InserterParams) (st : InserterState)
    (cf : Nat) (k v : List Nat) (hreb : st.rebuilding_trx = none) :
    (inserterMergeCF p st cf k v).2.sequence = st.sequence + 1 := by
  unfold inserterMergeCF
  rw [hreb]
  have hf := seek_fields p cf st
  rcases hseek : seekToColumnFamily p cf st with ⟨o, s2, st1⟩
  rw [hseek] at hf
  dsimp only at hf
  rcases o with _ | info <;> dsimp only <;> rw [hf.1]

theorem inserterDeleteRangeCF_seq (p : InserterParams) (st : InserterState)
    (cf : Nat) (bk ek : List Nat) (hreb : st.rebuilding_trx = none)
    (hns : (inserterDeleteRangeCF p st cf bk ek).1 ≠ Status.notSupported) :
    (inserterDeleteRangeCF p st cf bk ek).2.sequence = st.sequence + 1 := by
  unfold inserterDeleteRangeCF at hns ⊢
  rw [hreb] at hns ⊢
  have hf := seek_fields p cf st
  rcases hseek : seekToColumnFamily p cf st with ⟨o, s2, st1⟩
  rw [hseek] at hf hns
  dsimp only at hf hns ⊢
  rcases o with _ | info
  · dsimp only
    rw [hf.1]
  · dsimp only at hns ⊢
    split at hns
    · exact absurd rfl hns
    · rename_i hcond
      rw [if_neg hcond]
      dsimp only [inserterDeleteImpl]
      rw [hf.1]

/-- `runRecs` does nothing once `Continue` is false. -/
theorem runRecs_stop (h : Handler σ) (recs : List Rec) (found : Nat) (st : σ)
    (hc : h.Continue st = false) :
    runRecs h recs found st = (Status.ok, found, st) := by
  cases recs <;> simp [runRecs, hc]

/-- Splitting a `runRecs` over an append when the first part's status is
ok. -/
theorem runRecs_append_ok (h : Handler σ) (ys : List Rec) :
    ∀ (xs : List Rec) (found : Nat) (st : σ),
    (runRecs h xs found st).1 = Status.ok →
    runRecs h (xs ++ ys) found st =
      runRecs h ys (runRecs h xs found st).2.1 (runRecs h xs found st).2.2 := by
  intro xs
  induction xs with
  | nil => intro found st _; rfl
  | cons r rs ih =>
    intro found st hok
    cases hc : h.Continue st with
    | false =>
      rw [List.cons_append, runRecs_stop h (r :: (rs ++ ys)) found st hc,
        runRecs_stop h (r :: rs) found st hc]
      dsimp only
      rw [runRecs_stop h ys found st hc]
    | true =>
      have hstep : ∀ zs : List Rec,
          (dispatchRec h r st).1 = Status.ok →
          runRecs h (r :: zs) found st =
            runRecs h zs
              (if (dispatchRec h r st).2.1 then found + 1 else found)
              (dispatchRec h r st).2.2 := by
        intro zs hd
        rw [runRecs, if_pos hc]
        dsimp only
        rw [if_pos hd]
      rw [runRecs, if_pos hc] at hok
      dsimp only at hok
      by_cases hd : (dispatchRec h r st).1 = Status.ok
      · rw [if_pos hd] at hok
        rw [List.cons_append, hstep (rs ++ ys) hd, hstep rs hd]
        exact ih _ _ hok
      · rw [if_neg hd] at hok
        exact absurd hok hd

/-- C1 (amended): sequence-number discipline of the `MemTableInserter`.
With `rebuilding_trx_ == nullptr` every put, delete, single-delete and
merge dispatch increments the sequence by exactly one regardless of
whether anything was written (missing-CF and log-cutoff-filtered records
included), and a range-delete dispatch does too unless it returns
not-supported (with a DB whose table type lacks range deletion, an early
return that skips the increment).  A counted record dispatched while a
transaction is being rebuilt (recovery prepared-section buffering) is
appended to that transaction, returns ok, and leaves the sequence — and
every other field but the rebuilt batch — unchanged.  Consequently an
inserter started at seq₀ on `n` counted records whose seeks cannot fail
(and with range deletion supported where used) finishes at seq₀ + n. -/
theorem claim_C1 (p : InserterParams)
    (nested : WriteBatch → InserterState → Status × InserterState)
    (st : InserterState) :
    (st.rebuilding_trx = none →
      (∀ cf k v, (inserterPutCF p st cf k v).2.sequence = st.sequence + 1) ∧
      (∀ cf k, (inserterDeleteCF p st cf k).2.sequence = st.sequence + 1) ∧
      (∀ cf k, (inserterSingleDeleteCF p st cf k).2.sequence = st.sequence + 1) ∧
      (∀ cf k v, (inserterMergeCF p st cf k v).2.sequence = st.sequence + 1) ∧
      (∀ cf bk ek, (inserterDeleteRangeCF p st cf bk ek).1 ≠ Status.notSupported →
        (inserterDeleteRangeCF p st cf bk ek).2.sequence = st.sequence + 1)) ∧
    (∀ trx, st.rebuilding_trx = some trx →
      ∀ cf k v, inserterPutCF p st cf k v =
        (Status.ok, { st with
          rebuilding_trx := some (WriteBatchInternal.Put trx cf k v).2 })) ∧
    (∀ muts : List Rec, (∀ r ∈ muts, r.isCounted = true) →
      (∀ r ∈ muts, replayOk p r) → st.rebuilding_trx = none → ∀ found,
      (runRecs (inserterHandlerCore p nested) muts found st).2.2.sequence =
        st.sequence + countedCount muts) := by
  refine ⟨fun hreb => ⟨fun cf k v => inserterPutCF_seq p st cf k v hreb,
    fun cf k => inserterDeleteCF_seq p st cf k hreb,
    fun cf k => inserterSingleDeleteCF_seq p st cf k hreb,
    fun cf k v => inserterMergeCF_seq p st cf k v hreb,
    fun cf bk ek hns => inserterDeleteRangeCF_seq p st cf bk ek hreb hns⟩,
    fun trx htrx cf k v => inserterPutCF_buffer p st cf k v trx htrx,
    fun muts hmut hro hreb found =>
      (runRecs_inserter p nested muts hmut hro found st hreb).2.2.1⟩

/-- Inserter state with a rebuilding transaction in progress: what the
inserter looks like between begin-prepare and end-prepare in recovery. -/
def stRebuild : InserterState := ⟨5, 0, some (WriteBatch.new 0), false, [], []⟩

/-- Inserter parameters with no CFs and missing CFs ignored. -/
def pPlain : InserterParams :=
  ⟨fun _ => none, true, 0, false, false, false, fun _ _ _ => false,
    fun _ _ _ => .notUpdated, fun _ _ => 0, fun _ _ _ => none⟩

/-- C1 counterexample to the frozen claim: a put dispatched while a
rebuilding transaction is active returns ok — a counted record — yet the
inserter's sequence is NOT incremented (write_batch.cc returns from
`PutCF` before `sequence_++` when `rebuilding_trx_ != nullptr`). -/
theorem claim_C1_counterexample :
    (inserterPutCF pPlain stRebuild 0 [107] [118]).1 = Status.ok ∧
    (inserterPutCF pPlain stRebuild 0 [107] [118]).2.sequence =
      stRebuild.sequence := by
  exact ⟨rfl, rfl⟩

/-- Inserter state outside rebuilding mode used by the C1 witness. -/
def stPlain : InserterState := ⟨5, 0, none, false, [], []⟩

/-- C1 witness: with no rebuilding transaction, a put bumps the sequence
by one, and running two counted records advances it by two. -/
theorem claim_C1_witness :
    (inserterPutCF pPlain stPlain 0 [97] [49]).2.sequence =
      stPlain.sequence + 1 ∧
    (runRecs (inserterHandlerCore pPlain (fun _ s => (Status.ok, s)))
        [Rec.put 0 [97] [49], Rec.del 0 [98]] 0 stPlain).2.2.sequence =
      stPlain.sequence + 2 := by
  have h := claim_C1 pPlain (fun _ s => (Status.ok, s)) stPlain
  refine ⟨(h.1 rfl).1 0 [97] [49], ?_⟩
  have h3 := h.2.2 [Rec.put 0 [97] [49], Rec.del 0 [98]] (by decide)
    (by
      intro r hr
      rcases List.mem_cons.mp hr with rfl | hr2
      · exact Or.inr rfl
      · rw [List.mem_singleton.mp hr2]
        exact Or.inr rfl)
    rfl 0
  exact h3


/-! ## Recovery of prepared transactions (claim C4). -/

/-- Invariant of the transaction batch being rebuilt: its payload decodes
to exactly the buffered records, its header count matches, its bytes are
in range and its `max_bytes` is unset (so buffering never fails). -/
def TrxInv (recs : List Rec) (b : WriteBatch) : Prop :=
  decodeAll (b.rep.drop 12) = some recs ∧ 12 ≤ b.rep.length ∧
  (∀ x ∈ (b.rep.drop 8).take 4, x < 256) ∧
  WriteBatchInternal.Count b = countedCount recs ∧ b.max_bytes = 0

theorem TrxInv_new : TrxInv [] (WriteBatch.new 0) :=
  ⟨by rw [show (WriteBatch.new 0).rep.drop 12 = [] from rfl, decodeAll],
    by decide, by decide, rfl, rfl⟩

theorem TrxInv_mk (b : WriteBatch) (recs : List Rec)
    (hdec : decodeAll (b.rep.drop 12) = some recs) (hlen : 12 ≤ b.rep.length)
    (hcount : WriteBatchInternal.Count b = countedCount recs)
    (hmax : b.max_bytes = 0) (r : Rec) (hwf : r.wf) (hmut : r.isCounted = true)
    (hbound : countedCount recs + 1 < 4294967296) (f2 : Nat) :
    TrxInv (recs ++ [r])
      ⟨b.rep.take 8 ++ putFixed32 (WriteBatchInternal.Count b + 1) ++
        b.rep.drop 12 ++ encRec r, f2, b.max_bytes, b.save_points,
        b.wal_term_point⟩ := by
  refine ⟨?_, ?_, ?_, ?_, hmax⟩
  · show decodeAll ((b.rep.take 8 ++ putFixed32 (WriteBatchInternal.Count b + 1)
        ++ b.rep.drop 12 ++ encRec r).drop 12) = _
    rw [drop12_decomp b hlen _ (encRec r) (putFixed32_length _)]
    exact decodeAll_append (encRec r) [r] (decodeAll_encRec r hwf)
      (b.rep.drop 12).length (b.rep.drop 12) (le_refl _) recs hdec
  · show 12 ≤ (b.rep.take 8 ++ putFixed32 (WriteBatchInternal.Count b + 1) ++
        b.rep.drop 12 ++ encRec r).length
    rw [length_decomp b hlen _ (encRec r) (putFixed32_length _)]
    omega
  · show ∀ x ∈ ((b.rep.take 8 ++ putFixed32 (WriteBatchInternal.Count b + 1) ++
        b.rep.drop 12 ++ encRec r).drop 8).take 4, x < 256
    rw [drop8_decomp b hlen _ (encRec r) (putFixed32_length _),
      ← putFixed32_length (WriteBatchInternal.Count b + 1), List.take_left]
    exact putFixed32_lt_256 _
  · rw [Count_decomp b hlen _ (encRec r) (putFixed32_length _) f2]
    have h1 := decodeFixed32_put (WriteBatchInternal.Count b + 1) []
    rw [List.append_nil] at h1
    have hc1 : countedCount [r] = 1 := by
      rw [countedCount_cons, countedCount_nil, if_pos hmut]
    rw [h1, hcount, Nat.mod_eq_of_lt hbound, countedCount_append, hc1]

theorem TrxInv_extend (recs : List Rec) (b : WriteBatch) (hinv : TrxInv recs b)
    (r : Rec) (hmut : r.isCounted = true) (hwf : r.wf)
    (hbound : countedCount recs + 1 < 4294967296) :
    TrxInv (recs ++ [r]) (bufferRec b r) := by
  obtain ⟨hdec, hlen, hcb, hcount, hmax⟩ := hinv
  cases r with
  | put cf k v =>
    show TrxInv _ (WriteBatchInternal.Put b cf k v).2
    rw [Put_result b cf k v hlen hcb, if_neg (by rw [hmax]; simp)]
    exact TrxInv_mk b recs hdec hlen hcount hmax _ hwf hmut hbound _
  | del cf k =>
    show TrxInv _ (WriteBatchInternal.Delete b cf k).2
    rw [Delete_result b cf k hlen hcb, if_neg (by rw [hmax]; simp)]
    exact TrxInv_mk b recs hdec hlen hcount hmax _ hwf hmut hbound _
  | singleDel cf k =>
    show TrxInv _ (WriteBatchInternal.SingleDelete b cf k).2
    rw [SingleDelete_result b cf k hlen hcb, if_neg (by rw [hmax]; simp)]
    exact TrxInv_mk b recs hdec hlen hcount hmax _ hwf hmut hbound _
  | delRange cf bk ek =>
    show TrxInv _ (WriteBatchInternal.DeleteRange b cf bk ek).2
    rw [DeleteRange_result b cf bk ek hlen hcb, if_neg (by rw [hmax]; simp)]
    exact TrxInv_mk b recs hdec hlen hcount hmax _ hwf hmut hbound _
  | merge cf k v =>
    show TrxInv _ (WriteBatchInternal.Merge b cf k v).2
    rw [Merge_result b cf k v hlen hcb, if_neg (by rw [hmax]; simp)]
    exact TrxInv_mk b recs hdec hlen hcount hmax _ hwf hmut hbound _
  | logData blob => simp [Rec.isCounted] at hmut
  | noop => simp [Rec.isCounted] at hmut
  | beginPrepare => simp [Rec.isCounted] at hmut
  | endPrepare xid => simp [Rec.isCounted] at hmut
  | commitMark xid => simp [Rec.isCounted] at hmut
  | rollbackMark xid => simp [Rec.isCounted] at hmut

theorem TrxInv_fold : ∀ (muts : List Rec), (∀ r ∈ muts, r.isCounted = true) →
    (∀ r ∈ muts, r.wf) → ∀ (recs : List Rec) (b : WriteBatch), TrxInv recs b →
    countedCount recs + countedCount muts < 4294967296 →
    TrxInv (recs ++ muts) (muts.foldl bufferRec b) := by
  intro muts
  induction muts with
  | nil =>
    intro _ _ recs b hinv _
    simpa using hinv
  | cons r rs ih =>
    intro hmut hwf recs b hinv hbound
    have hcc : countedCount (r :: rs) = 1 + countedCount rs := by
      rw [countedCount_cons, if_pos (hmut r (by simp))]
    have hc1 : countedCount [r] = 1 := by
      rw [countedCount_cons, countedCount_nil, if_pos (hmut r (by simp))]
    have hstep := TrxInv_extend recs b hinv r (hmut r (by simp))
      (hwf r (by simp)) (by omega)
    have hrest := ih (fun x hx => hmut x (by simp [hx]))
      (fun x hx => hwf x (by simp [hx])) (recs ++ [r]) (bufferRec b r) hstep
      (by rw [countedCount_append, hc1]; omega)
    simpa [List.append_assoc] using hrest

theorem buildTrx_inv (muts : List Rec) (hmut : ∀ r ∈ muts, r.isCounted = true)
    (hwf : ∀ r ∈ muts, r.wf) (hcnt : countedCount muts < 4294967296) :
    TrxInv muts (buildTrx muts) := by
  have h := TrxInv_fold muts hmut hwf [] (WriteBatch.new 0) TrxInv_new
    (by rw [countedCount_nil]; simpa using hcnt)
  simpa using h

/-- `Iterate` over a decodable payload whose record run returns ok:
the outcome is the count check against the records processed. -/
theorem Iterate_run_gen (h : Handler σ) (b : WriteBatch) (recs : List Rec)
    (st : σ) (hlen : 12 ≤ b.rep.length)
    (hdec : decodeAll (b.rep.drop 12) = some recs)
    (hs : (runRecs h recs 0 st).1 = Status.ok) :
    b.Iterate h st =
      (if (runRecs h recs 0 st).2.1 = WriteBatchInternal.Count b then Status.ok
       else Status.corruption .wrongCount,
       (runRecs h recs 0 st).2.2) := by
  unfold WriteBatch.Iterate WriteBatchInternal.kHeader
  rw [if_neg (by omega)]
  have hres : iterateLoop h (b.rep.drop 12) 0 st = runRecs h recs 0 st :=
    iterateLoop_eq_runRecs h (b.rep.drop 12).length (b.rep.drop 12)
      (le_refl _) recs 0 st hdec
  dsimp only
  rw [hres]
  rcases hrr : runRecs h recs 0 st with ⟨s1, p1⟩
  rcases p1 with ⟨f1, st1⟩
  rw [hrr] at hs
  dsimp only at hs ⊢
  rw [hs]
  rw [if_neg (by simp)]
  by_cases hcc : f1 = WriteBatchInternal.Count b
  · rw [if_neg (by omega), if_pos hcc]
  · rw [if_pos (by omega), if_neg hcc]

theorem dispatch_beginPrepare (p : InserterParams)
    (nested : WriteBatch → InserterState → Status × InserterState)
    (st : InserterState) (hrec : p.recovering_log_number ≠ 0)
    (h2pc : p.allow2pc = true) :
    dispatchRec (inserterHandlerCore p nested) Rec.beginPrepare st =
      (Status.ok, false,
        { st with
            rebuilding_trx := some (WriteBatch.new 0)
            has_valid_writes := true }) := by
  dsimp only [dispatchRec, inserterHandlerCore]
  unfold inserterMarkBeginPrepare
  rw [if_pos hrec, if_neg (by rw [h2pc]; exact fun h => Bool.noConfusion h)]

theorem dispatch_endPrepare (p : InserterParams)
    (nested : WriteBatch → InserterState → Status × InserterState)
    (st : InserterState) (xid : List Nat) (trx : WriteBatch)
    (hrec : p.recovering_log_number ≠ 0) (hreb : st.rebuilding_trx = some trx) :
    dispatchRec (inserterHandlerCore p nested) (Rec.endPrepare xid) st =
      (Status.ok, false,
        { st with
            recovered := st.recovered ++ [(xid, ⟨p.recovering_log_number, trx⟩)]
            rebuilding_trx := none }) := by
  dsimp only [dispatchRec, inserterHandlerCore]
  unfold inserterMarkEndPrepare
  rw [if_pos hrec, hreb]

/-- Phase 1 of recovery: iterating `begin_prepare, mutations…,
end_prepare(xid)` with the inserter leaves the sequence, effect log and
log reference untouched and hands the rebuilt batch keyed by `xid`, with
the recovering log number, to the recovered-transactions table. -/
theorem runRecs_prepare (p : InserterParams)
    (nested : WriteBatch → InserterState → Status × InserterState)
    (hrec : p.recovering_log_number ≠ 0) (h2pc : p.allow2pc = true)
    (muts : List Rec) (hmut : ∀ r ∈ muts, r.isCounted = true) (xid : List Nat)
    (found : Nat) (st0 : InserterState) (hreb : st0.rebuilding_trx = none) :
    runRecs (inserterHandlerCore p nested)
        (Rec.beginPrepare :: (muts ++ [Rec.endPrepare xid])) found st0 =
      (Status.ok, found + countedCount muts,
        ⟨st0.sequence, st0.log_number_ref, none, true, st0.effects,
          st0.recovered ++ [(xid, ⟨p.recovering_log_number, buildTrx muts⟩)]⟩) := by
  have hc : (inserterHandlerCore p nested).Continue st0 = true := rfl
  rw [runRecs, if_pos hc]
  dsimp only
  rw [dispatch_beginPrepare p nested st0 hrec h2pc]
  dsimp only
  rw [if_pos rfl, if_neg (by simp)]
  have hbuf := runRecs_buffer p nested muts hmut found
    { st0 with
        rebuilding_trx := some (WriteBatch.new 0)
        has_valid_writes := true } (WriteBatch.new 0) rfl
  rw [runRecs_append_ok (inserterHandlerCore p nested) [Rec.endPrepare xid]
    muts found _ (by rw [hbuf]), hbuf]
  dsimp only
  have hone : ∀ (st2 : InserterState) (f2 : Nat),
      st2.rebuilding_trx = some (List.foldl bufferRec (WriteBatch.new 0) muts) →
      runRecs (inserterHandlerCore p nested) [Rec.endPrepare xid] f2 st2 =
        (Status.ok, f2,
          { st2 with
              recovered := st2.recovered ++
                [(xid, ⟨p.recovering_log_number,
                  List.foldl bufferRec (WriteBatch.new 0) muts⟩)]
              rebuilding_trx := none }) := by
    intro st2 f2 h2
    have hcx : (inserterHandlerCore p nested).Continue st2 = true := rfl
    rw [runRecs, if_pos hcx]
    dsimp only
    rw [dispatch_endPrepare p nested st2 xid _ hrec h2]
    dsimp only
    rw [if_pos rfl, if_neg (by simp), runRecs]
  exact hone _ _ rfl

theorem lookupTrx_none_keys : ∀ (l : List (List Nat × RecoveredTrx))
    (xid : List Nat), lookupTrx l xid = none → ∀ e ∈ l, e.1 ≠ xid := by
  intro l xid
  induction l with
  | nil => intro _ e he; simp at he
  | cons hd rest ih =>
    rcases hd with ⟨x, t⟩
    intro h e he
    rw [lookupTrx] at h
    split at h
    · exact absurd h (by simp)
    · rcases List.mem_cons.mp he with rfl | he2
      · rename_i hne
        exact hne
      · exact ih h e he2

theorem lookupTrx_append (l : List (List Nat × RecoveredTrx)) (xid : List Nat)
    (t : RecoveredTrx) (h : lookupTrx l xid = none) :
    lookupTrx (l ++ [(xid, t)]) xid = some t := by
  induction l with
  | nil => simp [lookupTrx]
  | cons hd rest ih =>
    rcases hd with ⟨x, t2⟩
    rw [lookupTrx] at h
    rw [List.cons_append, lookupTrx]
    split at h
    · exact absurd h (by simp)
    · rename_i hne
      rw [if_neg hne]
      exact ih h

theorem removeTrx_append (l : List (List Nat × RecoveredTrx)) (xid : List Nat)
    (t : RecoveredTrx) (h : lookupTrx l xid = none) :
    removeTrx (l ++ [(xid, t)]) xid = l := by
  unfold removeTrx
  rw [List.filter_append]
  have h1 : List.filter (fun e => decide (e.1 ≠ xid)) [(xid, t)] = [] := by
    simp
  have h2 : List.filter (fun e => decide (e.1 ≠ xid)) l = l :=
    List.filter_eq_self.mpr (fun e he => by
      simpa using lookupTrx_none_keys l xid h e he)
  rw [h1, h2, List.append_nil]


/-- C4: recovery of a prepared transaction.  In recovery mode
(`recovering_log_number ≠ 0`, 2PC allowed), (1) running
`begin_prepare, mutations…, end_prepare(xid)` through the inserter
inserts nothing into any memtable (effect log, sequence, log reference
all unchanged) and hands the DB's recovered-transactions table a rebuilt
batch keyed by `xid` carrying the recovering log number; (2) that batch's
payload decodes to exactly the buffered mutations, (3) with a matching
header count; and (4) a later commit(xid) on a state holding that entry
references the prep log, replays the rebuilt batch through the same
inserter — the final state is the record run of the mutations from the
commit-time state with the log reference set — returns ok, clears the
log reference and removes the transaction from the table. -/
theorem claim_C4 (p : InserterParams)
    (nested : WriteBatch → InserterState → Status × InserterState)
    (hrec : p.recovering_log_number ≠ 0) (h2pc : p.allow2pc = true)
    (muts : List Rec) (hmut : ∀ r ∈ muts, r.isCounted = true)
    (hwfm : ∀ r ∈ muts, r.wf) (hro : ∀ r ∈ muts, replayOk p r)
    (hcnt : countedCount muts < 4294967296) (xid : List Nat)
    (found : Nat) (st0 : InserterState) (hreb : st0.rebuilding_trx = none) :
    runRecs (inserterHandlerCore p nested)
        (Rec.beginPrepare :: (muts ++ [Rec.endPrepare xid])) found st0 =
      (Status.ok, found + countedCount muts,
        ⟨st0.sequence, st0.log_number_ref, none, true, st0.effects,
          st0.recovered ++ [(xid, ⟨p.recovering_log_number, buildTrx muts⟩)]⟩) ∧
    decodeAll ((buildTrx muts).rep.drop 12) = some muts ∧
    WriteBatchInternal.Count (buildTrx muts) = countedCount muts ∧
    (∀ st1 : InserterState, st1.rebuilding_trx = none →
      lookupTrx st1.recovered xid =
        some ⟨p.recovering_log_number, buildTrx muts⟩ →
      ∀ fuel : Nat,
        inserterMarkCommit p (inserterIter p (fuel + 1)) st1 xid =
          (Status.ok,
            ⟨st1.sequence + countedCount muts, 0, none, true,
              (runRecs (inserterHandlerCore p (inserterIter p fuel)) muts 0
                ⟨st1.sequence, p.recovering_log_number, none,
                  st1.has_valid_writes, st1.effects, st1.recovered⟩).2.2.effects,
              removeTrx st1.recovered xid⟩)) := by
  have hTI := buildTrx_inv muts hmut hwfm hcnt
  obtain ⟨hdec, hlen, hcb, hcount, hmax⟩ := hTI
  refine ⟨runRecs_prepare p nested hrec h2pc muts hmut xid found st0 hreb,
    hdec, hcount, ?_⟩
  intro st1 hreb1 hlook fuel
  unfold inserterMarkCommit
  rw [if_pos hrec, hlook]
  dsimp only
  have hst1eq : ({ st1 with log_number_ref := p.recovering_log_number } :
      InserterState) =
      ⟨st1.sequence, p.recovering_log_number, none, st1.has_valid_writes,
        st1.effects, st1.recovered⟩ := by
    rw [← hreb1]
  have hrun := runRecs_inserter p (inserterIter p fuel) muts hmut hro 0
    ⟨st1.sequence, p.recovering_log_number, none, st1.has_valid_writes,
      st1.effects, st1.recovered⟩ rfl
  have hiter : inserterIter p (fuel + 1) (buildTrx muts)
      ({ st1 with log_number_ref := p.recovering_log_number }) =
      (Status.ok,
        (runRecs (inserterHandlerCore p (inserterIter p fuel)) muts 0
          ⟨st1.sequence, p.recovering_log_number, none, st1.has_valid_writes,
            st1.effects, st1.recovered⟩).2.2) := by
    rw [hst1eq]
    show (buildTrx muts).Iterate (inserterHandlerCore p (inserterIter p fuel))
      _ = _
    rw [Iterate_run_gen (inserterHandlerCore p (inserterIter p fuel))
      (buildTrx muts) muts _ hlen hdec hrun.1]
    rw [if_pos (by rw [hrun.2.1, hcount]; simp)]
  rw [hiter]
  dsimp only
  rw [if_pos rfl]
  simp only [Prod.mk.injEq, InserterState.mk.injEq]
  exact ⟨trivial, hrun.2.2.1, trivial, hrun.2.2.2.1, trivial, trivial,
    by rw [hrun.2.2.2.2.1]⟩

/-- Parameters for the C4 witness: recovery at log 7, 2PC allowed, a
single column family that accepts everything. -/
def pRecover : InserterParams :=
  ⟨fun _ => some ⟨0, false, false, 0, true⟩, false, 7, false, true, false,
    fun _ _ _ => false, fun _ _ _ => .notUpdated, fun _ _ => 0,
    fun _ _ _ => none⟩

/-- Fresh inserter state for the C4 witness. -/
def stRecover : InserterState := ⟨0, 0, none, false, [], []⟩

/-- Inserter state after the C4 witness's phase 1: the rebuilt one-put
transaction is in the table under xid "x". -/
def stRecover2 : InserterState :=
  ⟨0, 0, none, true, [],
    [([120], ⟨7, buildTrx [Rec.put 0 [97] [49]]⟩)]⟩

/-- C4 witness: phase 1 buffers the put and registers the transaction;
the commit then replays it and empties the table. -/
theorem claim_C4_witness :
    runRecs (inserterHandlerCore pRecover (fun _ s => (Status.ok, s)))
        (Rec.beginPrepare :: ([Rec.put 0 [97] [49]] ++ [Rec.endPrepare [120]]))
        0 stRecover =
      (Status.ok, 0 + countedCount [Rec.put 0 [97] [49]],
        ⟨stRecover.sequence, stRecover.log_number_ref, none, true,
          stRecover.effects,
          stRecover.recovered ++
            [([120], ⟨pRecover.recovering_log_number,
              buildTrx [Rec.put 0 [97] [49]]⟩)]⟩) ∧
    inserterMarkCommit pRecover (inserterIter pRecover 1) stRecover2 [120] =
      (Status.ok,
        ⟨stRecover2.sequence + countedCount [Rec.put 0 [97] [49]], 0, none,
          true,
          (runRecs (inserterHandlerCore pRecover (inserterIter pRecover 0))
            [Rec.put 0 [97] [49]] 0
            ⟨stRecover2.sequence, pRecover.recovering_log_number, none,
              stRecover2.has_valid_writes, stRecover2.effects,
              stRecover2.recovered⟩).2.2.effects,
          removeTrx stRecover2.recovered [120]⟩) := by
  have h := claim_C4 pRecover (fun _ s => (Status.ok, s)) (by decide) rfl
    [Rec.put 0 [97] [49]] (by decide)
    (by
      intro r hr
      rw [List.mem_singleton.mp hr]
      exact ⟨by decide, by decide, by decide⟩)
    (by
      intro r hr
      rw [List.mem_singleton.mp hr]
      exact Or.inl (fun hc => Option.noConfusion hc))
    (by decide) [120] 0 stRecover rfl
  exact ⟨h.1, h.2.2.2 stRecover2 rfl rfl 0⟩

end rocksdb
